import Mathlib

/-!
# Delta encodings of parquet-cpp: a shallow embedding

Embedding of `src/encodings/delta-bit-pack-encoding.h` and
`src/encodings/delta-byte-array-encoding.h`.

Conventions of the embedding.

* `int64_t` arithmetic on `last_value_` and every conversion to a narrower or
  signed type is written with an explicit two's-complement wrap
  (`wrapSigned`).  The `int` counters (`num_values_`,
  `values_current_mini_block_`, `mini_block_idx_`) are mathematical integers:
  they only differ from the machine counters after a signed overflow, which is
  undefined behaviour in the source.
* The output buffer `T* buffer` is caller memory.  A call is described by the
  list of stores it performs, in program order (`writes`); `bufferAfter`
  replays the stores over the caller's initial buffer.
* A thrown `ParquetException` or `std::length_error` is an `Except.error`; the
  stores made before the throw stay in `writes`.  Allocations (`malloc`, and
  `std::vector::resize` up to `max_size()`) succeed: running out of memory
  depends on the process, not on the input.
* The suffix sub-decoder of the byte-array decoder is a parameter
  (`SuffixDecoder`).  A pointer with its length is the list of bytes it
  addresses; for a range that the byte-array decoder hands to a sub-decoder
  these are bytes of the bound buffer and, where the range leaves the buffer,
  bytes of the memory around it (`outside`).
-/

namespace parquet_cpp

/-! ## Machine integers -/

/-- Two's-complement value of `x` in a signed integer type of `bits` bits. -/
def wrapSigned (bits : Nat) (x : Int) : Int :=
  (x + 2 ^ (bits - 1)) % 2 ^ bits - 2 ^ (bits - 1)

/-- Conversion to `int` (32 bits). -/
def wrapInt32 (x : Int) : Int := wrapSigned 32 x

/-- Conversion to `int64_t`. -/
def wrapInt64 (x : Int) : Int := wrapSigned 64 x

/-- The element type `T` of `GetInternal<T>` and `DecodeBlock<T>`. -/
inductive IntType where
  | int32
  | int64
deriving DecidableEq, Repr

/-- Width of `T` in bits. -/
def IntType.bits : IntType → Nat
  | .int32 => 32
  | .int64 => 64

/-- Size of `T` in bytes (`sizeof(T)`). -/
def IntType.bytes : IntType → Nat
  | .int32 => 4
  | .int64 => 8

/-- Conversion of a 64-bit value to `T` (the store `buffer[i] = ...`). -/
def IntType.cast (T : IntType) (x : Int) : Int := wrapSigned T.bits x

/-- The exceptions of the decoders, and the executions the source leaves
undefined. -/
inductive ParquetError where
  /-- Thrown by `ParquetException::EofException()`. -/
  | Eof
  /-- Thrown by `ParquetException::NYI(...)`. -/
  | NYI
  /-- The `ParquetException` thrown by a constructor. -/
  | BadType
  /-- The `std::length_error` that `std::vector::resize` throws for a size
  above `max_size()`. -/
  | LengthError
  /-- Undefined behaviour of the source: integer division by zero, a load
  outside the bound buffer, a read of an uninitialised object. -/
  | Undefined
deriving DecidableEq, Repr

/-- Equality of outcomes is decidable. -/
instance instDecidableEqExcept {ε α : Type} [DecidableEq ε] [DecidableEq α] :
    DecidableEq (Except ε α) := fun a b =>
  match a, b with
  | .ok x, .ok y =>
    if h : x = y then isTrue (by rw [h]) else isFalse (fun h' => h (Except.ok.inj h'))
  | .error x, .error y =>
    if h : x = y then isTrue (by rw [h]) else isFalse (fun h' => h (Except.error.inj h'))
  | .ok _, .error _ => isFalse (fun h' => Except.noConfusion h')
  | .error _, .ok _ => isFalse (fun h' => Except.noConfusion h')

/-! ## The bit reader (`impala::BitReader`) -/

/-- The `n` low bits of `v`, least significant first. -/
def bitsLE : Nat → Nat → List Bool
  | 0, _ => []
  | n + 1, v => decide (v % 2 = 1) :: bitsLE n (v / 2)

/-- The number whose binary digits, least significant first, are `bs`. -/
def ofBits : List Bool → Nat
  | [] => 0
  | b :: bs => (if b then 1 else 0) + 2 * ofBits bs

/-- The bits of a byte buffer: byte by byte, least significant bit first. -/
def bitsOf : List Nat → List Bool
  | [] => []
  | b :: rest => bitsLE 8 b ++ bitsOf rest

/-- The little-endian number held by a run of bytes. -/
def leNat : List Nat → Nat
  | [] => 0
  | b :: rest => b % 256 + 256 * leNat rest

/-- Modelled from the spec: `impala::BitReader`, whose header is not among the
sources.  A positional cursor over an immutable byte buffer: `data` is the
bound buffer (`len` is its length) and `bitPos` the number of bits consumed so
far. -/
structure BitReader where
  data : List Nat
  bitPos : Nat
deriving DecidableEq, Repr

namespace BitReader

/-- Modelled from the spec: `GetValue(bitWidth)` of the missing `BitReader`:
reads exactly `num_bits` bits as an unsigned pattern, least significant bit
first, and advances the bit cursor; `none` when fewer bits remain. -/
def GetValue (r : BitReader) (num_bits : Nat) : Option (Nat × BitReader) :=
  if r.bitPos + num_bits ≤ 8 * r.data.length then
    some (ofBits (((bitsOf r.data).drop r.bitPos).take num_bits),
          { r with bitPos := r.bitPos + num_bits })
  else none

/-- Modelled from the spec: `GetAligned<uint8_t>(1, &v)` of the missing
`BitReader`: moves the cursor up to the next byte boundary and reads one
byte; `none` when no byte remains. -/
def GetAligned (r : BitReader) : Option (Nat × BitReader) :=
  match r.data[(r.bitPos + 7) / 8]? with
  | some b => some (b % 256, { r with bitPos := 8 * ((r.bitPos + 7) / 8 + 1) })
  | none => none

/-- Loop of `GetVlqInt`: one byte per round, seven payload bits each, the top
bit set on every byte but the last.  `fuel` bounds the number of rounds. -/
def GetVlqLoop : Nat → BitReader → Nat → Nat → Option (Nat × BitReader)
  | 0, _, _, _ => none
  | fuel + 1, r, shift, acc =>
    match r.GetAligned with
    | none => none
    | some (byte, r1) =>
      if byte / 128 = 1 then GetVlqLoop fuel r1 (shift + 7) (acc + byte % 128 * 2 ^ shift)
      else some ((acc + byte % 128 * 2 ^ shift) % 2 ^ 64, r1)

/-- Modelled from the spec: `GetVlqInt(uint64_t*)` of the missing `BitReader`:
reads an unsigned variable-length integer; `none` when the buffer ends
mid-value.  Every round consumes a byte, so `data.length + 1` rounds are
enough. -/
def GetVlqInt (r : BitReader) : Option (Nat × BitReader) :=
  GetVlqLoop (r.data.length + 1) r 0 0

/-- Zig-zag decoding of an unsigned 64-bit value: `(u >> 1) ^ -(u & 1)`. -/
def zigZagDecode (u : Nat) : Int :=
  if u % 2 = 0 then (u / 2 : Nat) else -((u / 2 : Nat) : Int) - 1

/-- Modelled from the spec: `GetZigZagVlqInt(int64_t*)` of the missing
`BitReader`: a zig-zag-encoded signed variable-length integer, same failure
contract as `GetVlqInt`. -/
def GetZigZagVlqInt (r : BitReader) : Option (Int × BitReader) :=
  match r.GetVlqInt with
  | none => none
  | some (u, r1) => some (zigZagDecode u, r1)

/-- Modelled from the spec: `current_ptr()` of the missing `BitReader`: the
buffer position for the bulk path, as a byte offset into `data` (the byte
holding the cursor). -/
def current_ptr (r : BitReader) : Nat := r.bitPos / 8

/-- Modelled from the spec: `SkipBytes(n)` of the missing `BitReader`:
advances the cursor by `n` bytes without interpretation. -/
def SkipBytes (r : BitReader) (n : Nat) : BitReader :=
  { r with bitPos := r.bitPos + 8 * n }

end BitReader

/-- The load `*reinterpret_cast<const T*>(data + off)`: `nbytes` bytes at byte
offset `off`, little endian; `none` when the load is not inside the buffer. -/
def loadWord (data : List Nat) (off nbytes : Nat) : Option Nat :=
  if off + nbytes ≤ data.length then some (leNat ((data.drop off).take nbytes)) else none

/-! ## `DeltaBitPackDecoder` -/

/-- The `parquet::Type::type` enumeration of the format definition. -/
inductive ParquetType where
  | BOOLEAN
  | INT32
  | INT64
  | INT96
  | FLOAT
  | DOUBLE
  | BYTE_ARRAY
  | FIXED_LEN_BYTE_ARRAY
deriving DecidableEq, Repr

/-- The nested `struct DecodeData`. -/
structure DecodeData where
  byte_offset : Nat
  shift : Nat
deriving DecidableEq, Repr

/-- Loop of `Init(DecodeData* data, int bit_width)`: `n` entries are still
to be filled and `bit_offset` is the running bit offset. -/
def InitLoop : Nat → Nat → Nat → List DecodeData
  | 0, _, _ => []
  | n + 1, bit_offset, bit_width =>
    { byte_offset := bit_offset / 8, shift := bit_offset % 8 } ::
      InitLoop n (bit_offset + bit_width) bit_width

/-- The table built by `Init(DecodeData* data, int bit_width)`. -/
def Init (bit_width : Nat) : List DecodeData := InitLoop 32 0 bit_width

/-- The static table `decode_data_14_` after `Init()`. -/
def decode_data_14_ : List DecodeData := Init 14

/-- The static table `decode_data_15_` after `Init()`. -/
def decode_data_15_ : List DecodeData := Init 15

/-- The data members of `DeltaBitPackDecoder` (with `num_values_` of the base
class `Decoder`). -/
structure DeltaBitPackDecoder where
  num_values_ : Int
  decoder_ : BitReader
  values_current_block_ : Nat
  num_mini_blocks_ : Nat
  values_per_mini_block_ : Int
  values_current_mini_block_ : Int
  min_delta_ : Int
  mini_block_idx_ : Int
  delta_bit_widths_ : List Nat
  delta_bit_width_ : Nat
  last_value_ : Int
deriving DecidableEq, Repr

namespace DeltaBitPackDecoder

/-- The constructor `DeltaBitPackDecoder(const parquet::Type::type& type)`.
It initialises no data member itself: `uninit` carries the indeterminate
values of the scalar members, `delta_bit_widths_` is default-constructed
(empty) and so is `decoder_`. -/
def construct (type : ParquetType) (uninit : DeltaBitPackDecoder) :
    Except ParquetError DeltaBitPackDecoder :=
  if type ≠ ParquetType.INT32 ∧ type ≠ ParquetType.INT64 then .error .BadType
  else .ok { uninit with delta_bit_widths_ := [], decoder_ := { data := [], bitPos := 0 } }

/-- The method `SetData(int num_values, const uint8_t* data, int len)`; `data`
is the buffer of `len` bytes. -/
def SetData (d : DeltaBitPackDecoder) (num_values : Int) (data : List Nat) :
    DeltaBitPackDecoder :=
  { d with
    num_values_ := num_values
    decoder_ := { data := data, bitPos := 0 }
    values_current_block_ := 0
    values_current_mini_block_ := 0 }

/-- The loop `for (int i = 0; i < num_mini_blocks_; ++i)` of `InitBlock`: one
`GetAligned<uint8_t>` per mini-block. -/
def readWidths : Nat → BitReader → Option (List Nat × BitReader)
  | 0, r => some ([], r)
  | n + 1, r =>
    match r.GetAligned with
    | none => none
    | some (w, r1) =>
      match readWidths n r1 with
      | none => none
      | some (ws, r2) => some (w :: ws, r2)

/-- A failed read of the bit reader raises `EofException`. -/
def orEof {α : Type} : Option α → Except ParquetError α
  | some a => .ok a
  | none => .error .Eof

/-- What the reads of `InitBlock` deliver, in the order they are made, and the
reader after them. -/
structure BlockHeader where
  block_size : Nat
  num_mini_blocks : Nat
  values_current_block : Nat
  last_value : Int
  min_delta : Int
  delta_bit_widths : List Nat
  reader : BitReader
deriving DecidableEq, Repr

/-- The largest size of `std::vector<uint8_t>`: `max_size()`, which is
`PTRDIFF_MAX` where `size_t` has 64 bits. -/
def maxVectorSize : Nat := 2 ^ 63 - 1

/-- The call `delta_bit_widths_.resize(num_mini_blocks_)` of `InitBlock`: it
throws `std::length_error` for a size above `max_size()`.  An allocation of
at most `max_size()` bytes is taken to succeed: whether the process grants it
(or `resize` throws `std::bad_alloc`) depends on the process, not on the
input. -/
def resizeWidths (num_mini_blocks : Nat) : Except ParquetError Unit :=
  if maxVectorSize < num_mini_blocks then .error .LengthError else .ok ()

/-- Lines 57-71 of `InitBlock()`: the reads, each followed by
`ParquetException::EofException()` when it fails (three `GetVlqInt`, two
`GetZigZagVlqInt`, and one `GetAligned<uint8_t>` per mini-block), with the
call `delta_bit_widths_.resize(num_mini_blocks_)` between the read of the
first value and the read of the minimum delta. -/
def readBlockHeader (r : BitReader) : Except ParquetError BlockHeader := do
  let (block_size, r1) ← orEof r.GetVlqInt
  let (num_mini_blocks, r2) ← orEof r1.GetVlqInt
  let (values_current_block, r3) ← orEof r2.GetVlqInt
  let (last_value, r4) ← orEof r3.GetZigZagVlqInt
  resizeWidths num_mini_blocks
  let (min_delta, r5) ← orEof r4.GetZigZagVlqInt
  let (widths, r6) ← orEof (readWidths num_mini_blocks r5)
  .ok { block_size := block_size, num_mini_blocks := num_mini_blocks,
        values_current_block := values_current_block, last_value := last_value,
        min_delta := min_delta, delta_bit_widths := widths, reader := r6 }

/-- The method `InitBlock()`: the reads and the resize of `readBlockHeader`,
assigned to the members, then lines 72-75.  With `num_mini_blocks_ = 0` the division
`block_size / num_mini_blocks_` and the access `delta_bit_widths_[0]` are
undefined. -/
def InitBlock (d : DeltaBitPackDecoder) : Except ParquetError DeltaBitPackDecoder :=
  match readBlockHeader d.decoder_ with
  | .error e => .error e
  | .ok h =>
    if h.num_mini_blocks = 0 then .error .Undefined
    else
      .ok { d with
            decoder_ := h.reader
            num_mini_blocks_ := h.num_mini_blocks
            values_current_block_ := h.values_current_block
            last_value_ := h.last_value
            delta_bit_widths_ := h.delta_bit_widths
            min_delta_ := h.min_delta
            values_per_mini_block_ := wrapInt32 ((h.block_size / h.num_mini_blocks : Nat) : Int)
            mini_block_idx_ := 0
            delta_bit_width_ := h.delta_bit_widths.getD 0 0
            values_current_mini_block_ :=
              wrapInt32 ((h.block_size / h.num_mini_blocks : Nat) : Int) }

/-- One slot of `DecodeBlock<T>`: the stores `buffer[i] = *reinterpret_cast<const T*>(data + offsets[i].byte_offset)`,
`buffer[i] >>= offsets[i].shift` and `buffer[i] &= mask`, as the value the slot
holds after the third.  `base` is the byte offset of `data` in the bound
buffer and `mask = uint64_t(-1) >> (64 - delta_bit_width_)`. -/
def DecodeBlockSlot (T : IntType) (delta_bit_width : Nat) (entry : DecodeData)
    (data : List Nat) (base : Nat) : Option Int :=
  match loadWord data (base + entry.byte_offset) T.bytes with
  | none => none
  | some w =>
    let mask : Nat := (2 ^ 64 - 1) >>> (64 - delta_bit_width)
    let shifted : Int := (wrapSigned T.bits (w : Int)) >>> entry.shift
    some (T.cast (((shifted % 2 ^ 64).toNat &&& mask : Nat) : Int))

/-- The method `DecodeBlock<T>(offsets, data, buffer)`: the 32 values it leaves
in `buffer[0..31]`; `none` when one of its loads leaves the bound buffer. -/
def DecodeBlock (T : IntType) (delta_bit_width : Nat) :
    List DecodeData → List Nat → Nat → Option (List Int)
  | [], _, _ => some []
  | entry :: offsets, data, base =>
    match DecodeBlockSlot T delta_bit_width entry data base with
    | none => none
    | some v =>
      match DecodeBlock T delta_bit_width offsets data base with
      | none => none
      | some vs => some (v :: vs)

/-- The stores of one call: `(i, v)` is `buffer[i] = v`. -/
abbrev Writes := List (Nat × Int)

/-- How one round of the loop of `GetInternal` ends. -/
inductive SlotExit where
  /-- The round ends (also by `continue`) and the loop goes on. -/
  | next (d : DeltaBitPackDecoder) (log : Writes)
  /-- The statement `return 32` of the bulk path. -/
  | ret (count : Int) (d : DeltaBitPackDecoder) (log : Writes)
  /-- An exception leaves the call. -/
  | raise (e : ParquetError) (log : Writes)
deriving DecidableEq, Repr

/-- The loop `for (int i = 0; i < 32; ++i)` of the bulk path:
`buffer[i] = last_value_ + min_delta_ + buffer[i]; last_value_ = buffer[i];`
where `buffer[i]` holds what `DecodeBlock` left there. -/
def accumulate (T : IntType) (min_delta : Int) : List Int → Nat → Int → Writes → Int × Writes
  | [], _, last_value, log => (last_value, log)
  | raw :: rest, i, last_value, log =>
    let v := T.cast (wrapInt64 (wrapInt64 (last_value + min_delta) + raw))
    accumulate T min_delta rest (i + 1) v (log ++ [(i, v)])

/-- Lines 105-112 of `GetInternal`, run on what `DecodeBlock` left in
`buffer[0..31]` (`raw`; `none` when one of its loads left the bound buffer):
the accumulation loop, `SkipBytes`, the reset of the mini-block counter and
`return 32`. -/
def finishBulk (T : IntType) (d : DeltaBitPackDecoder) (log : Writes) :
    Option (List Int) → SlotExit
  | none => .raise .Undefined log
  | some raw =>
    .ret 32
      { d with
        last_value_ :=
          (accumulate T d.min_delta_ raw 0 d.last_value_ (log ++ (List.range 32).zip raw)).1
        decoder_ := d.decoder_.SkipBytes (32 * d.delta_bit_width_ / 8)
        values_current_mini_block_ := 0
        num_values_ := d.num_values_ - 32 }
      (accumulate T d.min_delta_ raw 0 d.last_value_ (log ++ (List.range 32).zip raw)).2

/-- Lines 94-119 of `GetInternal`: the bulk path taken when `max_values == 32`,
and the general path that reads one value. -/
def decodeSlot (T : IntType) (max_values : Int) (i : Nat) (d : DeltaBitPackDecoder)
    (log : Writes) : SlotExit :=
  if max_values = 32 then
    if d.delta_bit_width_ = 14 then
      finishBulk T d log
        (DecodeBlock T d.delta_bit_width_ decode_data_14_ d.decoder_.data d.decoder_.current_ptr)
    else if d.delta_bit_width_ = 15 then
      finishBulk T d log
        (DecodeBlock T d.delta_bit_width_ decode_data_15_ d.decoder_.data d.decoder_.current_ptr)
    else .raise .NYI log
  else
    match d.decoder_.GetValue d.delta_bit_width_ with
    | none => .raise .Eof log
    | some (raw, r1) =>
      .next
        { d with
          decoder_ := r1
          last_value_ := wrapInt64 (d.last_value_ + wrapInt64 (wrapInt64 (raw : Int) + d.min_delta_))
          values_current_mini_block_ := d.values_current_mini_block_ - 1 }
        (log ++ [(i, T.cast
          (wrapInt64 (d.last_value_ + wrapInt64 (wrapInt64 (raw : Int) + d.min_delta_))))])

/-- The body of the loop of `GetInternal` at output slot `i`.  The comparison
`mini_block_idx_ < delta_bit_widths_.size()` is unsigned, so a negative index
compares greater than every size. -/
def loopBody (T : IntType) (max_values : Int) (i : Nat) (d : DeltaBitPackDecoder)
    (log : Writes) : SlotExit :=
  if d.values_current_mini_block_ = 0 then
    let idx := d.mini_block_idx_ + 1
    if 0 ≤ idx ∧ idx < (d.delta_bit_widths_.length : Int) then
      decodeSlot T max_values i
        { d with
          mini_block_idx_ := idx
          delta_bit_width_ := d.delta_bit_widths_.getD idx.toNat 0
          values_current_mini_block_ := d.values_per_mini_block_ }
        log
    else
      match InitBlock { d with mini_block_idx_ := idx } with
      | .error e => .raise e log
      | .ok d1 => .next d1 (log ++ [(i, T.cast d1.last_value_)])
  else decodeSlot T max_values i d log

/-- What a call of `GetInternal` leaves: its stores into `buffer`, and either
the returned count with the decoder after the call, or the exception. -/
structure DecodeResult where
  writes : Writes
  outcome : Except ParquetError (Int × DeltaBitPackDecoder)
deriving DecidableEq

/-- The loop `for (int i = 0; i < max_values; ++i)` of `GetInternal` with
`rounds` rounds to go, followed by `num_values_ -= max_values; return max_values`. -/
def GetInternalLoop (T : IntType) (max_values : Int) :
    Nat → Nat → DeltaBitPackDecoder → Writes → DecodeResult
  | 0, _, d, log =>
    { writes := log
      outcome := .ok (max_values, { d with num_values_ := d.num_values_ - max_values }) }
  | rounds + 1, i, d, log =>
    match loopBody T max_values i d log with
    | .next d1 log1 => GetInternalLoop T max_values rounds (i + 1) d1 log1
    | .ret count d1 log1 => { writes := log1, outcome := .ok (count, d1) }
    | .raise e log1 => { writes := log1, outcome := .error e }

/-- The method `GetInternal<T>(T* buffer, int max_values)`. -/
def GetInternal (T : IntType) (d : DeltaBitPackDecoder) (max_values : Int) : DecodeResult :=
  let max_values := min max_values d.num_values_
  GetInternalLoop T max_values max_values.toNat 0 d []

/-- The method `GetInt32(int32_t* buffer, int max_values)`. -/
def GetInt32 (d : DeltaBitPackDecoder) (max_values : Int) : DecodeResult :=
  GetInternal .int32 d max_values

/-- The method `GetInt64(int64_t* buffer, int max_values)`. -/
def GetInt64 (d : DeltaBitPackDecoder) (max_values : Int) : DecodeResult :=
  GetInternal .int64 d max_values

end DeltaBitPackDecoder

/-- The last value stored into slot `j`, if the call stored into it. -/
def slotValue : DeltaBitPackDecoder.Writes → Nat → Option Int
  | [], _ => none
  | (i, v) :: rest, j =>
    match slotValue rest j with
    | some w => some w
    | none => if i = j then some v else none

/-- The first `n` slots of the output buffer after the stores `log`; `none`
marks a slot the call did not store into. -/
def outBuffer (log : DeltaBitPackDecoder.Writes) (n : Nat) : List (Option Int) :=
  (List.range n).map (slotValue log)

/-- The caller's buffer `buffer` after the stores `log`. -/
def bufferAfter (buffer : List Int) : DeltaBitPackDecoder.Writes → List Int
  | [] => buffer
  | (i, v) :: rest => bufferAfter (buffer.set i v) rest

open DeltaBitPackDecoder


/-- A decoder object with all scalar members zero, used as the memory a
constructor starts from in the concrete scenarios. -/
def zeroDecoder : DeltaBitPackDecoder :=
  { num_values_ := 0, decoder_ := { data := [], bitPos := 0 }, values_current_block_ := 0,
    num_mini_blocks_ := 0, values_per_mini_block_ := 0, values_current_mini_block_ := 0,
    min_delta_ := 0, mini_block_idx_ := 0, delta_bit_widths_ := [], delta_bit_width_ := 0,
    last_value_ := 0 }

/-- The buffer of the concrete scenario: block size 4, one mini-block, value
count 5, first value 10 (zig-zag 20), minimum delta -1 (zig-zag 1), bit width
3, then the stored deltas 1, 2, 0, 3 packed at 3 bits each
(`1 + 2 * 8 + 0 * 64 + 3 * 512 = 0x611`). -/
def scenarioBuffer : List Nat := [4, 1, 5, 20, 1, 3, 0x11, 0x06]

/-- Lines 114-119 of `GetInternal` without the store into `buffer[i]`: the
decoder after reading one value on the general path, whose `last_value_` is
the value stored. -/
def readDelta (d : DeltaBitPackDecoder) : Except ParquetError DeltaBitPackDecoder :=
  match d.decoder_.GetValue d.delta_bit_width_ with
  | none => .error .Eof
  | some (raw, r1) =>
    .ok { d with
          decoder_ := r1
          last_value_ := wrapInt64 (d.last_value_ + wrapInt64 (wrapInt64 (raw : Int) + d.min_delta_))
          values_current_mini_block_ := d.values_current_mini_block_ - 1 }

/-- One round of the loop of `GetInternal` when `max_values != 32`, without the
store: the decoder after the round, whose `last_value_` is the value stored
into the slot. -/
def generalRound (d : DeltaBitPackDecoder) : Except ParquetError DeltaBitPackDecoder :=
  if d.values_current_mini_block_ = 0 then
    if 0 ≤ d.mini_block_idx_ + 1 ∧ d.mini_block_idx_ + 1 < (d.delta_bit_widths_.length : Int) then
      readDelta
        { d with
          mini_block_idx_ := d.mini_block_idx_ + 1
          delta_bit_width_ := d.delta_bit_widths_.getD (d.mini_block_idx_ + 1).toNat 0
          values_current_mini_block_ := d.values_per_mini_block_ }
    else InitBlock { d with mini_block_idx_ := d.mini_block_idx_ + 1 }
  else readDelta d

/-- The values of `n` successive rounds on the general path, converted to `T`,
with the decoder after the last round, or the exception that ends them. -/
def generalRun (T : IntType) : Nat → DeltaBitPackDecoder →
    List Int × Except ParquetError DeltaBitPackDecoder
  | 0, d => ([], .ok d)
  | n + 1, d =>
    match generalRound d with
    | .error e => ([], .error e)
    | .ok d1 => (T.cast d1.last_value_ :: (generalRun T n d1).1, (generalRun T n d1).2)

/-- Decoding one value at a time: `n` successive calls
`GetInternal<T>(buffer + k, 1)`.  The values stored, in order, with the decoder
after the last call, or the exception of the first call that fails. -/
def decodeOneByOne (T : IntType) : Nat → DeltaBitPackDecoder →
    List Int × Except ParquetError DeltaBitPackDecoder
  | 0, d => ([], .ok d)
  | n + 1, d =>
    match (GetInternal T d 1).outcome with
    | .error e => ([], .error e)
    | .ok (_, d1) =>
      ((slotValue (GetInternal T d 1).writes 0).toList ++ (decodeOneByOne T n d1).1,
        (decodeOneByOne T n d1).2)

/-- A buffer with two blocks.  The first: block size 1, one mini-block, value
count 2, first value 7 (zig-zag 14), minimum delta 0, bit width 14, one stored
delta 1 (two bytes).  The second: block size 32, one mini-block, value count
33, first value 100 (zig-zag 200, two varint bytes), minimum delta 0, bit
width 14, then 62 bytes of packed data whose first stored delta is 1 and whose
other deltas are 0. -/
def bulkBuffer : List Nat :=
  [1, 1, 2, 14, 0, 14, 1, 0] ++ [32, 1, 33, 0xC8, 0x01, 0, 14] ++ [1] ++ List.replicate 61 0

/-- The decoder after `SetData(35, bulkBuffer)` on a fresh decoder and a call
for two values: it stands at the block boundary, the current mini-block has
bit width 14 and 33 values remain. -/
def boundaryDecoder : DeltaBitPackDecoder :=
  { num_values_ := 33, decoder_ := { data := bulkBuffer, bitPos := 62 },
    values_current_block_ := 2, num_mini_blocks_ := 1, values_per_mini_block_ := 1,
    values_current_mini_block_ := 0, min_delta_ := 0, mini_block_idx_ := 0,
    delta_bit_widths_ := [14], delta_bit_width_ := 14, last_value_ := 8 }

/-- A buffer whose block declares two mini-blocks of one value each: block
size 2, two mini-blocks, value count 3, first value 5 (zig-zag 10), minimum
delta 0, bit widths 8 and 8, stored deltas 1 and 1. -/
def twoMiniBlockBuffer : List Nat := [2, 2, 3, 10, 0, 8, 8, 1, 1]

/-- The decoder after `SetData(3, twoMiniBlockBuffer)` and one decoded value. -/
def staleDecoder : DeltaBitPackDecoder :=
  { num_values_ := 2, decoder_ := { data := twoMiniBlockBuffer, bitPos := 56 },
    values_current_block_ := 3, num_mini_blocks_ := 2, values_per_mini_block_ := 1,
    values_current_mini_block_ := 1, min_delta_ := 0, mini_block_idx_ := 0,
    delta_bit_widths_ := [8, 8], delta_bit_width_ := 8, last_value_ := 5 }

/-- The integer `x` is representable in a signed type of `bits` bits. -/
def fitsSigned (bits : Nat) (x : Int) : Prop :=
  -(2 ^ (bits - 1) : Int) ≤ x ∧ x < 2 ^ (bits - 1)

instance (bits : Nat) (x : Int) : Decidable (fitsSigned bits x) := by
  unfold fitsSigned; infer_instance

/-- The decoder of the concrete scenario after its first value: the header is
consumed (48 bits), four deltas of 3 bits are ahead. -/
def scenarioMid : DeltaBitPackDecoder :=
  { num_values_ := 5, decoder_ := { data := scenarioBuffer, bitPos := 48 },
    values_current_block_ := 5, num_mini_blocks_ := 1, values_per_mini_block_ := 4,
    values_current_mini_block_ := 4, min_delta_ := -1, mini_block_idx_ := 0,
    delta_bit_widths_ := [3], delta_bit_width_ := 3, last_value_ := 10 }

/-- The decoder right after construction: scalar members indeterminate,
`delta_bit_widths_` empty, `decoder_` default-constructed. -/
def freshDecoder (uninit : DeltaBitPackDecoder) : DeltaBitPackDecoder :=
  { uninit with delta_bit_widths_ := [], decoder_ := { data := [], bitPos := 0 } }

/-- The number of distinct output slots a call stored into. -/
def slotsWritten {α : Type} (log : List (Nat × α)) : Nat :=
  (log.map Prod.fst).dedup.length

/-! ## `DeltaByteArrayDecoder` -/

/-- Modelled from the spec: `struct ByteArray`, whose declaration is not among
the sources: a length and a pointer, the pointer seen through the bytes of the
storage it addresses. -/
structure ByteArray where
  len : Nat
  ptr : List Nat
deriving DecidableEq, Repr

/-- Modelled from the spec: the suffix sub-decoder
`DeltaLengthByteArrayDecoder`, whose header is not among the sources, taken as
a parameter: a state type `σ` with its `SetData` and its
`GetByteArray(&suffix, 1)`, which returns the value it stored into `suffix`, if
it stored one. -/
structure SuffixDecoder (σ : Type) where
  SetData : σ → Int → List Nat → σ
  GetByteArray : σ → Except ParquetError (Option ByteArray × σ)

/-- The data members of `DeltaByteArrayDecoder` (with `num_values_` of the base
class); `last_value_` is `none` until the first assignment, the constructor
leaving it indeterminate. -/
structure DeltaByteArrayDecoder (σ : Type) where
  num_values_ : Int
  prefix_len_decoder_ : DeltaBitPackDecoder
  suffix_decoder_ : σ
  last_value_ : Option ByteArray

namespace DeltaByteArrayDecoder

/-- The call `memcpy(result, last_value_.ptr, prefix_len)`: the bytes copied.
Copying no byte reads nothing; a negative count, a read through the
indeterminate pointer and a read past the storage of `last_value_` are
undefined. -/
def copyPrefix (last_value : Option ByteArray) (prefix_len : Int) : Option (List Nat) :=
  if prefix_len = 0 then some []
  else if prefix_len < 0 then none
  else
    match last_value with
    | none => none
    | some v => if prefix_len.toNat ≤ v.ptr.length then some (v.ptr.take prefix_len.toNat) else none

/-- What a call of `GetByteArray` leaves: its stores into `buffer`, and either
the returned count with the decoder after the call, or the exception. -/
structure ByteArrayResult (σ : Type) where
  writes : List (Nat × ByteArray)
  outcome : Except ParquetError (Int × DeltaByteArrayDecoder σ)

/-- The body of the loop of `GetByteArray`: the decoder after the round and
the value stored into `buffer[i]`.  Reading `suffix` when the sub-decoder
stored nothing, a `memcpy` outside the storage it reads, and a length that
does not fit `len` are undefined. -/
def GetByteArrayBody {σ : Type} (S : SuffixDecoder σ) (d : DeltaByteArrayDecoder σ) :
    Except ParquetError (DeltaByteArrayDecoder σ × ByteArray) :=
  match (GetInt32 d.prefix_len_decoder_ 1).outcome with
  | .error e => .error e
  | .ok (_, p1) =>
    match S.GetByteArray d.suffix_decoder_ with
    | .error e => .error e
    | .ok (none, _) => .error .Undefined
    | .ok (some suffix, s1) =>
      match copyPrefix d.last_value_
          ((slotValue (GetInt32 d.prefix_len_decoder_ 1).writes 0).getD 0) with
      | none => .error .Undefined
      | some pre =>
        if suffix.ptr.length < suffix.len ∨
            2 ^ 32 ≤ ((slotValue (GetInt32 d.prefix_len_decoder_ 1).writes 0).getD 0).toNat +
              suffix.len then
          .error .Undefined
        else
          .ok
            ({ d with
               prefix_len_decoder_ := p1
               suffix_decoder_ := s1
               last_value_ := some
                 { len := ((slotValue (GetInt32 d.prefix_len_decoder_ 1).writes 0).getD 0).toNat +
                     suffix.len
                   ptr := pre ++ suffix.ptr.take suffix.len } },
             { len := ((slotValue (GetInt32 d.prefix_len_decoder_ 1).writes 0).getD 0).toNat +
                 suffix.len
               ptr := pre ++ suffix.ptr.take suffix.len })

/-- The loop `for (int i = 0; i < max_values; ++i)` of `GetByteArray` with
`rounds` rounds to go, followed by `num_values_ -= max_values; return max_values`. -/
def GetByteArrayLoop {σ : Type} (S : SuffixDecoder σ) (max_values : Int) :
    Nat → Nat → DeltaByteArrayDecoder σ → List (Nat × ByteArray) → ByteArrayResult σ
  | 0, _, d, log =>
    { writes := log
      outcome := .ok (max_values, { d with num_values_ := d.num_values_ - max_values }) }
  | rounds + 1, i, d, log =>
    match GetByteArrayBody S d with
    | .error e => { writes := log, outcome := .error e }
    | .ok (d1, value) => GetByteArrayLoop S max_values rounds (i + 1) d1 (log ++ [(i, value)])

/-- The method `GetByteArray(ByteArray* buffer, int max_values)`. -/
def GetByteArray {σ : Type} (S : SuffixDecoder σ) (d : DeltaByteArrayDecoder σ)
    (max_values : Int) : ByteArrayResult σ :=
  let max_values := min max_values d.num_values_
  GetByteArrayLoop S max_values max_values.toNat 0 d []

end DeltaByteArrayDecoder

/-- A suffix decoder over a queue of values still to hand out, used in the
concrete scenarios of the byte-array decoder: `GetByteArray(&suffix, 1)` stores
the head of the queue, and nothing once the queue is empty. -/
def queueSuffixDecoder : SuffixDecoder (List ByteArray) where
  SetData := fun s _ _ => s
  GetByteArray := fun s =>
    match s with
    | [] => .ok (none, [])
    | v :: rest => .ok (some v, rest)

/-- The byte-array decoder of the concrete scenario: two values remain, the
prefix lengths come from the buffer of the integer scenario and the suffixes
are "ab" and "c". -/
def scenarioByteArrayDecoder : DeltaByteArrayDecoder (List ByteArray) :=
  { num_values_ := 2
    prefix_len_decoder_ := zeroDecoder.SetData 5 [4, 1, 5, 0, 1, 3, 0x11, 0x06]
    suffix_decoder_ := [{ len := 2, ptr := [97, 98] }, { len := 1, ptr := [99] }]
    last_value_ := none }

/-- The decoder of the concrete scenario after all five values. -/
def scenarioEnd : DeltaBitPackDecoder :=
  { scenarioMid with
    num_values_ := 0
    decoder_ := { data := scenarioBuffer, bitPos := 60 }
    values_current_mini_block_ := 0
    last_value_ := 12 }

/-- A mini-block of the stream description: its declared bit width and its
stored deltas. -/
structure MiniBlock where
  bit_width : Nat
  deltas : List Nat
deriving DecidableEq, Repr

/-- A block of the stream description: base value, minimum delta, the value
count written in the header, the number of values per mini-block and the
mini-blocks. -/
structure Block where
  first_value : Int
  min_delta : Int
  value_count : Nat
  values_per_mini_block : Nat
  mini_blocks : List MiniBlock
deriving DecidableEq, Repr

/-- The block is well formed: at least one mini-block; base value and minimum
delta are 64-bit signed; the header fields fit their varints; every bit width
fits its byte; every mini-block stores values-per-mini-block deltas, each
fitting the declared width. -/
def Block.wellFormed (b : Block) : Prop :=
  b.mini_blocks ≠ [] ∧ fitsSigned 64 b.first_value ∧ fitsSigned 64 b.min_delta ∧
    b.value_count < 2 ^ 64 ∧ b.mini_blocks.length < 2 ^ 64 ∧
    b.values_per_mini_block * b.mini_blocks.length < 2 ^ 64 ∧
    ∀ mb ∈ b.mini_blocks, mb.bit_width < 256 ∧ mb.deltas.length = b.values_per_mini_block ∧
      ∀ x ∈ mb.deltas, x < 2 ^ mb.bit_width

instance (b : Block) : Decidable b.wellFormed := by
  unfold Block.wellFormed; infer_instance

/-- The bytes of an unsigned varint: seven bits per byte, least significant
group first, the top bit set on every byte but the last; `fuel + 1` bytes at
most. -/
def encodeVlqAux : Nat → Nat → List Nat
  | 0, v => [v % 128]
  | fuel + 1, v => if v < 128 then [v] else (v % 128 + 128) :: encodeVlqAux fuel (v / 128)

/-- The unsigned varint of a 64-bit value (ten bytes at most). -/
def encodeVlq (v : Nat) : List Nat := encodeVlqAux 9 v

/-- Zig-zag encoding of a signed 64-bit value: `(x << 1) ^ (x >> 63)`. -/
def zigZagEncode (x : Int) : Nat :=
  if 0 ≤ x then (2 * x).toNat else (-2 * x - 1).toNat

/-- Bit packing into bytes, `n` bytes to go: eight bits per byte, least
significant bit first, the last byte padded with zero bits. -/
def packBytesAux : Nat → List Bool → List Nat
  | 0, _ => []
  | n + 1, bits => ofBits (bits.take 8) :: packBytesAux n (bits.drop 8)

/-- The bytes of a bit string. -/
def packBytes (bits : List Bool) : List Nat := packBytesAux ((bits.length + 7) / 8) bits

/-- The stored deltas of one mini-block packed at its bit width. -/
def miniBlockBits (w : Nat) : List Nat → List Bool
  | [] => []
  | x :: xs => bitsLE w x ++ miniBlockBits w xs

/-- The packed deltas of the mini-blocks of a block, back to back. -/
def deltaBits : List MiniBlock → List Bool
  | [] => []
  | mb :: rest => miniBlockBits mb.bit_width mb.deltas ++ deltaBits rest

/-- The header of a block:
`[varint blockSize][varint numMiniBlocks][varint valueCount][zigzag firstValue][zigzag minDelta][one width byte per mini-block]`. -/
def encodeHeader (b : Block) : List Nat :=
  encodeVlq (b.values_per_mini_block * b.mini_blocks.length) ++
    encodeVlq b.mini_blocks.length ++ encodeVlq b.value_count ++
    encodeVlq (zigZagEncode b.first_value) ++ encodeVlq (zigZagEncode b.min_delta) ++
    b.mini_blocks.map (fun mb => mb.bit_width)

/-- The bytes of a block: the header followed by the bit-packed deltas. -/
def encodeBlock (b : Block) : List Nat :=
  encodeHeader b ++ packBytes (deltaBits b.mini_blocks)

/-- The bytes of a stream of blocks. -/
def encodeStream : List Block → List Nat
  | [] => []
  | b :: rest => encodeBlock b ++ encodeStream rest

/-- The stored deltas of the mini-blocks of a block, in order. -/
def allDeltas : List MiniBlock → List Nat
  | [] => []
  | mb :: rest => mb.deltas ++ allDeltas rest

/-- The running sums `last + (minDelta + storedDelta)` over the stored deltas. -/
def runningSums (min_delta : Int) : Int → List Nat → List Int
  | _, [] => []
  | last, x :: xs => (last + min_delta + x) :: runningSums min_delta (last + min_delta + x) xs

/-- The integers a block encodes: the base value, then the running sums. -/
def Block.values (b : Block) : List Int :=
  b.first_value :: runningSums b.min_delta b.first_value (allDeltas b.mini_blocks)

/-- The integers a stream of blocks encodes. -/
def streamValues : List Block → List Int
  | [] => []
  | b :: rest => b.values ++ streamValues rest

/-- A stream of two blocks whose mini-blocks have the bit widths 3, 4 and 2:
the block of the concrete scenario split into two mini-blocks of two values
(14 bits of packed deltas, so two padding bits precede the next header),
followed by a block with one mini-block of three values. -/
def exampleStream : List Block :=
  [{ first_value := 10, min_delta := -1, value_count := 5, values_per_mini_block := 2,
     mini_blocks := [{ bit_width := 3, deltas := [1, 2] }, { bit_width := 4, deltas := [0, 15] }] },
   { first_value := -7, min_delta := 2, value_count := 4, values_per_mini_block := 3,
     mini_blocks := [{ bit_width := 2, deltas := [3, 0, 1] }] }]

/-- A stream whose first block declares two mini-blocks of no value: it
encodes the two base values 10 and 11. -/
def emptyMiniBlocksStream : List Block :=
  [{ first_value := 10, min_delta := 0, value_count := 1, values_per_mini_block := 0,
     mini_blocks := [{ bit_width := 1, deltas := [] }, { bit_width := 1, deltas := [] }] },
   { first_value := 11, min_delta := 0, value_count := 1, values_per_mini_block := 0,
     mini_blocks := [{ bit_width := 1, deltas := [] }] }]

/-- A stream of one block that encodes 32 values: the base value 10 and 31
stored deltas of one bit. -/
def streamOf32 : List Block :=
  [{ first_value := 10, min_delta := 0, value_count := 32, values_per_mini_block := 31,
     mini_blocks := [{ bit_width := 1, deltas := List.replicate 31 1 }] }]

/-- The last running sum over the stored deltas (the sum itself when there is
no delta). -/
def lastSum (min_delta : Int) : Int → List Nat → Int
  | s, [] => s
  | s, x :: xs => lastSum min_delta (s + min_delta + x) xs

/-- The number of values a block encodes. -/
def Block.count (b : Block) : Nat := 1 + b.mini_blocks.length * b.values_per_mini_block

/-- The number of values a stream of blocks encodes. -/
def streamCount : List Block → Nat
  | [] => 0
  | b :: rest => b.count + streamCount rest

/-- The unsigned integer formed by the `w` bits of `data` from bit `pos` on,
least significant bit first. -/
def fieldAt (data : List Nat) (pos w : Nat) : Nat :=
  ofBits (((bitsOf data).drop pos).take w)

/-- The `n` successive `w`-bit fields of `data` from bit `pos` on. -/
def fieldsAt (data : List Nat) (w : Nat) : Nat → Nat → List Nat
  | 0, _ => []
  | n + 1, pos => fieldAt data pos w :: fieldsAt data w n (pos + w)

/-! ## `DeltaByteArrayDecoder::SetData` -/

/-- The range a sub-decoder is handed by `sub.SetData(num_values, data, len)`:
the offset of its `data` from the start of the bound buffer and its `len`, as
the pointer arithmetic of `DeltaByteArrayDecoder::SetData` computes them. -/
structure Slice where
  start : Int
  len : Int
deriving DecidableEq, Repr

/-- The slice is a range of a buffer of `len` bytes: it starts inside the
buffer, has a non-negative length and ends inside the buffer. -/
def Slice.inside (s : Slice) (len : Nat) : Prop :=
  0 ≤ s.start ∧ 0 ≤ s.len ∧ s.start + s.len ≤ len

instance (s : Slice) (len : Nat) : Decidable (s.inside len) := by
  unfold Slice.inside; infer_instance

/-- The bytes of the buffer the slice covers. -/
def Slice.bytes (s : Slice) (buffer : List Nat) : List Nat :=
  (buffer.drop s.start.toNat).take s.len.toNat

/-- The byte at offset `k` from the start of the bound buffer: a byte of the
buffer for the offsets `0 .. len-1`, and for every other offset the byte
`outside k` of the memory around the buffer, which the caller did not hand
over. -/
def byteAt (data : List Nat) (outside : Int → Nat) (k : Int) : Nat :=
  if 0 ≤ k ∧ k < (data.length : Int) then data.getD k.toNat 0 else outside k

/-- The bytes a sub-decoder is bound to by `sub.SetData(num_values, data, len)`:
the `len` bytes that `data` addresses, from the offset `start` on, wherever
they lie; no byte when `len` is negative. -/
def Slice.bytesIn (s : Slice) (data : List Nat) (outside : Int → Nat) : List Nat :=
  List.map (fun i : Nat => byteAt data outside (s.start + (i : Int))) (List.range s.len.toNat)

namespace DeltaByteArrayDecoder

/-- The load `*reinterpret_cast<const int*>(data)` of `SetData`: the first
four bytes of the buffer as a little-endian `int`; `none` when the buffer has
fewer than four bytes. -/
def prefixLenLength (data : List Nat) : Option Int :=
  match loadWord data 0 4 with
  | none => none
  | some w => some (wrapInt32 (w : Int))

/-- The arguments `(data, prefix_len_length)` of `prefix_len_decoder_.SetData`
after `data += 4`. -/
def prefixSlice (prefix_len_length : Int) : Slice :=
  { start := 4, len := prefix_len_length }

/-- The arguments `(data, len)` of `suffix_decoder_.SetData` after
`data += 4; len -= 4; data += prefix_len_length; len -= prefix_len_length`,
for a buffer of `len` bytes. -/
def suffixSlice (len : Int) (prefix_len_length : Int) : Slice :=
  { start := 4 + prefix_len_length, len := len - 4 - prefix_len_length }

/-- Lines 34-40 of `SetData` for a buffer that is not empty: the ranges
`(data, len)` it hands to `prefix_len_decoder_.SetData` and to
`suffix_decoder_.SetData`, computed from the length it loads, whatever that
length is; `none` when the buffer has no four bytes to load it from. -/
def boundSlices (data : List Nat) : Option (Slice × Slice) :=
  match prefixLenLength data with
  | none => none
  | some p => some (prefixSlice p, suffixSlice data.length p)

/-- The method `SetData(int num_values, const uint8_t* data, int len)`; `data`
is the buffer of `len` bytes and `outside` the memory around it.  The method
checks nothing but `len == 0` and raises no exception: each sub-decoder is
bound to the range of `boundSlices`, inside the buffer or not.  The load of
the length from a buffer of one to three bytes reads outside the buffer, which
is undefined. -/
def SetData {σ : Type} (S : SuffixDecoder σ) (d : DeltaByteArrayDecoder σ) (num_values : Int)
    (data : List Nat) (outside : Int → Nat) : Except ParquetError (DeltaByteArrayDecoder σ) :=
  if data.length = 0 then .ok { d with num_values_ := num_values }
  else
    match boundSlices data with
    | none => .error .Undefined
    | some (prefix_range, suffix_range) =>
      .ok { d with
            num_values_ := num_values
            prefix_len_decoder_ :=
              d.prefix_len_decoder_.SetData num_values (prefix_range.bytesIn data outside)
            suffix_decoder_ :=
              S.SetData d.suffix_decoder_ num_values (suffix_range.bytesIn data outside) }

end DeltaByteArrayDecoder

/-- Modelled from the spec: the suffix sub-decoder as "the plain
length-prefixed byte-array decoder", whose header is not among the sources.
Its state is the number of values left and the bytes not yet consumed; a value
is a 4-byte little-endian length followed by that many bytes.
`GetByteArray(&suffix, 1)` stores nothing when no value is left and raises
`EofException` when the bytes end inside a value. -/
def plainSuffixDecoder : SuffixDecoder (Int × List Nat) where
  SetData := fun _ num_values data => (num_values, data)
  GetByteArray := fun s =>
    if s.1 ≤ 0 then .ok (none, s)
    else if s.2.length < 4 ∨ s.2.length < 4 + leNat (s.2.take 4) then .error .Eof
    else
      .ok (some { len := leNat (s.2.take 4), ptr := (s.2.drop 4).take (leNat (s.2.take 4)) },
        (s.1 - 1, s.2.drop (4 + leNat (s.2.take 4))))

/-- The reads of `n` successive rounds of the loop of `GetByteArray` from the
two sub-decoders: per round the value `prefix_len` holds after
`prefix_len_decoder_.GetInt32(&prefix_len, 1)` and the value
`suffix_decoder_.GetByteArray(&suffix, 1)` stored into `suffix`, with the
sub-decoders after the last round. -/
def subReads {σ : Type} (S : SuffixDecoder σ) : Nat → DeltaBitPackDecoder → σ →
    Except ParquetError (List (Int × ByteArray) × DeltaBitPackDecoder × σ)
  | 0, p, s => .ok ([], p, s)
  | n + 1, p, s =>
    match (GetInt32 p 1).outcome with
    | .error e => .error e
    | .ok (_, p1) =>
      match S.GetByteArray s with
      | .error e => .error e
      | .ok (none, _) => .error .Undefined
      | .ok (some suffix, s1) =>
        match subReads S n p1 s1 with
        | .error e => .error e
        | .ok (rest, p2, s2) =>
          .ok (((slotValue (GetInt32 p 1).writes 0).getD 0, suffix) :: rest, p2, s2)

/-- The value of length zero: what the format takes the previous value to be
before the first value of a stream. -/
def emptyValue : ByteArray := { len := 0, ptr := [] }

/-- The reconstruction rule of the format: the first `p` bytes of the previous
value followed by the bytes of the suffix, of length `p + |suffix|`. -/
def reconstruct (prev : ByteArray) (p : Nat) (suffix : ByteArray) : ByteArray :=
  { len := p + suffix.len, ptr := prev.ptr.take p ++ suffix.ptr.take suffix.len }

/-- The sequence the format describes:
`decoded[i] = prefix(decoded[i-1], prefixLen[i]) ++ suffix[i]`, started from
the value `prev`. -/
def prefixDecode : ByteArray → List (Int × ByteArray) → List ByteArray
  | _, [] => []
  | prev, (p, suffix) :: rest =>
    reconstruct prev p.toNat suffix :: prefixDecode (reconstruct prev p.toNat suffix) rest

/-- The last value of the sequence `prefixDecode prev reads`, and `prev` when
the sequence is empty. -/
def prefixDecodeLast : ByteArray → List (Int × ByteArray) → ByteArray
  | prev, [] => prev
  | prev, (p, suffix) :: rest => prefixDecodeLast (reconstruct prev p.toNat suffix) rest

/-- Every prefix length lies between 0 and the length of the value before it,
every suffix addresses at least its length in bytes, and every reconstructed
length fits the 32-bit length field. -/
def prefixesValid : ByteArray → List (Int × ByteArray) → Bool
  | _, [] => true
  | prev, (p, suffix) :: rest =>
    decide (0 ≤ p) && decide (p ≤ (prev.len : Int)) && decide (suffix.len ≤ suffix.ptr.length) &&
      decide (p.toNat + suffix.len < 2 ^ 32) &&
      prefixesValid (reconstruct prev p.toNat suffix) rest

/-- The bytes of an ASCII text. -/
def asciiBytes (s : String) : List Nat := s.toList.map Char.toNat

/-- A byte-array value holding a text. -/
def textValue (s : String) : ByteArray :=
  { len := (asciiBytes s).length, ptr := asciiBytes s }

/-- A byte-array stream of two values: the prefix-length sub-stream of six
bytes (block size 1, one mini-block, value count 2, first value 0, minimum
delta 3 as zig-zag 6, bit width 0) declares the prefix lengths 0 and 3; the
suffix sub-stream holds "apple" and "icot", each behind its 4-byte length. -/
def appleStream : List Nat :=
  [6, 0, 0, 0] ++ [1, 1, 2, 0, 6, 0] ++
    ([5, 0, 0, 0] ++ asciiBytes "apple" ++ ([4, 0, 0, 0] ++ asciiBytes "icot"))

/-- A byte-array stream of one value whose prefix-length sub-stream (block
size 1, one mini-block, value count 1, first value 3 as zig-zag 6, minimum
delta 0, bit width 0) declares the prefix length 3 for its first value; the
suffix is "icot". -/
def icotStream : List Nat :=
  [6, 0, 0, 0] ++ [1, 1, 1, 6, 0, 0] ++ ([4, 0, 0, 0] ++ asciiBytes "icot")

/-- A byte-array decoder right after construction, on the plain suffix
decoder: no value, sub-decoders unbound, `last_value_` never assigned. -/
def freshByteArrayDecoder : DeltaByteArrayDecoder (Int × List Nat) :=
  { num_values_ := 0
    prefix_len_decoder_ := freshDecoder zeroDecoder
    suffix_decoder_ := (0, [])
    last_value_ := none }

/-- The byte-array decoder after `SetData(2, appleStream)` on a decoder right
after construction: two values to decode, the prefix-length decoder bound to
bytes 4 to 9, the suffix decoder to bytes 10 to 26. -/
def appleBound : DeltaByteArrayDecoder (Int × List Nat) :=
  { num_values_ := 2
    prefix_len_decoder_ := (freshDecoder zeroDecoder).SetData 2 [1, 1, 2, 0, 6, 0]
    suffix_decoder_ := (2, [5, 0, 0, 0] ++ asciiBytes "apple" ++ ([4, 0, 0, 0] ++ asciiBytes "icot"))
    last_value_ := none }

/-- The decoder `appleBound` after a call for one value, which emitted
"apple": one value remains, the prefix-length decoder stands after its block
header, the suffix "icot" is ahead. -/
def appleAfterOne : DeltaByteArrayDecoder (Int × List Nat) :=
  { num_values_ := 1
    prefix_len_decoder_ :=
      { num_values_ := 1, decoder_ := { data := [1, 1, 2, 0, 6, 0], bitPos := 48 },
        values_current_block_ := 2, num_mini_blocks_ := 1, values_per_mini_block_ := 1,
        values_current_mini_block_ := 1, min_delta_ := 3, mini_block_idx_ := 0,
        delta_bit_widths_ := [0], delta_bit_width_ := 0, last_value_ := 0 }
    suffix_decoder_ := (1, [4, 0, 0, 0] ++ asciiBytes "icot")
    last_value_ := some (textValue "apple") }

/-- A block header that breaks the invariant of the data model: block size 5,
two mini-blocks, value count 3, first value 0, minimum delta 0, bit widths 200
and 65. -/
def unevenHeader : List Nat := [5, 2, 3, 0, 0, 200, 65]

/-- A stream of one block that encodes 33 values: the base value 10 and one
mini-block of 32 stored deltas 1 at bit width 14.  Its bytes are the six bytes
of the header and the `32 * 14 / 8 = 56` bytes of the mini-block. -/
def exactStream : List Block :=
  [{ first_value := 10, min_delta := 0, value_count := 33, values_per_mini_block := 32,
     mini_blocks := [{ bit_width := 14, deltas := List.replicate 32 1 }] }]

/-- The decoder after `SetData(33, encodeStream exactStream)` and a call for
one value: the header is consumed, the reader stands at byte 6, and the 32
values of the mini-block of bit width 14 remain. -/
def exactMid : DeltaBitPackDecoder :=
  { num_values_ := 32, decoder_ := { data := encodeStream exactStream, bitPos := 48 },
    values_current_block_ := 33, num_mini_blocks_ := 1, values_per_mini_block_ := 32,
    values_current_mini_block_ := 32, min_delta_ := 0, mini_block_idx_ := 0,
    delta_bit_widths_ := [14], delta_bit_width_ := 14, last_value_ := 10 }

/-- The decoder after `SetData(9, encodeStream exampleStream)` and a call for
three values: the first mini-block of the first block is exhausted, six values
remain. -/
def exampleAfterThree : DeltaBitPackDecoder :=
  { num_values_ := 6, decoder_ := { data := encodeStream exampleStream, bitPos := 62 },
    values_current_block_ := 5, num_mini_blocks_ := 2, values_per_mini_block_ := 2,
    values_current_mini_block_ := 0, min_delta_ := -1, mini_block_idx_ := 0,
    delta_bit_widths_ := [3, 4], delta_bit_width_ := 3, last_value_ := 11 }

/-- A block header whose block size is `2^31` (five varint bytes) with one
mini-block: value count 1, first value 0, minimum delta 0, bit width 7. -/
def wideHeader : List Nat := [0x80, 0x80, 0x80, 0x80, 0x08, 1, 1, 0, 0, 7]

/-- A buffer that ends after the first value of a block header whose
mini-block count is `2^63` (ten varint bytes): block size 5, value count 3,
first value 0. -/
def hugeCountHeader : List Nat :=
  [5] ++ (List.replicate 9 0x80 ++ [0x01]) ++ [3, 0]

/-! ## Basic facts -/

theorem wrapSigned_of_fits (bits : Nat) (hb : 0 < bits) (x : Int) (h : fitsSigned bits x) :
    wrapSigned bits x = x := by
  obtain ⟨h1, h2⟩ := h
  unfold wrapSigned
  have hp : (2 : Int) ^ bits = 2 * 2 ^ (bits - 1) := by
    obtain ⟨k, rfl⟩ : ∃ k, bits = k + 1 := ⟨bits - 1, by omega⟩
    simp [pow_succ, mul_comm]
  rw [Int.emod_eq_of_lt (by omega) (by omega)]
  omega

theorem wrapSigned_add_left (bits : Nat) (x y : Int) :
    wrapSigned bits (wrapSigned bits x + y) = wrapSigned bits (x + y) := by
  unfold wrapSigned
  have : (x + 2 ^ (bits - 1)) % 2 ^ bits - 2 ^ (bits - 1) + y + 2 ^ (bits - 1)
      = (x + 2 ^ (bits - 1)) % 2 ^ bits + y := by ring
  rw [this, Int.emod_add_emod]
  congr 2
  ring

theorem wrapSigned_add_right (bits : Nat) (x y : Int) :
    wrapSigned bits (x + wrapSigned bits y) = wrapSigned bits (x + y) := by
  rw [add_comm, wrapSigned_add_left, add_comm]

theorem wrapInt64_of_fits (x : Int) (h : fitsSigned 64 x) : wrapInt64 x = x :=
  wrapSigned_of_fits 64 (by decide) x h

theorem wrapSigned_fits (bits : Nat) (hb : 0 < bits) (x : Int) :
    fitsSigned bits (wrapSigned bits x) := by
  unfold wrapSigned fitsSigned
  have hp : (2 : Int) ^ bits = 2 * 2 ^ (bits - 1) := by
    obtain ⟨k, rfl⟩ : ∃ k, bits = k + 1 := ⟨bits - 1, by omega⟩
    simp [pow_succ, mul_comm]
  have hpos : (0 : Int) < 2 ^ bits := by positivity
  have h1 := Int.emod_nonneg (x + 2 ^ (bits - 1)) (ne_of_gt hpos)
  have h2 := Int.emod_lt_of_pos (x + 2 ^ (bits - 1)) hpos
  constructor <;> omega

/-- The general read of one value: the three wrapped additions of lines
114-117 amount to one wrapped sum. -/
theorem wrapInt64_step (last_value min_delta : Int) (raw : Int) :
    wrapInt64 (last_value + wrapInt64 (wrapInt64 raw + min_delta)) =
      wrapInt64 (last_value + min_delta + raw) := by
  unfold wrapInt64
  rw [wrapSigned_add_right]
  have h : last_value + (wrapSigned 64 raw + min_delta)
      = wrapSigned 64 raw + (min_delta + last_value) := by ring
  rw [h, wrapSigned_add_left]
  congr 1
  ring

/-! ## Facts about the loop body -/

/-- The members that `InitBlock` reads are `decoder_` and `num_values_`. -/
theorem InitBlock_congr (d d' : DeltaBitPackDecoder) (h1 : d.decoder_ = d'.decoder_)
    (h2 : d.num_values_ = d'.num_values_) : InitBlock d = InitBlock d' := by
  cases d; cases d'
  simp only at h1 h2
  subst h1 h2
  rfl

/-- With the mini-block exhausted and no further mini-block in the block, the
round parses a block header and stores the first value. -/
theorem loopBody_header (T : IntType) (max_values : Int) (i : Nat) (d : DeltaBitPackDecoder)
    (log : Writes) (h0 : d.values_current_mini_block_ = 0)
    (hidx : ¬ (0 ≤ d.mini_block_idx_ + 1 ∧
      d.mini_block_idx_ + 1 < (d.delta_bit_widths_.length : Int))) :
    loopBody T max_values i d log =
      match InitBlock d with
      | .error e => .raise e log
      | .ok d1 => .next d1 (log ++ [(i, T.cast d1.last_value_)]) := by
  unfold loopBody
  rw [if_pos h0]
  simp only
  rw [if_neg hidx, InitBlock_congr { d with mini_block_idx_ := d.mini_block_idx_ + 1 } d rfl rfl]

/-- With values left in the mini-block the round goes straight to lines
94-119. -/
theorem loopBody_inside (T : IntType) (max_values : Int) (i : Nat) (d : DeltaBitPackDecoder)
    (log : Writes) (h0 : d.values_current_mini_block_ ≠ 0) :
    loopBody T max_values i d log = decodeSlot T max_values i d log := by
  unfold loopBody
  rw [if_neg h0]

/-! ## Construction (C10) -/

/-- C10: constructing a `DeltaBitPackDecoder` succeeds if and only if the
declared element type is INT32 or INT64; for every other type the constructor
throws and no decoder is produced. -/
theorem construct_succeeds_iff_integer_type (type : ParquetType) (uninit : DeltaBitPackDecoder) :
    ((∃ d, construct type uninit = .ok d) ↔
        (type = ParquetType.INT32 ∨ type = ParquetType.INT64)) ∧
      (¬ (type = ParquetType.INT32 ∨ type = ParquetType.INT64) →
        construct type uninit = .error ParquetError.BadType) := by
  cases type <;> simp [construct]

/-- Witness of C10: a BYTE_ARRAY decoder is refused, an INT64 one is built. -/
theorem construct_succeeds_iff_integer_type_witness :
    construct ParquetType.BYTE_ARRAY zeroDecoder = .error ParquetError.BadType ∧
      (∃ d, construct ParquetType.INT64 zeroDecoder = .ok d) :=
  ⟨(construct_succeeds_iff_integer_type ParquetType.BYTE_ARRAY zeroDecoder).2 (by decide),
   (construct_succeeds_iff_integer_type ParquetType.INT64 zeroDecoder).1.2 (Or.inr rfl)⟩

/-! ## The general step (C3) -/

/-- C3: on the general path (`max_values != 32`), in a state whose mini-block
is not exhausted, when the bit reader returns the raw value `raw` for
`delta_bit_width_` bits, one round of the loop stores the 64-bit sum
`last_value_ + min_delta_ + raw` into slot `i` (converted to `T`), keeps that
sum as the new `last_value_`, decrements `values_current_mini_block_` by one
and changes no other member than the reader; whenever the sum is
representable it is stored exactly, whatever the sign of `min_delta_`. -/
theorem general_step_bias (T : IntType) (max_values : Int) (i : Nat)
    (d : DeltaBitPackDecoder) (log : Writes) (raw : Nat) (r1 : BitReader)
    (hgen : max_values ≠ 32) (hmini : d.values_current_mini_block_ ≠ 0)
    (hread : d.decoder_.GetValue d.delta_bit_width_ = some (raw, r1)) :
    loopBody T max_values i d log =
        .next
          { d with
            decoder_ := r1
            last_value_ := wrapInt64 (d.last_value_ + d.min_delta_ + raw)
            values_current_mini_block_ := d.values_current_mini_block_ - 1 }
          (log ++ [(i, T.cast (wrapInt64 (d.last_value_ + d.min_delta_ + raw)))]) ∧
      (fitsSigned 64 (d.last_value_ + d.min_delta_ + raw) →
        wrapInt64 (d.last_value_ + d.min_delta_ + raw) = d.last_value_ + d.min_delta_ + raw) ∧
      (fitsSigned T.bits (d.last_value_ + d.min_delta_ + raw) →
        T.cast (wrapInt64 (d.last_value_ + d.min_delta_ + raw)) =
          d.last_value_ + d.min_delta_ + raw) := by
  refine ⟨?_, wrapInt64_of_fits _, ?_⟩
  · rw [loopBody_inside T max_values i d log hmini]
    unfold decodeSlot
    rw [if_neg hgen, hread]
    simp only [wrapInt64_step]
  · intro hfit
    have h64 : fitsSigned 64 (d.last_value_ + d.min_delta_ + raw) := by
      cases T
      · obtain ⟨h1, h2⟩ := hfit
        simp only [IntType.bits] at h1 h2
        constructor <;> norm_num at h1 h2 ⊢ <;> omega
      · exact hfit
    rw [wrapInt64_of_fits _ h64]
    unfold IntType.cast
    exact wrapSigned_of_fits T.bits (by cases T <;> decide) _ hfit

/-- Witness of C3: the second value of the concrete scenario, with the
negative minimum delta -1 and the stored delta 1. -/
theorem general_step_bias_witness :
    ((5 : Int) ≠ 32 ∧ scenarioMid.values_current_mini_block_ ≠ 0 ∧
      scenarioMid.decoder_.GetValue scenarioMid.delta_bit_width_ =
        some (1, { data := scenarioBuffer, bitPos := 51 })) ∧
      loopBody IntType.int64 5 1 scenarioMid [(0, 10)] =
        .next { scenarioMid with
                decoder_ := { data := scenarioBuffer, bitPos := 51 }
                last_value_ := 10
                values_current_mini_block_ := 3 }
          [(0, 10), (1, 10)] :=
  ⟨⟨by decide, by decide, by decide⟩,
   (general_step_bias IntType.int64 5 1 scenarioMid [(0, 10)] 1
      { data := scenarioBuffer, bitPos := 51 } (by decide) (by decide) (by decide)).1⟩

/-! ## The concrete scenario (C4) -/

/-- Counterexample to C4: on the buffer of the scenario the decoder does not
return `[10, 10, 12, 11, 13]`. -/
theorem scenario_sequence_differs :
    construct ParquetType.INT64 zeroDecoder = .ok (freshDecoder zeroDecoder) ∧
      outBuffer (GetInt64 ((freshDecoder zeroDecoder).SetData 5 scenarioBuffer) 5).writes 5 ≠
        [some 10, some 10, some 12, some 11, some 13] := by
  decide

/-- A call that starts with the mini-block exhausted and an empty
`delta_bit_widths_` depends on the decoder through `decoder_` and
`num_values_` alone. -/
theorem GetInternalLoop_header_congr (T : IntType) (max_values : Int) (rounds i : Nat)
    (d d' : DeltaBitPackDecoder) (log : Writes)
    (h0 : d.values_current_mini_block_ = 0) (h0' : d'.values_current_mini_block_ = 0)
    (hw : d.delta_bit_widths_ = []) (hw' : d'.delta_bit_widths_ = [])
    (h1 : d.decoder_ = d'.decoder_) (h2 : d.num_values_ = d'.num_values_) :
    GetInternalLoop T max_values (rounds + 1) i d log =
      GetInternalLoop T max_values (rounds + 1) i d' log := by
  rw [GetInternalLoop, GetInternalLoop]
  rw [loopBody_header _ _ _ _ _ h0 (by simp [hw]), loopBody_header _ _ _ _ _ h0' (by simp [hw'])]
  rw [InitBlock_congr d d' h1 h2]

/-- C4 as the code has it: a fresh decoder bound by `SetData` to 5 values and
the buffer of the scenario (one block, one mini-block of 4 values, bit width
3, minimum delta -1, first value 10, stored deltas 1, 2, 0, 3) returns 5 and
fills the buffer with `[10, 10, 11, 10, 12]`: every value is the previous
decoded value plus `-1` plus the stored delta. -/
theorem scenario_sequence (uninit : DeltaBitPackDecoder) :
    construct ParquetType.INT64 uninit = .ok (freshDecoder uninit) ∧
      (GetInt64 ((freshDecoder uninit).SetData 5 scenarioBuffer) 5).outcome =
        .ok (5, scenarioEnd) ∧
      outBuffer (GetInt64 ((freshDecoder uninit).SetData 5 scenarioBuffer) 5).writes 5 =
        [some 10, some (10 + -1 + 1), some (10 + -1 + 2), some (11 + -1 + 0), some (10 + -1 + 3)] ∧
      outBuffer (GetInt64 ((freshDecoder uninit).SetData 5 scenarioBuffer) 5).writes 5 =
        [some 10, some 10, some 11, some 10, some 12] := by
  have key : GetInt64 ((freshDecoder uninit).SetData 5 scenarioBuffer) 5 =
      GetInt64 ((freshDecoder zeroDecoder).SetData 5 scenarioBuffer) 5 := by
    unfold GetInt64 GetInternal
    simp only [SetData, freshDecoder, min_self, Int.toNat_ofNat]
    have h5 : (5 : Int).toNat = 4 + 1 := rfl
    rw [h5]
    exact GetInternalLoop_header_congr _ _ _ _ _ _ _ rfl rfl rfl rfl rfl rfl
  refine ⟨rfl, ?_, ?_, ?_⟩
  · rw [key]; decide
  · rw [key]; decide
  · rw [key]; decide

/-- A block header that parses leaves `num_values_` alone. -/
theorem InitBlock_num_values (d d1 : DeltaBitPackDecoder) (h : InitBlock d = .ok d1) :
    d1.num_values_ = d.num_values_ := by
  unfold InitBlock at h
  repeat' split at h
  all_goals first
    | (injection h with h; subst h; rfl)
    | (exact absurd h (by simp))

theorem DecodeBlock_length (T : IntType) (w : Nat) (offsets : List DecodeData) (data : List Nat)
    (base : Nat) (raw : List Int) (h : DecodeBlock T w offsets data base = some raw) :
    raw.length = offsets.length := by
  induction offsets generalizing raw with
  | nil => simp [DecodeBlock] at h; subst h; rfl
  | cons entry rest ih =>
    unfold DecodeBlock at h
    split at h
    · exact absurd h (by simp)
    · split at h
      · exact absurd h (by simp)
      · rename_i vs hvs
        injection h with h
        subst h
        simp [ih vs hvs]

theorem accumulate_slots (T : IntType) (min_delta : Int) (raw : List Int) (i : Nat)
    (last_value : Int) (log : Writes) :
    (accumulate T min_delta raw i last_value log).2.map Prod.fst =
      log.map Prod.fst ++ List.range' i raw.length := by
  induction raw generalizing i last_value log with
  | nil => simp [accumulate]
  | cons r rest ih =>
    simp only [accumulate]
    rw [ih]
    simp [List.range'_succ]

theorem finishBulk_cases (T : IntType) (d : DeltaBitPackDecoder) (log : Writes)
    (offsets : List DecodeData) (hlen : offsets.length = 32) (data : List Nat) (base : Nat) :
    finishBulk T d log (DecodeBlock T d.delta_bit_width_ offsets data base) =
        .raise .Undefined log ∨
      ∃ d1 log1, finishBulk T d log (DecodeBlock T d.delta_bit_width_ offsets data base) =
          .ret 32 d1 log1 ∧ d1.num_values_ = d.num_values_ - 32 ∧
        ∀ j, j ∈ log1.map Prod.fst ↔ (j ∈ log.map Prod.fst ∨ j < 32) := by
  cases hraw : DecodeBlock T d.delta_bit_width_ offsets data base with
  | none => left; rfl
  | some raw =>
    right
    have hr : raw.length = 32 := by rw [DecodeBlock_length _ _ _ _ _ _ hraw, hlen]
    refine ⟨_, _, rfl, rfl, ?_⟩
    intro j
    rw [accumulate_slots, hr]
    simp only [List.map_append, List.mem_append, List.mem_range'_1]
    rw [List.map_fst_zip _ _ (by simp [hr])]
    simp only [List.mem_range]
    constructor
    · rintro (h | ⟨_, h⟩)
      · exact h
      · exact Or.inr (by omega)
    · intro h
      exact Or.inl h

/-- The three ways a round of lines 94-119 can end. -/
theorem decodeSlot_cases (T : IntType) (m : Int) (i : Nat) (d : DeltaBitPackDecoder)
    (log : Writes) :
    (∃ d1, decodeSlot T m i d log = .next d1 (log ++ [(i, T.cast d1.last_value_)]) ∧
        m ≠ 32 ∧ d1.num_values_ = d.num_values_) ∨
      (∃ d1 log1, decodeSlot T m i d log = .ret 32 d1 log1 ∧ m = 32 ∧
        d1.num_values_ = d.num_values_ - 32 ∧
        ∀ j, j ∈ log1.map Prod.fst ↔ (j ∈ log.map Prod.fst ∨ j < 32)) ∨
      (∃ e, decodeSlot T m i d log = .raise e log) := by
  unfold decodeSlot
  by_cases hm : m = 32
  · rw [if_pos hm]
    right
    by_cases h14 : d.delta_bit_width_ = 14
    · rw [if_pos h14]
      rcases finishBulk_cases T d log decode_data_14_ rfl d.decoder_.data d.decoder_.current_ptr
        with h | ⟨d1, log1, h, h1, h2⟩
      · exact Or.inr ⟨_, h⟩
      · exact Or.inl ⟨d1, log1, h, hm, h1, h2⟩
    · rw [if_neg h14]
      by_cases h15 : d.delta_bit_width_ = 15
      · rw [if_pos h15]
        rcases finishBulk_cases T d log decode_data_15_ rfl d.decoder_.data d.decoder_.current_ptr
          with h | ⟨d1, log1, h, h1, h2⟩
        · exact Or.inr ⟨_, h⟩
        · exact Or.inl ⟨d1, log1, h, hm, h1, h2⟩
      · rw [if_neg h15]
        exact Or.inr ⟨_, rfl⟩
  · rw [if_neg hm]
    cases hread : d.decoder_.GetValue d.delta_bit_width_ with
    | none => exact Or.inr (Or.inr ⟨_, rfl⟩)
    | some p => exact Or.inl ⟨_, rfl, hm, rfl⟩

/-- The three ways a round of the loop can end. -/
theorem loopBody_cases (T : IntType) (m : Int) (i : Nat) (d : DeltaBitPackDecoder)
    (log : Writes) :
    (∃ d1, loopBody T m i d log = .next d1 (log ++ [(i, T.cast d1.last_value_)]) ∧
        d1.num_values_ = d.num_values_) ∨
      (∃ d1 log1, loopBody T m i d log = .ret 32 d1 log1 ∧ m = 32 ∧
        d1.num_values_ = d.num_values_ - 32 ∧
        ∀ j, j ∈ log1.map Prod.fst ↔ (j ∈ log.map Prod.fst ∨ j < 32)) ∨
      (∃ e, loopBody T m i d log = .raise e log) := by
  unfold loopBody
  by_cases h0 : d.values_current_mini_block_ = 0
  · rw [if_pos h0]
    simp only
    split
    · rcases decodeSlot_cases T m i _ log with ⟨d1, h, _, h1⟩ | h | h
      · exact Or.inl ⟨d1, h, h1⟩
      · exact Or.inr (Or.inl h)
      · exact Or.inr (Or.inr h)
    · split
      · exact Or.inr (Or.inr ⟨_, rfl⟩)
      · rename_i d1 hd1
        exact Or.inl ⟨d1, rfl, InitBlock_num_values _ _ hd1⟩
  · rw [if_neg h0]
    rcases decodeSlot_cases T m i d log with ⟨d1, h, _, h1⟩ | h | h
    · exact Or.inl ⟨d1, h, h1⟩
    · exact Or.inr (Or.inl h)
    · exact Or.inr (Or.inr h)

/-! ## The count contract (C5) -/

theorem slotsWritten_of_mem_iff {α : Type} (log : List (Nat × α)) (n : Nat)
    (h : ∀ j, j ∈ log.map Prod.fst ↔ j < n) : slotsWritten log = n := by
  unfold slotsWritten
  have hperm : ((log.map Prod.fst).dedup).Perm (List.range n) := by
    rw [List.perm_ext_iff_of_nodup (List.nodup_dedup _) (List.nodup_range n)]
    intro a
    rw [List.mem_dedup, h a, List.mem_range]
  rw [hperm.length_eq, List.length_range]

/-- The loop of `GetInternal`: the returned count, the decrement of
`num_values_` and the slots stored into. -/
theorem GetInternalLoop_count (T : IntType) (m : Int) (rounds : Nat) :
    ∀ (i : Nat) (d : DeltaBitPackDecoder) (log : Writes) (c : Int) (d1 : DeltaBitPackDecoder),
      (GetInternalLoop T m rounds i d log).outcome = .ok (c, d1) →
      c = m ∧ d1.num_values_ = d.num_values_ - m ∧
        (((i + rounds : Nat) : Int) = m → (∀ j, j ∈ log.map Prod.fst ↔ j < i) →
          ∀ j, j ∈ (GetInternalLoop T m rounds i d log).writes.map Prod.fst ↔ j < i + rounds) := by
  induction rounds with
  | zero =>
    intro i d log c d1 h
    simp only [GetInternalLoop] at h
    injection h with h
    injection h with h1 h2
    subst h1 h2
    refine ⟨rfl, rfl, ?_⟩
    intro _ hinv j
    simpa [GetInternalLoop] using hinv j
  | succ rounds ih =>
    intro i d log c d1 h
    rw [GetInternalLoop] at h ⊢
    rcases loopBody_cases T m i d log with ⟨d2, hb, hn⟩ | ⟨d2, log2, hb, hm, hn, hslots⟩ | ⟨e, hb⟩
    · rw [hb] at h ⊢
      simp only at h ⊢
      obtain ⟨h1, h2, h3⟩ := ih (i + 1) d2 _ c d1 h
      refine ⟨h1, by rw [h2, hn], ?_⟩
      intro hm hinv j
      have := h3 (by rw [← hm]; push_cast; ring) (by
        intro j
        simp only [List.map_append, List.mem_append, hinv j, List.map_cons, List.map_nil,
          List.mem_singleton]
        omega) j
      rw [this]
      omega
    · rw [hb] at h ⊢
      simp only at h ⊢
      injection h with h
      injection h with h1 h2
      subst h1 h2
      refine ⟨hm.symm, by rw [hn, hm], ?_⟩
      intro hir hinv j
      rw [hslots j, hinv j]
      have : i + (rounds + 1) = 32 := by omega
      omega
    · rw [hb] at h
      exact absurd h (by simp)

theorem GetByteArrayBody_num_values {σ : Type} (S : SuffixDecoder σ)
    (d d1 : DeltaByteArrayDecoder σ) (value : ByteArray)
    (h : DeltaByteArrayDecoder.GetByteArrayBody S d = .ok (d1, value)) :
    d1.num_values_ = d.num_values_ := by
  unfold DeltaByteArrayDecoder.GetByteArrayBody at h
  repeat' split at h
  all_goals first
    | (injection h with h; injection h with h h'; subst h; rfl)
    | (exact absurd h (by simp))

/-- The loop of `GetByteArray`: the returned count, the decrement of
`num_values_` and the slots stored into. -/
theorem GetByteArrayLoop_count {σ : Type} (S : SuffixDecoder σ) (m : Int) (rounds : Nat) :
    ∀ (i : Nat) (d : DeltaByteArrayDecoder σ) (log : List (Nat × ByteArray)) (c : Int)
      (d1 : DeltaByteArrayDecoder σ),
      (DeltaByteArrayDecoder.GetByteArrayLoop S m rounds i d log).outcome = .ok (c, d1) →
      c = m ∧ d1.num_values_ = d.num_values_ - m ∧
        ((∀ j, j ∈ log.map Prod.fst ↔ j < i) →
          ∀ j, j ∈ (DeltaByteArrayDecoder.GetByteArrayLoop S m rounds i d log).writes.map Prod.fst ↔
            j < i + rounds) := by
  induction rounds with
  | zero =>
    intro i d log c d1 h
    simp only [DeltaByteArrayDecoder.GetByteArrayLoop] at h
    injection h with h
    injection h with h1 h2
    subst h1 h2
    refine ⟨rfl, rfl, ?_⟩
    intro hinv j
    simpa [DeltaByteArrayDecoder.GetByteArrayLoop] using hinv j
  | succ rounds ih =>
    intro i d log c d1 h
    rw [DeltaByteArrayDecoder.GetByteArrayLoop] at h ⊢
    cases hb : DeltaByteArrayDecoder.GetByteArrayBody S d with
    | error e =>
      rw [hb] at h
      exact absurd h (by simp)
    | ok p =>
      obtain ⟨d2, value⟩ := p
      rw [hb] at h
      simp only at h ⊢
      obtain ⟨h1, h2, h3⟩ := ih _ _ _ c d1 h
      refine ⟨h1, by rw [h2, GetByteArrayBody_num_values S d d2 value hb], ?_⟩
      intro hinv j
      have := h3 (by
        intro j
        simp only [List.map_append, List.mem_append, hinv j, List.map_cons, List.map_nil,
          List.mem_singleton]
        omega) j
      rw [this]
      omega

/-- C5 as the code has it: a call of `GetInt32`/`GetInt64` (`GetInternal` at
`T = int32`, `int64`) or of `DeltaByteArrayDecoder::GetByteArray` that does
not fail returns exactly `min(max_values, num_values_)` and leaves
`num_values_` decreased by exactly the returned number, on the general path and
on the 32-value bulk path alike; a call asking for at least the remaining
count returns the remaining count and leaves zero; and when both `max_values`
and the remaining count are non-negative, the returned number is the number of
output slots stored into. -/
theorem decode_count_contract :
    (∀ (T : IntType) (d : DeltaBitPackDecoder) (max_values c : Int) (d1 : DeltaBitPackDecoder),
      (GetInternal T d max_values).outcome = .ok (c, d1) →
        c = min max_values d.num_values_ ∧ d1.num_values_ = d.num_values_ - c ∧
        (d.num_values_ ≤ max_values → c = d.num_values_ ∧ d1.num_values_ = 0) ∧
        (0 ≤ max_values → 0 ≤ d.num_values_ →
          (slotsWritten (GetInternal T d max_values).writes : Int) = c)) ∧
    (∀ (σ : Type) (S : SuffixDecoder σ) (d : DeltaByteArrayDecoder σ) (max_values c : Int)
      (d1 : DeltaByteArrayDecoder σ),
      (DeltaByteArrayDecoder.GetByteArray S d max_values).outcome = .ok (c, d1) →
        c = min max_values d.num_values_ ∧ d1.num_values_ = d.num_values_ - c ∧
        (d.num_values_ ≤ max_values → c = d.num_values_ ∧ d1.num_values_ = 0) ∧
        (0 ≤ max_values → 0 ≤ d.num_values_ →
          (slotsWritten (DeltaByteArrayDecoder.GetByteArray S d max_values).writes : Int) = c)) := by
  constructor
  · intro T d max_values c d1 h
    unfold GetInternal at h ⊢
    simp only at h ⊢
    obtain ⟨h1, h2, h3⟩ := GetInternalLoop_count T _ _ 0 d [] c d1 h
    subst h1
    refine ⟨rfl, h2, ?_, ?_⟩
    · intro hle
      rw [h2, min_eq_right hle]
      exact ⟨rfl, sub_self _⟩
    · intro hm hn
      have hnn : 0 ≤ min max_values d.num_values_ := le_min hm hn
      rw [slotsWritten_of_mem_iff _ (min max_values d.num_values_).toNat]
      · exact Int.toNat_of_nonneg hnn
      · intro j
        have := h3 (by simp [Int.toNat_of_nonneg hnn]) (by simp) j
        simpa using this
  · intro σ S d max_values c d1 h
    unfold DeltaByteArrayDecoder.GetByteArray at h ⊢
    simp only at h ⊢
    obtain ⟨h1, h2, h3⟩ := GetByteArrayLoop_count S _ _ 0 d [] c d1 h
    subst h1
    refine ⟨rfl, h2, ?_, ?_⟩
    · intro hle
      rw [h2, min_eq_right hle]
      exact ⟨rfl, sub_self _⟩
    · intro hm hn
      have hnn : 0 ≤ min max_values d.num_values_ := le_min hm hn
      rw [slotsWritten_of_mem_iff _ (min max_values d.num_values_).toNat]
      · exact Int.toNat_of_nonneg hnn
      · intro j
        have := h3 (by simp) j
        simpa using this

/-- Witness of C5: the integer scenario asked for 7 values returns the 5 that
remain, and the byte-array scenario asked for 3 values returns the 2 that
remain; both leave zero remaining and store into as many slots. -/
theorem decode_count_contract_witness :
    ((GetInternal IntType.int64 (zeroDecoder.SetData 5 scenarioBuffer) 7).outcome =
        .ok (5, scenarioEnd) ∧
      (slotsWritten (GetInternal IntType.int64 (zeroDecoder.SetData 5 scenarioBuffer) 7).writes
        : Int) = 5) ∧
    ((∃ d1, (DeltaByteArrayDecoder.GetByteArray queueSuffixDecoder scenarioByteArrayDecoder
        3).outcome = .ok (2, d1) ∧ d1.num_values_ = 0) ∧
      (slotsWritten (DeltaByteArrayDecoder.GetByteArray queueSuffixDecoder
        scenarioByteArrayDecoder 3).writes : Int) = 2) :=
  ⟨⟨by decide,
    (decode_count_contract.1 IntType.int64 (zeroDecoder.SetData 5 scenarioBuffer) 7 5
      scenarioEnd (by decide)).2.2.2 (by decide) (by decide)⟩,
   ⟨⟨_, rfl, (decode_count_contract.2 _ queueSuffixDecoder scenarioByteArrayDecoder 3 2 _
      rfl).2.2.1 (by decide) |>.2⟩,
    (decode_count_contract.2 _ queueSuffixDecoder scenarioByteArrayDecoder 3 2 _
      rfl).2.2.2 (by decide) (by decide)⟩⟩

/-- Counterexample to C5: bound by `SetData` to a negative count, a call with
`max_values = 0` returns -1 although it stores into no slot. -/
theorem count_differs_from_slots_written :
    (0 : Int) ≤ 0 ∧
      (GetInt64 (zeroDecoder.SetData (-1) []) 0).outcome = .ok (-1, zeroDecoder.SetData 0 []) ∧
      (GetInt64 (zeroDecoder.SetData (-1) []) 0).writes = [] ∧
      (slotsWritten (GetInt64 (zeroDecoder.SetData (-1) []) 0).writes : Int) ≠ -1 := by
  decide

/-! ## The bulk path at a block boundary (C2, C6) -/

/-- C2 at its failing input: at the block boundary of `boundaryDecoder`,
`GetInt64(buffer, 32)` (and `GetInt32`) parses the block header at slot 0
(base value 100, 32 values per mini-block) and stores 100 there, succeeds with
32, and returns a buffer whose slot 0 holds 101: the bulk path, entered at
slot 1, has stored its own 32 values over slots 0 to 31. -/
theorem bulk_path_overwrites_first_value :
    (GetInt64 ((freshDecoder zeroDecoder).SetData 35 bulkBuffer) 2).outcome =
        .ok (2, boundaryDecoder) ∧
      (∃ d1, InitBlock boundaryDecoder = .ok d1 ∧ d1.last_value_ = 100 ∧
        d1.values_current_mini_block_ = 32 ∧
        loopBody IntType.int64 32 0 boundaryDecoder [] = .next d1 [(0, 100)]) ∧
      (GetInt64 boundaryDecoder 32).outcome.map (fun p => p.1) = .ok 32 ∧
      outBuffer (GetInt64 boundaryDecoder 32).writes 1 = [some 101] ∧
      (GetInt32 boundaryDecoder 32).outcome.map (fun p => p.1) = .ok 32 ∧
      outBuffer (GetInt32 boundaryDecoder 32).writes 1 = [some 101] := by
  refine ⟨by decide, ⟨_, rfl, by decide, by decide, by decide⟩, by decide, by decide,
    by decide, by decide⟩

set_option maxRecDepth 100000 in
/-- C6 at its failing input: from the block boundary of `boundaryDecoder`
(bit width 14, 33 values remaining), one call with `max_values = 32` stores 32
times the value 101 and leaves the reader at bit 568, while 32 calls with
`max_values = 1` produce the base value 100 followed by 31 times 101 and leave
the reader at bit 554. -/
theorem bulk_path_differs_at_block_boundary :
    (GetInt64 ((freshDecoder zeroDecoder).SetData 35 bulkBuffer) 2).outcome =
        .ok (2, boundaryDecoder) ∧
      outBuffer (GetInt64 boundaryDecoder 32).writes 32 = List.replicate 32 (some 101) ∧
      (decodeOneByOne IntType.int64 32 boundaryDecoder).1 = 100 :: List.replicate 31 101 ∧
      (GetInt64 boundaryDecoder 32).outcome.map
          (fun p => (p.1, p.2.decoder_.bitPos, p.2.last_value_)) = .ok (32, 568, 101) ∧
      (decodeOneByOne IntType.int64 32 boundaryDecoder).2.map
          (fun d => (d.decoder_.bitPos, d.last_value_)) = .ok (554, 101) := by
  refine ⟨by decide, by decide, by decide, by decide, by decide⟩

/-! ## Rebinding with `SetData` (C8) -/

/-- C8 at its failing input: after one value of a block that declared two
mini-blocks (`staleDecoder`), `SetData(5, scenarioBuffer)` sets `num_values_`
to 5 and zeroes the two counters but keeps `mini_block_idx_` and
`delta_bit_widths_`; the next call parses no header: it reads the first byte
of the new buffer as an 8-bit delta and returns 5 + 0 + 4 = 9, where the
header of the new buffer has the base value 10. -/
theorem SetData_keeps_mini_block_index :
    (GetInt64 (zeroDecoder.SetData 3 twoMiniBlockBuffer) 1).outcome = .ok (1, staleDecoder) ∧
      (staleDecoder.SetData 5 scenarioBuffer).num_values_ = 5 ∧
      (staleDecoder.SetData 5 scenarioBuffer).values_current_mini_block_ = 0 ∧
      (staleDecoder.SetData 5 scenarioBuffer).mini_block_idx_ = 0 ∧
      (staleDecoder.SetData 5 scenarioBuffer).delta_bit_widths_ = [8, 8] ∧
      (GetInt64 (staleDecoder.SetData 5 scenarioBuffer) 1).writes = [(0, 9)] ∧
      (∃ d1, (GetInt64 (staleDecoder.SetData 5 scenarioBuffer) 1).outcome = .ok (1, d1) ∧
        d1.decoder_.bitPos = 8 ∧ d1.min_delta_ = 0) ∧
      (∃ d2, InitBlock (staleDecoder.SetData 5 scenarioBuffer) = .ok d2 ∧ d2.last_value_ = 10) := by
  refine ⟨by decide, rfl, rfl, rfl, rfl, by decide, ⟨_, rfl, by decide, by decide⟩,
    ⟨_, rfl, by decide⟩⟩

/-! ## The general path as a sequence of single rounds (C7) -/

/-- The decoder `d` with `num_values_` replaced. -/
theorem InitBlock_set_num_values (d : DeltaBitPackDecoder) (x : Int) :
    InitBlock { d with num_values_ := x } =
      (InitBlock d).map (fun d1 => { d1 with num_values_ := x }) := by
  unfold InitBlock
  simp only
  cases readBlockHeader d.decoder_ with
  | error e => rfl
  | ok h =>
    simp only [Except.map]
    split <;> rfl

theorem readDelta_set_num_values (d : DeltaBitPackDecoder) (x : Int) :
    readDelta { d with num_values_ := x } =
      (readDelta d).map (fun d1 => { d1 with num_values_ := x }) := by
  unfold readDelta
  simp only [Except.map]
  split <;> rfl

theorem generalRound_set_num_values (d : DeltaBitPackDecoder) (x : Int) :
    generalRound { d with num_values_ := x } =
      (generalRound d).map (fun d1 => { d1 with num_values_ := x }) := by
  unfold generalRound
  simp only
  split
  · split
    · exact readDelta_set_num_values
        { d with
          mini_block_idx_ := d.mini_block_idx_ + 1
          delta_bit_width_ := d.delta_bit_widths_.getD (d.mini_block_idx_ + 1).toNat 0
          values_current_mini_block_ := d.values_per_mini_block_ } x
    · exact InitBlock_set_num_values { d with mini_block_idx_ := d.mini_block_idx_ + 1 } x
  · exact readDelta_set_num_values d x

theorem generalRun_set_num_values (T : IntType) (n : Nat) (d : DeltaBitPackDecoder) (x : Int) :
    generalRun T n { d with num_values_ := x } =
      ((generalRun T n d).1, (generalRun T n d).2.map (fun d1 => { d1 with num_values_ := x })) := by
  induction n generalizing d with
  | zero => rfl
  | succ n ih =>
    simp only [generalRun]
    rw [generalRound_set_num_values]
    cases h : generalRound d with
    | error e => rfl
    | ok d1 =>
      simp only [Except.map]
      rw [ih d1]
      rfl

theorem decodeSlot_general (T : IntType) (m : Int) (i : Nat) (d : DeltaBitPackDecoder)
    (log : Writes) (hm : m ≠ 32) :
    decodeSlot T m i d log =
      match readDelta d with
      | .ok d1 => .next d1 (log ++ [(i, T.cast d1.last_value_)])
      | .error e => .raise e log := by
  unfold decodeSlot readDelta
  rw [if_neg hm]
  cases d.decoder_.GetValue d.delta_bit_width_ <;> rfl

/-- A round of the loop with `max_values != 32` is a general round followed by
the store into slot `i`. -/
theorem loopBody_general (T : IntType) (m : Int) (i : Nat) (d : DeltaBitPackDecoder)
    (log : Writes) (hm : m ≠ 32) :
    loopBody T m i d log =
      match generalRound d with
      | .ok d1 => .next d1 (log ++ [(i, T.cast d1.last_value_)])
      | .error e => .raise e log := by
  unfold loopBody generalRound
  by_cases h0 : d.values_current_mini_block_ = 0
  · rw [if_pos h0, if_pos h0]
    simp only
    by_cases hi : 0 ≤ d.mini_block_idx_ + 1 ∧
        d.mini_block_idx_ + 1 < (d.delta_bit_widths_.length : Int)
    · rw [if_pos hi, if_pos hi]
      exact decodeSlot_general T m i _ log hm
    · rw [if_neg hi, if_neg hi]
      cases InitBlock { d with mini_block_idx_ := d.mini_block_idx_ + 1 } <;> rfl
  · rw [if_neg h0, if_neg h0]
    exact decodeSlot_general T m i d log hm

theorem readDelta_num_values (d d1 : DeltaBitPackDecoder) (h : readDelta d = .ok d1) :
    d1.num_values_ = d.num_values_ := by
  unfold readDelta at h
  split at h
  · exact absurd h (by simp)
  · injection h with h; subst h; rfl

theorem generalRound_num_values (d d1 : DeltaBitPackDecoder) (h : generalRound d = .ok d1) :
    d1.num_values_ = d.num_values_ := by
  unfold generalRound at h
  split at h
  · split at h
    · have := readDelta_num_values _ _ h
      exact this
    · have := InitBlock_num_values _ _ h
      exact this
  · exact readDelta_num_values _ _ h

/-- With `max_values != 32` the loop of `GetInternal` is a run of general
rounds, each followed by the store of its value into the next slot. -/
theorem GetInternalLoop_general (T : IntType) (m : Int) (hm : m ≠ 32) (rounds : Nat) :
    ∀ (i : Nat) (d : DeltaBitPackDecoder) (log : Writes),
      GetInternalLoop T m rounds i d log =
        { writes := log ++
            (List.range' i (generalRun T rounds d).1.length).zip (generalRun T rounds d).1
          outcome :=
            match (generalRun T rounds d).2 with
            | .ok d1 => .ok (m, { d1 with num_values_ := d1.num_values_ - m })
            | .error e => .error e } := by
  induction rounds with
  | zero =>
    intro i d log
    simp [GetInternalLoop, generalRun]
  | succ rounds ih =>
    intro i d log
    rw [GetInternalLoop, loopBody_general T m i d log hm]
    simp only [generalRun]
    cases h : generalRound d with
    | error e => simp
    | ok d1 =>
      simp only
      rw [ih]
      simp [List.range'_succ]

theorem GetInternal_one (T : IntType) (d : DeltaBitPackDecoder) (h1 : 1 ≤ d.num_values_) :
    GetInternal T d 1 =
      match generalRound d with
      | .ok d1 =>
        { writes := [(0, T.cast d1.last_value_)]
          outcome := .ok (1, { d1 with num_values_ := d.num_values_ - 1 }) }
      | .error e => { writes := [], outcome := .error e } := by
  unfold GetInternal
  simp only [min_eq_left h1]
  have : (1 : Int).toNat = 0 + 1 := rfl
  rw [this, GetInternalLoop_general T 1 (by decide)]
  simp only [generalRun]
  cases h : generalRound d with
  | error e => simp
  | ok d1 =>
    simp only [generalRound_num_values d d1 h]
    simp

/-- Decoding one value at a time is the same run of general rounds. -/
theorem decodeOneByOne_eq_generalRun (T : IntType) (n : Nat) :
    ∀ (d : DeltaBitPackDecoder), (n : Int) ≤ d.num_values_ →
      decodeOneByOne T n d =
        ((generalRun T n d).1,
          (generalRun T n d).2.map (fun d1 => { d1 with num_values_ := d.num_values_ - n })) := by
  induction n with
  | zero =>
    intro d _
    simp [decodeOneByOne, generalRun, Except.map]
  | succ n ih =>
    intro d hn
    have h1 : 1 ≤ d.num_values_ := by push_cast at hn; omega
    simp only [decodeOneByOne, generalRun]
    rw [GetInternal_one T d h1]
    cases h : generalRound d with
    | error e => rfl
    | ok d1 =>
      simp only
      have hnum := generalRound_num_values d d1 h
      rw [ih _ (by simp only; push_cast at hn; omega)]
      rw [generalRun_set_num_values]
      simp only [slotValue, if_true, Option.toList, List.singleton_append, List.cons_append,
        List.nil_append]
      congr 1
      cases (generalRun T n d1).2 with
      | error e => rfl
      | ok d2 =>
        simp only [Except.map]
        congr 2
        push_cast
        ring

theorem generalRun_num_values (T : IntType) (n : Nat) :
    ∀ (d d1 : DeltaBitPackDecoder), (generalRun T n d).2 = .ok d1 →
      d1.num_values_ = d.num_values_ := by
  induction n with
  | zero =>
    intro d d1 h
    simp only [generalRun] at h
    injection h with h
    rw [h]
  | succ n ih =>
    intro d d1 h
    simp only [generalRun] at h
    cases hr : generalRound d with
    | error e =>
      rw [hr] at h
      exact absurd h (by simp)
    | ok d2 =>
      rw [hr] at h
      rw [ih d2 d1 h, generalRound_num_values d d2 hr]

theorem bitsLE_length (n v : Nat) : (bitsLE n v).length = n := by
  induction n generalizing v with
  | zero => rfl
  | succ n ih => simp [bitsLE, ih]

theorem ofBits_bitsLE (n v : Nat) : ofBits (bitsLE n v) = v % 2 ^ n := by
  induction n generalizing v with
  | zero => simp [bitsLE, ofBits, Nat.mod_one]
  | succ n ih =>
    simp only [bitsLE, ofBits, ih]
    have h2 : v % 2 ^ (n + 1) = v % 2 + 2 * (v / 2 % 2 ^ n) := by
      rw [pow_succ, mul_comm, Nat.mod_mul]
    rw [h2]
    rcases Nat.mod_two_eq_zero_or_one v with h | h <;> simp [h]

theorem ofBits_lt (l : List Bool) : ofBits l < 2 ^ l.length := by
  induction l with
  | nil => simp [ofBits]
  | cons b l ih =>
    simp only [ofBits, List.length_cons, pow_succ]
    split <;> omega

theorem bitsLE_ofBits (n : Nat) (l : List Bool) (h : l.length ≤ n) :
    bitsLE n (ofBits l) = l ++ List.replicate (n - l.length) false := by
  induction n generalizing l with
  | zero =>
    have : l = [] := List.eq_nil_of_length_eq_zero (by omega)
    subst this
    rfl
  | succ n ih =>
    cases l with
    | nil =>
      simp only [ofBits, bitsLE, List.length_nil, Nat.sub_zero, List.nil_append,
        List.replicate_succ]
      have := ih [] (by simp)
      simp only [ofBits, List.length_nil, Nat.sub_zero, List.nil_append] at this
      simp [this]
    | cons b l =>
      simp only [List.length_cons] at h
      simp only [ofBits, bitsLE, List.length_cons, List.cons_append]
      have hdiv : ((if b = true then 1 else 0) + 2 * ofBits l) / 2 = ofBits l := by
        split <;> omega
      have hmod : decide (((if b = true then 1 else 0) + 2 * ofBits l) % 2 = 1) = b := by
        cases b <;> simp
      rw [hdiv, hmod, ih l (by omega)]
      congr 3
      omega

theorem bitsOf_append (a b : List Nat) : bitsOf (a ++ b) = bitsOf a ++ bitsOf b := by
  induction a with
  | nil => rfl
  | cons x a ih => simp [bitsOf, ih]

theorem bitsOf_length (a : List Nat) : (bitsOf a).length = 8 * a.length := by
  induction a with
  | nil => rfl
  | cons x a ih =>
    simp only [bitsOf, List.length_append, bitsLE_length, ih, List.length_cons]
    omega

theorem packBytesAux_length (n : Nat) (bits : List Bool) : (packBytesAux n bits).length = n := by
  induction n generalizing bits with
  | zero => rfl
  | succ n ih => simp [packBytesAux, ih]

theorem bitsOf_packBytesAux (n : Nat) (bits : List Bool) (h : bits.length ≤ 8 * n) :
    bitsOf (packBytesAux n bits) = bits ++ List.replicate (8 * n - bits.length) false := by
  induction n generalizing bits with
  | zero =>
    have : bits = [] := List.eq_nil_of_length_eq_zero (by omega)
    subst this
    rfl
  | succ n ih =>
    simp only [packBytesAux, bitsOf]
    rw [bitsLE_ofBits 8 _ (by simp), ih _ (by simp; omega)]
    by_cases h8 : 8 ≤ bits.length
    · have ht : (bits.take 8).length = 8 := by simp [h8]
      rw [ht]
      simp only [Nat.sub_self, List.replicate_zero, List.append_nil, List.length_drop]
      rw [← List.append_assoc, List.take_append_drop]
      congr 2
      omega
    · have ht : bits.take 8 = bits := List.take_of_length_le (by omega)
      have hd : bits.drop 8 = [] := List.drop_of_length_le (by omega)
      rw [ht, hd]
      simp only [List.length_nil, Nat.sub_zero, List.nil_append, List.append_assoc,
        List.append_replicate_replicate]
      congr 2
      omega

theorem packBytes_length (bits : List Bool) : (packBytes bits).length = (bits.length + 7) / 8 :=
  packBytesAux_length _ _

theorem bitsOf_packBytes (bits : List Bool) :
    bitsOf (packBytes bits) =
      bits ++ List.replicate (8 * ((bits.length + 7) / 8) - bits.length) false :=
  bitsOf_packBytesAux _ _ (by omega)

/-! ## The bit reader on laid-out data -/

theorem GetAligned_at (r : BitReader) (pre post : List Nat) (b : Nat)
    (hdata : r.data = pre ++ b :: post) (hpos : (r.bitPos + 7) / 8 = pre.length) :
    r.GetAligned = some (b % 256, { r with bitPos := 8 * (pre.length + 1) }) := by
  unfold BitReader.GetAligned
  rw [hpos, hdata, List.getElem?_append_right (le_refl _), Nat.sub_self]
  simp only [List.getElem?_cons_zero]

theorem GetVlqLoop_at (fuelE : Nat) :
    ∀ (v fuel : Nat) (r : BitReader) (pre post : List Nat) (shift acc : Nat),
      r.data = pre ++ encodeVlqAux fuelE v ++ post → (r.bitPos + 7) / 8 = pre.length →
      v < 128 ^ (fuelE + 1) → (encodeVlqAux fuelE v).length ≤ fuel →
      BitReader.GetVlqLoop fuel r shift acc =
        some ((acc + v * 2 ^ shift) % 2 ^ 64,
          { r with bitPos := 8 * (pre.length + (encodeVlqAux fuelE v).length) }) := by
  induction fuelE with
  | zero =>
    intro v fuel r pre post shift acc hdata hpos hv hfuel
    simp only [encodeVlqAux, List.length_singleton] at hdata hfuel ⊢
    obtain ⟨f, rfl⟩ : ∃ f, fuel = f + 1 := ⟨fuel - 1, by omega⟩
    have hv' : v % 128 = v := Nat.mod_eq_of_lt (by simpa using hv)
    rw [hv'] at hdata
    rw [BitReader.GetVlqLoop, GetAligned_at r pre post v (by simpa using hdata) hpos]
    have h1 : v % 256 = v := Nat.mod_eq_of_lt (by omega)
    simp only [h1, hv']
    rw [if_neg (by omega)]
  | succ fe ih =>
    intro v fuel r pre post shift acc hdata hpos hv hfuel
    obtain ⟨f, rfl⟩ : ∃ f, fuel = f + 1 := ⟨fuel - 1, by
      have : 0 < (encodeVlqAux (fe + 1) v).length := by
        unfold encodeVlqAux; split <;> simp
      omega⟩
    by_cases hlt : v < 128
    · simp only [encodeVlqAux, if_pos hlt, List.length_singleton] at hdata hfuel ⊢
      rw [BitReader.GetVlqLoop, GetAligned_at r pre post v (by simpa using hdata) hpos]
      have h1 : v % 256 = v := Nat.mod_eq_of_lt (by omega)
      have h2 : v % 128 = v := Nat.mod_eq_of_lt hlt
      simp only [h1, h2]
      rw [if_neg (by omega)]
    · simp only [encodeVlqAux, if_neg hlt, List.length_cons] at hdata hfuel ⊢
      rw [BitReader.GetVlqLoop,
        GetAligned_at r pre (encodeVlqAux fe (v / 128) ++ post) (v % 128 + 128)
          (by simpa using hdata) hpos]
      have h1 : (v % 128 + 128) % 256 = v % 128 + 128 := Nat.mod_eq_of_lt (by omega)
      have h2 : (v % 128 + 128) / 128 = 1 := by omega
      have h3 : (v % 128 + 128) % 128 = v % 128 := by omega
      simp only [h1, h2, h3, if_true]
      rw [ih (v / 128) f _ (pre ++ [v % 128 + 128]) post (shift + 7) _
        (by simpa using hdata) (by simp; omega)
        (by rw [pow_succ] at hv; exact Nat.div_lt_of_lt_mul (by rw [mul_comm]; exact hv))
        (by omega)]
      simp only [List.length_append, List.length_singleton]
      congr 2
      · congr 1
        rw [pow_add]
        have := Nat.mod_add_div v 128
        calc acc + v % 128 * 2 ^ shift + v / 128 * (2 ^ shift * 2 ^ 7)
            = acc + (v % 128 + 128 * (v / 128)) * 2 ^ shift := by ring
          _ = acc + v * 2 ^ shift := by rw [this]
      · congr 1
        omega

theorem encodeVlq_ne_nil (v : Nat) : encodeVlq v ≠ [] := by
  unfold encodeVlq encodeVlqAux
  split <;> simp

theorem GetVlqInt_at (r : BitReader) (pre post : List Nat) (v : Nat)
    (hdata : r.data = pre ++ encodeVlq v ++ post) (hpos : (r.bitPos + 7) / 8 = pre.length)
    (hv : v < 2 ^ 64) :
    r.GetVlqInt = some (v, { r with bitPos := 8 * (pre.length + (encodeVlq v).length) }) := by
  unfold BitReader.GetVlqInt
  have h128 : (2 : Nat) ^ 64 ≤ 128 ^ (9 + 1) := by norm_num
  rw [GetVlqLoop_at 9 v _ r pre post 0 0 hdata hpos (by omega)
    (by rw [hdata]; simp [encodeVlq]; omega)]
  simp only [Nat.zero_add, pow_zero, mul_one, Nat.mod_eq_of_lt hv]
  rfl

theorem zigZag_roundtrip (x : Int) (h : fitsSigned 64 x) :
    BitReader.zigZagDecode (zigZagEncode x) = x ∧ zigZagEncode x < 2 ^ 64 := by
  obtain ⟨h1, h2⟩ := h
  norm_num at h1 h2
  unfold BitReader.zigZagDecode zigZagEncode
  by_cases hx : 0 ≤ x
  · rw [if_pos hx]
    have : (2 * x).toNat = 2 * x.toNat := by omega
    rw [this]
    constructor
    · rw [if_pos (by omega)]
      omega
    · omega
  · rw [if_neg hx]
    have : (-2 * x - 1).toNat = 2 * (-x - 1).toNat + 1 := by omega
    rw [this]
    constructor
    · rw [if_neg (by omega)]
      omega
    · omega

theorem GetZigZagVlqInt_at (r : BitReader) (pre post : List Nat) (x : Int)
    (hdata : r.data = pre ++ encodeVlq (zigZagEncode x) ++ post)
    (hpos : (r.bitPos + 7) / 8 = pre.length) (hx : fitsSigned 64 x) :
    r.GetZigZagVlqInt =
      some (x, { r with bitPos := 8 * (pre.length + (encodeVlq (zigZagEncode x)).length) }) := by
  unfold BitReader.GetZigZagVlqInt
  rw [GetVlqInt_at r pre post _ hdata hpos (zigZag_roundtrip x hx).2]
  simp only [(zigZag_roundtrip x hx).1]

theorem readWidths_at (ws : List Nat) :
    ∀ (w : Nat) (r : BitReader) (pre post : List Nat),
      r.data = pre ++ (w :: ws) ++ post → (r.bitPos + 7) / 8 = pre.length →
      (∀ x ∈ w :: ws, x < 256) →
      readWidths (w :: ws).length r =
        some (w :: ws, { r with bitPos := 8 * (pre.length + (w :: ws).length) }) := by
  induction ws with
  | nil =>
    intro w r pre post hdata hpos hw
    simp only [List.length_singleton, readWidths]
    rw [GetAligned_at r pre post w (by simpa using hdata) hpos]
    simp [Nat.mod_eq_of_lt (hw w (by simp))]
  | cons w2 ws ih =>
    intro w r pre post hdata hpos hw
    rw [List.length_cons, readWidths]
    rw [GetAligned_at r pre (w2 :: ws ++ post) w (by simpa using hdata) hpos]
    simp only
    rw [ih w2 _ (pre ++ [w]) post (by simpa using hdata) (by simp; omega)
      (fun x hx => hw x (List.mem_cons_of_mem _ hx))]
    simp only [Nat.mod_eq_of_lt (hw w (by simp)), List.length_append, List.length_singleton,
      List.length_cons]
    congr 4
    simp only [List.length_nil]
    omega

theorem GetValue_at (r : BitReader) (A B : List Bool) (w x : Nat)
    (hbits : bitsOf r.data = A ++ bitsLE w x ++ B) (hpos : r.bitPos = A.length)
    (hx : x < 2 ^ w) :
    r.GetValue w = some (x, { r with bitPos := r.bitPos + w }) := by
  unfold BitReader.GetValue
  have hlen : 8 * r.data.length = A.length + w + B.length := by
    rw [← bitsOf_length, hbits]
    simp only [List.length_append, bitsLE_length]
  rw [if_pos (by omega), hbits, hpos]
  simp only [List.append_assoc, List.drop_left]
  rw [List.take_left' (bitsLE_length w x), ofBits_bitsLE, Nat.mod_eq_of_lt hx]

/-- The header of a well-formed block is read back field by field. -/
theorem readBlockHeader_at (r : BitReader) (pre post : List Nat) (b : Block)
    (hwf : b.wellFormed) (hvec : b.mini_blocks.length < 2 ^ 63)
    (hdata : r.data = pre ++ encodeHeader b ++ post)
    (hpos : (r.bitPos + 7) / 8 = pre.length) :
    readBlockHeader r =
      .ok { block_size := b.values_per_mini_block * b.mini_blocks.length
            num_mini_blocks := b.mini_blocks.length
            values_current_block := b.value_count
            last_value := b.first_value
            min_delta := b.min_delta
            delta_bit_widths := b.mini_blocks.map (fun mb => mb.bit_width)
            reader := { r with bitPos := 8 * (pre.length + (encodeHeader b).length) } } := by
  obtain ⟨hne, hfirst, hmin, hcount, hn, hsize, hmb⟩ := hwf
  obtain ⟨mb, mbs, hcons⟩ : ∃ mb mbs, b.mini_blocks = mb :: mbs := by
    cases hb : b.mini_blocks with
    | nil => exact absurd hb hne
    | cons mb mbs => exact ⟨mb, mbs, rfl⟩
  have hws : b.mini_blocks.map (fun mb => mb.bit_width) =
      mb.bit_width :: mbs.map (fun mb => mb.bit_width) := by rw [hcons]; rfl
  have hwlt : ∀ x ∈ mb.bit_width :: mbs.map (fun mb => mb.bit_width), x < 256 := by
    intro x hx
    rw [← hws, List.mem_map] at hx
    obtain ⟨m, hm, rfl⟩ := hx
    exact (hmb m hm).1
  have hlen : b.mini_blocks.length = (mb.bit_width :: mbs.map (fun mb => mb.bit_width)).length := by
    rw [hcons]; simp
  have hd : r.data = pre ++ encodeVlq (b.values_per_mini_block * b.mini_blocks.length) ++
      encodeVlq b.mini_blocks.length ++ encodeVlq b.value_count ++
      encodeVlq (zigZagEncode b.first_value) ++ encodeVlq (zigZagEncode b.min_delta) ++
      (mb.bit_width :: mbs.map (fun mb => mb.bit_width)) ++ post := by
    rw [hdata, encodeHeader, hws]
    simp only [List.append_assoc]
  unfold readBlockHeader
  simp only [bind, Except.bind, orEof]
  rw [GetVlqInt_at
    r
    pre
    (encodeVlq b.mini_blocks.length ++
      encodeVlq b.value_count ++
      encodeVlq (zigZagEncode b.first_value) ++
      encodeVlq (zigZagEncode b.min_delta) ++
      (mb.bit_width :: mbs.map (fun mb => mb.bit_width)) ++
      post) (b.values_per_mini_block * b.mini_blocks.length)
    (by show r.data = _; rw [hd]; simp only [List.append_assoc])
    hpos hsize]
  simp only
  rw [GetVlqInt_at
    { data := r.data, bitPos := 8 * (pre.length + (encodeVlq (b.values_per_mini_block * b.mini_blocks.length)).length) }
    (pre ++
      encodeVlq (b.values_per_mini_block * b.mini_blocks.length))
    (encodeVlq b.value_count ++
      encodeVlq (zigZagEncode b.first_value) ++
      encodeVlq (zigZagEncode b.min_delta) ++
      (mb.bit_width :: mbs.map (fun mb => mb.bit_width)) ++
      post) b.mini_blocks.length
    (by show r.data = _; rw [hd]; simp only [List.append_assoc])
    (by show (8 * _ + 7) / 8 = _; simp only [List.length_append]; omega) hn]
  simp only
  rw [GetVlqInt_at
    { data := r.data, bitPos := 8 * ((pre ++
      encodeVlq (b.values_per_mini_block * b.mini_blocks.length)).length + (encodeVlq b.mini_blocks.length).length) }
    (pre ++
      encodeVlq (b.values_per_mini_block * b.mini_blocks.length) ++
      encodeVlq b.mini_blocks.length)
    (encodeVlq (zigZagEncode b.first_value) ++
      encodeVlq (zigZagEncode b.min_delta) ++
      (mb.bit_width :: mbs.map (fun mb => mb.bit_width)) ++
      post) b.value_count
    (by show r.data = _; rw [hd]; simp only [List.append_assoc])
    (by show (8 * _ + 7) / 8 = _; simp only [List.length_append]; omega) hcount]
  simp only
  rw [GetZigZagVlqInt_at
    { data := r.data, bitPos := 8 * ((pre ++
      encodeVlq (b.values_per_mini_block * b.mini_blocks.length) ++
      encodeVlq b.mini_blocks.length).length + (encodeVlq b.value_count).length) }
    (pre ++
      encodeVlq (b.values_per_mini_block * b.mini_blocks.length) ++
      encodeVlq b.mini_blocks.length ++
      encodeVlq b.value_count)
    (encodeVlq (zigZagEncode b.min_delta) ++
      (mb.bit_width :: mbs.map (fun mb => mb.bit_width)) ++
      post) b.first_value
    (by show r.data = _; rw [hd]; simp only [List.append_assoc])
    (by show (8 * _ + 7) / 8 = _; simp only [List.length_append]; omega) hfirst]
  have hres : resizeWidths b.mini_blocks.length = .ok () := by
    unfold resizeWidths maxVectorSize
    rw [if_neg (by omega)]
  simp only [hres]
  rw [GetZigZagVlqInt_at
    { data := r.data, bitPos := 8 * ((pre ++
      encodeVlq (b.values_per_mini_block * b.mini_blocks.length) ++
      encodeVlq b.mini_blocks.length ++
      encodeVlq b.value_count).length + (encodeVlq (zigZagEncode b.first_value)).length) }
    (pre ++
      encodeVlq (b.values_per_mini_block * b.mini_blocks.length) ++
      encodeVlq b.mini_blocks.length ++
      encodeVlq b.value_count ++
      encodeVlq (zigZagEncode b.first_value))
    ((mb.bit_width :: mbs.map (fun mb => mb.bit_width)) ++
      post) b.min_delta
    (by show r.data = _; rw [hd]; simp only [List.append_assoc])
    (by show (8 * _ + 7) / 8 = _; simp only [List.length_append]; omega) hmin]
  simp only
  have s6 := readWidths_at (mbs.map (fun mb => mb.bit_width)) mb.bit_width
    { data := r.data, bitPos := 8 * ((pre ++
      encodeVlq (b.values_per_mini_block * b.mini_blocks.length) ++
      encodeVlq b.mini_blocks.length ++
      encodeVlq b.value_count ++
      encodeVlq (zigZagEncode b.first_value)).length + (encodeVlq (zigZagEncode b.min_delta)).length) }
    (pre ++
      encodeVlq (b.values_per_mini_block * b.mini_blocks.length) ++
      encodeVlq b.mini_blocks.length ++
      encodeVlq b.value_count ++
      encodeVlq (zigZagEncode b.first_value) ++
      encodeVlq (zigZagEncode b.min_delta)) post
    (by show r.data = _; rw [hd])
    (by show (8 * _ + 7) / 8 = _; simp only [List.length_append]; omega) hwlt
  rw [← hlen] at s6
  rw [s6]
  simp only [← hws]
  congr 3
  rw [encodeHeader]
  simp only [List.length_append, List.length_map]
  omega

/-! ## Decoding a laid-out stream (C1) -/

theorem generalRun_add (T : IntType) (a b : Nat) :
    ∀ (d : DeltaBitPackDecoder),
      generalRun T (a + b) d =
        match (generalRun T a d).2 with
        | .ok d1 => ((generalRun T a d).1 ++ (generalRun T b d1).1, (generalRun T b d1).2)
        | .error e => ((generalRun T a d).1, .error e) := by
  induction a with
  | zero =>
    intro d
    simp [generalRun]
  | succ a ih =>
    intro d
    have : a + 1 + b = (a + b) + 1 := by omega
    rw [this]
    simp only [generalRun]
    cases h : generalRound d with
    | error e => rfl
    | ok d1 =>
      simp only
      rw [ih d1]
      cases (generalRun T a d1).2 <;> rfl

/-- Entering the next mini-block and reading its first delta is one round. -/
theorem generalRound_switch (d : DeltaBitPackDecoder) (h0 : d.values_current_mini_block_ = 0)
    (hidx : 0 ≤ d.mini_block_idx_ + 1 ∧ d.mini_block_idx_ + 1 < (d.delta_bit_widths_.length : Int))
    (hv : d.values_per_mini_block_ ≠ 0) :
    generalRound d =
      generalRound
        { d with
          mini_block_idx_ := d.mini_block_idx_ + 1
          delta_bit_width_ := d.delta_bit_widths_.getD (d.mini_block_idx_ + 1).toNat 0
          values_current_mini_block_ := d.values_per_mini_block_ } := by
  conv_lhs => unfold generalRound
  conv_rhs => unfold generalRound
  rw [if_pos h0, if_pos hidx]
  simp only
  rw [if_neg hv]

theorem generalRun_congr (T : IntType) (n : Nat) (d d' : DeltaBitPackDecoder)
    (h : generalRound d = generalRound d') :
    generalRun T (n + 1) d = generalRun T (n + 1) d' := by
  simp only [generalRun, h]

/-- The sum the decoder holds after the stored deltas `ds`, before wrapping. -/
theorem runningSums_length (md s : Int) (ds : List Nat) :
    (runningSums md s ds).length = ds.length := by
  induction ds generalizing s with
  | nil => rfl
  | cons x xs ih => simp [runningSums, ih]

theorem runningSums_append (md s : Int) (a b : List Nat) :
    runningSums md s (a ++ b) = runningSums md s a ++ runningSums md (lastSum md s a) b := by
  induction a generalizing s with
  | nil => rfl
  | cons x xs ih => simp [runningSums, lastSum, ih]

theorem lastSum_append (md s : Int) (a b : List Nat) :
    lastSum md s (a ++ b) = lastSum md (lastSum md s a) b := by
  induction a generalizing s with
  | nil => rfl
  | cons x xs ih => simp [lastSum, ih]

theorem readDelta_at (d : DeltaBitPackDecoder) (A B : List Bool) (x : Nat) (s : Int)
    (hbits : bitsOf d.decoder_.data = A ++ bitsLE d.delta_bit_width_ x ++ B)
    (hpos : d.decoder_.bitPos = A.length) (hx : x < 2 ^ d.delta_bit_width_)
    (hs : d.last_value_ = wrapInt64 s) :
    readDelta d =
      .ok { d with
            decoder_ := { d.decoder_ with bitPos := d.decoder_.bitPos + d.delta_bit_width_ }
            last_value_ := wrapInt64 (s + d.min_delta_ + x)
            values_current_mini_block_ := d.values_current_mini_block_ - 1 } := by
  unfold readDelta
  rw [GetValue_at d.decoder_ A B d.delta_bit_width_ x hbits hpos hx]
  simp only [wrapInt64_step, hs]
  congr 2
  unfold wrapInt64
  rw [add_assoc, wrapSigned_add_left, add_assoc]

/-- The rounds that consume the rest of the current mini-block. -/
theorem generalRun_miniBlock (T : IntType) (ds : List Nat) :
    ∀ (d : DeltaBitPackDecoder) (A B : List Bool) (s : Int),
      d.values_current_mini_block_ = (ds.length : Int) →
      bitsOf d.decoder_.data = A ++ miniBlockBits d.delta_bit_width_ ds ++ B →
      d.decoder_.bitPos = A.length →
      (∀ x ∈ ds, x < 2 ^ d.delta_bit_width_) →
      d.last_value_ = wrapInt64 s →
      generalRun T ds.length d =
        ((runningSums d.min_delta_ s ds).map (fun x => T.cast (wrapInt64 x)),
          .ok { d with
                decoder_ := { d.decoder_ with
                  bitPos := d.decoder_.bitPos + (miniBlockBits d.delta_bit_width_ ds).length }
                last_value_ := wrapInt64 (lastSum d.min_delta_ s ds)
                values_current_mini_block_ := 0 }) := by
  induction ds with
  | nil =>
    intro d A B s hc hbits hpos hfit hs
    simp only [List.length_nil, generalRun, runningSums, List.map_nil, miniBlockBits, lastSum,
      Nat.add_zero, ← hs]
    simp only [List.length_nil, Nat.cast_zero] at hc
    rw [← hc]
  | cons x xs ih =>
    intro d A B s hc hbits hpos hfit hs
    simp only [List.length_cons, Nat.cast_add, Nat.cast_one] at hc
    have hne : d.values_current_mini_block_ ≠ 0 := by omega
    have hbits' : bitsOf d.decoder_.data =
        A ++ bitsLE d.delta_bit_width_ x ++ (miniBlockBits d.delta_bit_width_ xs ++ B) := by
      rw [hbits]
      simp only [miniBlockBits, List.append_assoc]
    obtain ⟨d1, hd1⟩ : ∃ d1 : DeltaBitPackDecoder, d1 =
        { d with
          decoder_ := { d.decoder_ with bitPos := d.decoder_.bitPos + d.delta_bit_width_ }
          last_value_ := wrapInt64 (s + d.min_delta_ + x)
          values_current_mini_block_ := d.values_current_mini_block_ - 1 } := ⟨_, rfl⟩
    have hround : generalRound d = .ok d1 := by
      unfold generalRound
      rw [if_neg hne, hd1]
      exact readDelta_at d A _ x s hbits' hpos (hfit x (by simp)) hs
    simp only [List.length_cons, generalRun, hround]
    rw [ih d1 (A ++ bitsLE d.delta_bit_width_ x) B (s + d.min_delta_ + x)
      (by rw [hd1]; simp only; omega)
      (by rw [hd1]; simp only; rw [hbits']; simp only [List.append_assoc])
      (by rw [hd1]; simp only [List.length_append, bitsLE_length]; omega)
      (by rw [hd1]; exact fun y hy => hfit y (List.mem_cons_of_mem _ hy))
      (by rw [hd1])]
    rw [hd1]
    simp only [runningSums, List.map_cons, lastSum, miniBlockBits, List.length_append,
      bitsLE_length, Nat.add_assoc]

theorem miniBlockBits_length (w : Nat) (ds : List Nat) :
    (miniBlockBits w ds).length = w * ds.length := by
  induction ds with
  | nil => rfl
  | cons x xs ih =>
    simp only [miniBlockBits, List.length_append, bitsLE_length, ih, List.length_cons]
    ring

/-- The rounds that consume the rest of the current mini-block and the
mini-blocks `mbs` that follow it in the block. -/
theorem generalRun_miniBlocks (T : IntType) (v : Nat) (mbs : List MiniBlock) :
    ∀ (cur : List Nat) (j : Nat) (d : DeltaBitPackDecoder) (A B : List Bool) (s : Int),
      d.values_current_mini_block_ = (cur.length : Int) →
      d.values_per_mini_block_ = (v : Int) →
      (mbs ≠ [] → 0 < v) →
      d.mini_block_idx_ = (j : Int) →
      d.delta_bit_widths_.drop (j + 1) = mbs.map (fun mb => mb.bit_width) →
      (∀ mb ∈ mbs, mb.deltas.length = v ∧ ∀ x ∈ mb.deltas, x < 2 ^ mb.bit_width) →
      (∀ x ∈ cur, x < 2 ^ d.delta_bit_width_) →
      bitsOf d.decoder_.data = A ++ (miniBlockBits d.delta_bit_width_ cur ++ deltaBits mbs) ++ B →
      d.decoder_.bitPos = A.length →
      d.last_value_ = wrapInt64 s →
      ∃ d1, generalRun T (cur.length + mbs.length * v) d =
          ((runningSums d.min_delta_ s (cur ++ allDeltas mbs)).map
            (fun x => T.cast (wrapInt64 x)), .ok d1) ∧
        d1.values_current_mini_block_ = 0 ∧
        (d1.delta_bit_widths_.length : Int) ≤ d1.mini_block_idx_ + 1 ∧
        d1.decoder_.data = d.decoder_.data ∧
        d1.decoder_.bitPos =
          A.length + (miniBlockBits d.delta_bit_width_ cur ++ deltaBits mbs).length := by
  induction mbs with
  | nil =>
    intro cur j d A B s hc hv _ hj hdrop _ hfit hbits hpos hs
    simp only [deltaBits, List.append_nil, List.length_nil, Nat.zero_mul, Nat.add_zero,
      allDeltas] at hbits ⊢
    refine ⟨_, generalRun_miniBlock T cur d A B s hc hbits hpos hfit hs, rfl, ?_, rfl, ?_⟩
    · simp only [hj]
      have := List.drop_eq_nil_iff.mp hdrop
      omega
    · simp only [hpos]
  | cons mb rest ih =>
    intro cur j d A B s hc hv hvpos hj hdrop hmbs hfit hbits hpos hs
    have hv0 : 0 < v := hvpos (by simp)
    have hbits1 : bitsOf d.decoder_.data =
        A ++ miniBlockBits d.delta_bit_width_ cur ++ (deltaBits (mb :: rest) ++ B) := by
      rw [hbits]; simp only [List.append_assoc]
    have h1 := generalRun_miniBlock T cur d A _ s hc hbits1 hpos hfit hs
    have hjlt : j + 1 < d.delta_bit_widths_.length := by
      by_contra hcon
      rw [List.drop_eq_nil_iff.mpr (by omega)] at hdrop
      simp at hdrop
    have hget : d.delta_bit_widths_.getD (j + 1) 0 = mb.bit_width := by
      have := congrArg (fun l => l.getD 0 0) hdrop
      simpa [List.getD_eq_getElem?_getD, List.getElem?_drop] using this
    have hdrop2 : d.delta_bit_widths_.drop (j + 1 + 1) = rest.map (fun mb => mb.bit_width) := by
      have := congrArg List.tail hdrop
      simpa [List.tail_drop, Nat.add_comm] using this
    obtain ⟨d1, hd1⟩ : ∃ d1 : DeltaBitPackDecoder, d1 =
        { d with
          decoder_ := { d.decoder_ with
            bitPos := d.decoder_.bitPos + (miniBlockBits d.delta_bit_width_ cur).length }
          last_value_ := wrapInt64 (lastSum d.min_delta_ s cur)
          values_current_mini_block_ := 0 } := ⟨_, rfl⟩
    rw [← hd1] at h1
    obtain ⟨d2, hd2⟩ : ∃ d2 : DeltaBitPackDecoder, d2 =
        { d1 with
          mini_block_idx_ := d1.mini_block_idx_ + 1
          delta_bit_width_ := d1.delta_bit_widths_.getD (d1.mini_block_idx_ + 1).toNat 0
          values_current_mini_block_ := d1.values_per_mini_block_ } := ⟨_, rfl⟩
    have hswitch : generalRound d1 = generalRound d2 := by
      rw [hd2]
      apply generalRound_switch
      · rw [hd1]
      · rw [hd1]; simp only [hj]; constructor <;> omega
      · rw [hd1]; simp only [hv]; omega
    have hidx2 : (d1.mini_block_idx_ + 1).toNat = j + 1 := by
      rw [hd1]; simp only [hj]; omega
    have hw2 : d2.delta_bit_width_ = mb.bit_width := by
      rw [hd2]; simp only [hidx2]; rw [hd1]; exact hget
    obtain ⟨d3, hrun, h0, hidx, hdata, hpos3⟩ := ih mb.deltas (j + 1) d2
      (A ++ miniBlockBits d.delta_bit_width_ cur) B (lastSum d.min_delta_ s cur)
      (by rw [hd2, hd1]; simp only [hv, (hmbs mb (by simp)).1])
      (by rw [hd2, hd1]; exact hv)
      (fun _ => hv0)
      (by rw [hd2, hd1]; simp only [hj]; push_cast; ring)
      (by rw [hd2, hd1]; exact hdrop2)
      (fun m hm => hmbs m (List.mem_cons_of_mem _ hm))
      (by rw [hw2]; exact (hmbs mb (by simp)).2)
      (by rw [hw2]; rw [hd2, hd1]; simp only; rw [hbits]
          simp only [deltaBits, List.append_assoc])
      (by rw [hd2, hd1]; simp only [List.length_append]; omega)
      (by rw [hd2, hd1])
    have hrounds : cur.length + (mb :: rest).length * v =
        cur.length + ((mb.deltas.length + rest.length * v - 1) + 1) := by
      simp only [List.length_cons, (hmbs mb (by simp)).1]
      have : (rest.length + 1) * v = v + rest.length * v := by ring
      omega
    have hrounds2 : (mb.deltas.length + rest.length * v - 1) + 1 =
        mb.deltas.length + rest.length * v := by
      have := (hmbs mb (by simp)).1
      omega
    refine ⟨d3, ?_, h0, hidx, ?_, ?_⟩
    · rw [hrounds, generalRun_add, h1]
      simp only
      rw [generalRun_congr T _ d1 d2 hswitch, hrounds2, hrun]
      have hmd : d2.min_delta_ = d.min_delta_ := by rw [hd2, hd1]
      simp only [allDeltas, runningSums_append, List.map_append, hmd]
    · rw [hdata, hd2, hd1]
    · rw [hpos3, hw2]
      simp only [deltaBits, List.length_append]
      omega

theorem wrapInt32_of_lt (v : Nat) (h : v < 2 ^ 31) : wrapInt32 (v : Int) = v := by
  apply wrapSigned_of_fits 32 (by decide)
  constructor
  · have : (0 : Int) ≤ v := Int.ofNat_nonneg v
    norm_num
    omega
  · norm_num
    omega

/-- The rounds that decode one laid-out block, from its header on. -/
theorem generalRun_block (T : IntType) (b : Block) (d : DeltaBitPackDecoder)
    (pre post : List Nat) (hwf : b.wellFormed)
    (hvpm : 0 < b.values_per_mini_block ∨ b.mini_blocks.length = 1)
    (hv31 : b.values_per_mini_block < 2 ^ 31) (hvec : b.mini_blocks.length < 2 ^ 63)
    (h0 : d.values_current_mini_block_ = 0)
    (hnext : ¬ (0 ≤ d.mini_block_idx_ + 1 ∧
      d.mini_block_idx_ + 1 < (d.delta_bit_widths_.length : Int)))
    (hdata : d.decoder_.data = pre ++ encodeBlock b ++ post)
    (hpos : (d.decoder_.bitPos + 7) / 8 = pre.length) :
    ∃ d1, generalRun T b.count d =
        (b.values.map (fun x => T.cast (wrapInt64 x)), .ok d1) ∧
      d1.values_current_mini_block_ = 0 ∧
      (d1.delta_bit_widths_.length : Int) ≤ d1.mini_block_idx_ + 1 ∧
      d1.decoder_.data = d.decoder_.data ∧
      (d1.decoder_.bitPos + 7) / 8 = pre.length + (encodeBlock b).length := by
  have hwf' := hwf
  obtain ⟨hne, hfirst, hmin, hcount, hn, hsize, hmb⟩ := hwf'
  obtain ⟨mb, mbs, hcons⟩ : ∃ mb mbs, b.mini_blocks = mb :: mbs := by
    cases hb : b.mini_blocks with
    | nil => exact absurd hb hne
    | cons mb mbs => exact ⟨mb, mbs, rfl⟩
  have hnpos : 0 < b.mini_blocks.length := by rw [hcons]; simp
  have hhead := readBlockHeader_at d.decoder_ pre (packBytes (deltaBits b.mini_blocks) ++ post) b
    hwf hvec (by rw [hdata, encodeBlock]; simp only [List.append_assoc]) hpos
  obtain ⟨dh, hdh⟩ : ∃ dh : DeltaBitPackDecoder, dh =
      { d with
        decoder_ := { d.decoder_ with bitPos := 8 * (pre.length + (encodeHeader b).length) }
        num_mini_blocks_ := b.mini_blocks.length
        values_current_block_ := b.value_count
        last_value_ := b.first_value
        delta_bit_widths_ := b.mini_blocks.map (fun mb => mb.bit_width)
        min_delta_ := b.min_delta
        values_per_mini_block_ := (b.values_per_mini_block : Int)
        mini_block_idx_ := 0
        delta_bit_width_ := mb.bit_width
        values_current_mini_block_ := (b.values_per_mini_block : Int) } := ⟨_, rfl⟩
  have hround : generalRound d = .ok dh := by
    unfold generalRound
    rw [if_pos h0, if_neg hnext]
    unfold InitBlock
    simp only
    rw [hhead]
    simp only
    rw [if_neg (by omega), Nat.mul_div_cancel _ hnpos, wrapInt32_of_lt _ hv31, hdh]
    congr 2
    rw [hcons]
    rfl
  have hbits : bitsOf dh.decoder_.data =
      bitsOf (pre ++ encodeHeader b) ++
        (miniBlockBits dh.delta_bit_width_ mb.deltas ++ deltaBits mbs) ++
        (List.replicate (8 * (((deltaBits b.mini_blocks).length + 7) / 8) -
          (deltaBits b.mini_blocks).length) false ++ bitsOf post) := by
    rw [hdh]
    simp only
    rw [hdata, encodeBlock]
    simp only [bitsOf_append, bitsOf_packBytes, hcons, deltaBits, List.append_assoc]
  obtain ⟨d1, hrun, h1, h2, h3, h4⟩ := generalRun_miniBlocks T b.values_per_mini_block mbs
    mb.deltas 0 dh (bitsOf (pre ++ encodeHeader b)) _ b.first_value
    (by rw [hdh]; simp only; rw [(hmb mb (by rw [hcons]; simp)).2.1])
    (by rw [hdh])
    (by
      intro hmbs
      rcases hvpm with h | h
      · exact h
      · rw [hcons] at h
        simp only [List.length_cons, Nat.add_eq_right, List.length_eq_zero] at h
        exact absurd h hmbs)
    (by rw [hdh]; rfl)
    (by rw [hdh]; simp only [hcons, List.map_cons, Nat.zero_add, List.drop_succ_cons,
          List.drop_zero])
    (fun m hm => (hmb m (by rw [hcons]; exact List.mem_cons_of_mem _ hm)).2)
    (by rw [hdh]; exact (hmb mb (by rw [hcons]; simp)).2.2)
    hbits
    (by rw [hdh]; simp only [bitsOf_length, List.length_append])
    (by rw [hdh]; exact (wrapInt64_of_fits _ hfirst).symm)
  refine ⟨d1, ?_, h1, h2, ?_, ?_⟩
  · have hc : b.count = (mb.deltas.length + mbs.length * b.values_per_mini_block) + 1 := by
      unfold Block.count
      rw [hcons, (hmb mb (by rw [hcons]; simp)).2.1]
      simp only [List.length_cons]
      ring
    rw [hc]
    simp only [generalRun, hround]
    rw [hrun]
    have hmd : dh.min_delta_ = b.min_delta := by rw [hdh]
    have hlv : dh.last_value_ = b.first_value := by rw [hdh]
    simp only [Block.values, hcons, allDeltas, List.map_cons, hmd, hlv,
      wrapInt64_of_fits _ hfirst]
  · rw [h3, hdh]
  · rw [h4]
    have hw : dh.delta_bit_width_ = mb.bit_width := by rw [hdh]
    have hL : (miniBlockBits dh.delta_bit_width_ mb.deltas ++ deltaBits mbs).length =
        (deltaBits b.mini_blocks).length := by
      rw [hcons, hw]; rfl
    rw [hL, bitsOf_length, encodeBlock]
    simp only [List.length_append, packBytes_length]
    omega

/-- The rounds that decode a laid-out stream of blocks. -/
theorem generalRun_stream (T : IntType) (blocks : List Block) :
    ∀ (d : DeltaBitPackDecoder) (pre post : List Nat),
      (∀ b ∈ blocks, b.wellFormed ∧
        (0 < b.values_per_mini_block ∨ b.mini_blocks.length = 1) ∧
        b.values_per_mini_block < 2 ^ 31 ∧ b.mini_blocks.length < 2 ^ 63) →
      d.values_current_mini_block_ = 0 →
      ¬ (0 ≤ d.mini_block_idx_ + 1 ∧
        d.mini_block_idx_ + 1 < (d.delta_bit_widths_.length : Int)) →
      d.decoder_.data = pre ++ encodeStream blocks ++ post →
      (d.decoder_.bitPos + 7) / 8 = pre.length →
      ∃ d1, generalRun T (streamCount blocks) d =
        ((streamValues blocks).map (fun x => T.cast (wrapInt64 x)), .ok d1) := by
  induction blocks with
  | nil =>
    intro d pre post _ _ _ _ _
    exact ⟨d, rfl⟩
  | cons b rest ih =>
    intro d pre post hall h0 hnext hdata hpos
    obtain ⟨hwf, hvpm, hv31, hvec⟩ := hall b (by simp)
    obtain ⟨d1, hrun, h1, h2, h3, h4⟩ := generalRun_block T b d pre (encodeStream rest ++ post)
      hwf hvpm hv31 hvec h0 hnext (by rw [hdata, encodeStream]; simp only [List.append_assoc]) hpos
    obtain ⟨d2, hrun2⟩ := ih d1 (pre ++ encodeBlock b) post
      (fun b' hb' => hall b' (List.mem_cons_of_mem _ hb')) h1 (by omega)
      (by rw [h3, hdata, encodeStream]; simp only [List.append_assoc])
      (by rw [h4, List.length_append])
    refine ⟨d2, ?_⟩
    simp only [streamCount, streamValues, generalRun_add, hrun, hrun2, List.map_append]

theorem allDeltas_length (v : Nat) (mbs : List MiniBlock)
    (h : ∀ mb ∈ mbs, mb.deltas.length = v) : (allDeltas mbs).length = mbs.length * v := by
  induction mbs with
  | nil => simp [allDeltas]
  | cons mb rest ih =>
    simp only [allDeltas, List.length_append, List.length_cons, h mb (by simp),
      ih (fun m hm => h m (List.mem_cons_of_mem _ hm))]
    ring

theorem streamValues_length (blocks : List Block) (h : ∀ b ∈ blocks, b.wellFormed) :
    (streamValues blocks).length = streamCount blocks := by
  induction blocks with
  | nil => rfl
  | cons b rest ih =>
    simp only [streamValues, streamCount, List.length_append,
      ih (fun b' hb' => h b' (List.mem_cons_of_mem _ hb'))]
    congr 1
    obtain ⟨_, _, _, _, _, _, hmb⟩ := h b (by simp)
    simp only [Block.values, Block.count, List.length_cons, runningSums_length,
      allDeltas_length b.values_per_mini_block b.mini_blocks (fun mb hm => (hmb mb hm).2.1)]
    omega

theorem count_le_streamCount (blocks : List Block) (b : Block) (hb : b ∈ blocks) :
    b.count ≤ streamCount blocks := by
  induction blocks with
  | nil => simp at hb
  | cons b' rest ih =>
    simp only [streamCount]
    rcases List.mem_cons.mp hb with h | h
    · subst h; omega
    · have := ih h; omega

theorem slotValue_zip_range' (vals : List Int) :
    ∀ (i j : Nat), slotValue ((List.range' i vals.length).zip vals) j =
      if i ≤ j then vals[j - i]? else none := by
  induction vals with
  | nil => intro i j; simp [slotValue]
  | cons v vs ih =>
    intro i j
    rw [List.length_cons, List.range'_succ]
    show slotValue ((i, v) :: (List.range' (i + 1) vs.length).zip vs) j = _
    rw [slotValue, ih (i + 1) j]
    by_cases h1 : i + 1 ≤ j
    · have h2 : i ≤ j := by omega
      have h3 : ¬ i = j := by omega
      rw [if_pos h1, if_pos h2]
      obtain ⟨k, rfl⟩ : ∃ k, j = i + 1 + k := ⟨j - (i + 1), by omega⟩
      have e1 : i + 1 + k - (i + 1) = k := by omega
      have e2 : i + 1 + k - i = k + 1 := by omega
      rw [e1, e2, List.getElem?_cons_succ]
      cases hk : vs[k]? with
      | none => simp only [if_neg h3]
      | some w => rfl
    · rw [if_neg h1]
      simp only
      by_cases h2 : i = j
      · subst h2; simp
      · have h3 : ¬ i ≤ j := by omega
        rw [if_neg h2, if_neg h3]

theorem outBuffer_zip_range (vals : List Int) :
    outBuffer ((List.range vals.length).zip vals) vals.length = vals.map some := by
  unfold outBuffer
  rw [List.range_eq_range']
  apply List.ext_getElem?
  intro k
  simp only [List.getElem?_map, slotValue_zip_range', Nat.zero_le, if_true, Nat.sub_zero]
  by_cases hk : k < vals.length
  · rw [List.getElem?_range' _ _ hk]
    simp [slotValue_zip_range', List.getElem?_eq_getElem hk]
  · rw [List.getElem?_eq_none (by simp; omega), List.getElem?_eq_none (by omega)]
    rfl

theorem cast_int64_wrapInt64 (x : Int) : IntType.cast IntType.int64 (wrapInt64 x) = wrapInt64 x :=
  wrapSigned_of_fits 64 (by decide) _ (wrapSigned_fits 64 (by decide) x)

/-- Counterexample to C1: a well-formed stream of one block that encodes 32
values (base value 10 and 31 stored deltas of one bit).  `GetInt64` over the
whole stream stores the base value and raises `NYI`: the chunk size is 32 and
the bit width is neither 14 nor 15. -/
theorem round_trip_fails_for_32_values :
    (∀ b ∈ streamOf32, b.wellFormed) ∧ streamCount streamOf32 = 32 ∧
      (streamValues streamOf32).length = 32 ∧
      GetInt64 ((freshDecoder zeroDecoder).SetData 32 (encodeStream streamOf32)) 32 =
        { writes := [(0, 10)], outcome := .error ParquetError.NYI } ∧
      outBuffer (GetInt64 ((freshDecoder zeroDecoder).SetData 32
        (encodeStream streamOf32)) 32).writes 32 ≠ (streamValues streamOf32).map some := by
  decide

/-- Why C1 asks for a value per mini-block: on a well-formed stream whose
first block declares two mini-blocks of no value, the decoder enters the
second mini-block and reads a delta that is not there; it returns `[10, 10]`
for the encoded `[10, 11]`. -/
theorem round_trip_needs_values_per_mini_block :
    (∀ b ∈ emptyMiniBlocksStream, b.wellFormed) ∧
      streamValues emptyMiniBlocksStream = [10, 11] ∧
      outBuffer (GetInt64 ((freshDecoder zeroDecoder).SetData 2
        (encodeStream emptyMiniBlocksStream)) 2).writes 2 = [some 10, some 10] := by
  decide

/-- C1 as the code has it: for every list of well-formed blocks in which a
block with several mini-blocks has at least one value per mini-block, whose
total number of values `n` is an `int` other than 32, `SetData(n, stream)`
followed by `GetInt64(buffer, n)`, on a decoder with no mini-block left in its
block (a fresh decoder has none), returns `n`, leaves no value remaining and
fills the buffer with the sequence the blocks encode, computed in 64-bit two's
complement: per block the base value, then the running sums
`base + sum of (minDelta + storedDelta)`; when these sums are representable
the buffer holds them exactly. -/
theorem round_trip_unless_32_values (blocks : List Block) (d0 : DeltaBitPackDecoder)
    (hlast : ¬ (0 ≤ d0.mini_block_idx_ + 1 ∧
      d0.mini_block_idx_ + 1 < (d0.delta_bit_widths_.length : Int)))
    (hwf : ∀ b ∈ blocks, b.wellFormed)
    (hvpm : ∀ b ∈ blocks, 0 < b.values_per_mini_block ∨ b.mini_blocks.length = 1)
    (hint : streamCount blocks < 2 ^ 31) (h32 : streamCount blocks ≠ 32) :
    (∃ d1, (GetInt64 (d0.SetData (streamCount blocks) (encodeStream blocks))
        (streamCount blocks)).outcome = .ok ((streamCount blocks : Int), d1) ∧
      d1.num_values_ = 0) ∧
    outBuffer (GetInt64 (d0.SetData (streamCount blocks)
        (encodeStream blocks)) (streamCount blocks)).writes (streamCount blocks) =
      (streamValues blocks).map (fun x => some (wrapInt64 x)) ∧
    ((∀ x ∈ streamValues blocks, fitsSigned 64 x) →
      outBuffer (GetInt64 (d0.SetData (streamCount blocks)
          (encodeStream blocks)) (streamCount blocks)).writes (streamCount blocks) =
        (streamValues blocks).map some) := by
  have hall : ∀ b ∈ blocks, b.wellFormed ∧
      (0 < b.values_per_mini_block ∨ b.mini_blocks.length = 1) ∧
      b.values_per_mini_block < 2 ^ 31 ∧ b.mini_blocks.length < 2 ^ 63 := by
    intro b hb
    have hc := count_le_streamCount blocks b hb
    obtain ⟨hne, _⟩ := hwf b hb
    have hpos : 0 < b.mini_blocks.length := List.length_pos.mpr hne
    have : b.values_per_mini_block ≤ b.mini_blocks.length * b.values_per_mini_block :=
      Nat.le_mul_of_pos_left _ hpos
    unfold Block.count at hc
    refine ⟨hwf b hb, hvpm b hb, by omega, ?_⟩
    rcases hvpm b hb with hv | hv
    · have : b.mini_blocks.length ≤ b.mini_blocks.length * b.values_per_mini_block :=
        Nat.le_mul_of_pos_right _ hv
      omega
    · omega
  obtain ⟨d1, hrun⟩ := generalRun_stream IntType.int64 blocks
    (d0.SetData (streamCount blocks) (encodeStream blocks)) [] [] hall rfl
    (by simpa [SetData] using hlast) (by simp [SetData]) (by simp [SetData])
  have hnum := generalRun_num_values _ _ _ _ (congrArg Prod.snd hrun)
  have hres : GetInt64 (d0.SetData (streamCount blocks) (encodeStream blocks))
      (streamCount blocks) =
      { writes := (List.range ((streamValues blocks).map wrapInt64).length).zip
          ((streamValues blocks).map wrapInt64)
        outcome := .ok ((streamCount blocks : Int), { d1 with num_values_ := 0 }) } := by
    unfold GetInt64 GetInternal
    have hmin : min (streamCount blocks : Int)
        (d0.SetData (streamCount blocks) (encodeStream blocks)).num_values_ =
        (streamCount blocks : Int) := by simp [SetData]
    simp only [hmin, Int.toNat_ofNat]
    rw [GetInternalLoop_general IntType.int64 _ (by exact_mod_cast h32), hrun]
    simp only [List.nil_append, cast_int64_wrapInt64, ← List.range_eq_range']
    congr 3
    rw [hnum]
    simp [SetData]
  have hlen : ((streamValues blocks).map wrapInt64).length = streamCount blocks := by
    rw [List.length_map, streamValues_length blocks hwf]
  have hout : outBuffer (GetInt64 (d0.SetData (streamCount blocks)
        (encodeStream blocks)) (streamCount blocks)).writes (streamCount blocks) =
      (streamValues blocks).map (fun x => some (wrapInt64 x)) := by
    rw [hres]
    simp only
    rw [← hlen, outBuffer_zip_range, List.map_map]
    rfl
  refine ⟨⟨_, by rw [hres], rfl⟩, hout, ?_⟩
  intro hfit
  rw [hout]
  apply List.map_congr_left
  intro x hx
  rw [wrapInt64_of_fits x (hfit x hx)]

/-- Witness of C1: the stream of two blocks with mini-blocks of bit widths 3,
4 and 2 decodes to its nine values. -/
theorem round_trip_unless_32_values_witness :
    ((∀ b ∈ exampleStream, b.wellFormed) ∧
      (∀ b ∈ exampleStream, 0 < b.values_per_mini_block ∨ b.mini_blocks.length = 1) ∧
      streamCount exampleStream = 9 ∧
      streamValues exampleStream = [10, 10, 11, 10, 24, -7, -2, 0, 3]) ∧
    outBuffer (GetInt64 ((freshDecoder zeroDecoder).SetData (streamCount exampleStream)
        (encodeStream exampleStream)) (streamCount exampleStream)).writes
        (streamCount exampleStream) =
      (streamValues exampleStream).map some :=
  ⟨by decide,
   (round_trip_unless_32_values exampleStream (freshDecoder zeroDecoder) (by decide) (by decide)
     (by decide) (by decide) (by decide)).2.2 (by decide)⟩

/-! ## The bulk path inside a mini-block -/

theorem ofBits_append (a b : List Bool) :
    ofBits (a ++ b) = ofBits a + 2 ^ a.length * ofBits b := by
  induction a with
  | nil => simp [ofBits]
  | cons x a ih =>
    rw [List.cons_append, ofBits, ofBits, ih, List.length_cons, pow_succ]
    ring

theorem ofBits_take (n : Nat) (l : List Bool) : ofBits (l.take n) = ofBits l % 2 ^ n := by
  by_cases h : n ≤ l.length
  · have hl : (l.take n).length = n := by simp [h]
    have := ofBits_append (l.take n) (l.drop n)
    rw [List.take_append_drop, hl] at this
    have hlt := ofBits_lt (l.take n)
    rw [hl] at hlt
    rw [this, Nat.add_mul_mod_self_left, Nat.mod_eq_of_lt hlt]
  · have hle : l.length ≤ n := by omega
    rw [List.take_of_length_le hle]
    have hlt := ofBits_lt l
    have : 2 ^ l.length ≤ 2 ^ n := Nat.pow_le_pow_right (by decide) hle
    rw [Nat.mod_eq_of_lt (by omega)]

theorem ofBits_drop (n : Nat) (l : List Bool) : ofBits (l.drop n) = ofBits l / 2 ^ n := by
  by_cases h : n ≤ l.length
  · have hl : (l.take n).length = n := by simp [h]
    have := ofBits_append (l.take n) (l.drop n)
    rw [List.take_append_drop, hl] at this
    have hlt := ofBits_lt (l.take n)
    rw [hl] at hlt
    rw [this, Nat.add_mul_div_left _ _ (by positivity), Nat.div_eq_of_lt hlt, Nat.zero_add]
  · have hle : l.length ≤ n := by omega
    rw [List.drop_of_length_le hle]
    have hlt := ofBits_lt l
    have : 2 ^ l.length ≤ 2 ^ n := Nat.pow_le_pow_right (by decide) hle
    rw [Nat.div_eq_of_lt (by omega)]
    rfl

theorem leNat_eq_ofBits (bytes : List Nat) : leNat bytes = ofBits (bitsOf bytes) := by
  induction bytes with
  | nil => rfl
  | cons b rest ih =>
    simp only [leNat, bitsOf, ofBits_append, ofBits_bitsLE, bitsLE_length, ih]
    norm_num

theorem bitsOf_drop (k : Nat) (data : List Nat) :
    bitsOf (data.drop k) = (bitsOf data).drop (8 * k) := by
  induction k generalizing data with
  | zero => simp
  | succ k ih =>
    cases data with
    | nil => simp [bitsOf]
    | cons b rest =>
      simp only [List.drop_succ_cons, bitsOf, ih]
      have : 8 * (k + 1) = (bitsLE 8 b).length + 8 * k := by rw [bitsLE_length]; ring
      rw [this, List.drop_append]

theorem bitsOf_take (k : Nat) (data : List Nat) :
    bitsOf (data.take k) = (bitsOf data).take (8 * k) := by
  induction k generalizing data with
  | zero => simp [bitsOf]
  | succ k ih =>
    cases data with
    | nil => simp [bitsOf]
    | cons b rest =>
      simp only [List.take_succ_cons, bitsOf, ih]
      have : 8 * (k + 1) = (bitsLE 8 b).length + 8 * k := by rw [bitsLE_length]; ring
      rw [this, List.take_append]

/-- A word load is the bit field of the same position and width. -/
theorem loadWord_eq_fieldAt (data : List Nat) (off nbytes : Nat)
    (h : off + nbytes ≤ data.length) :
    loadWord data off nbytes = some (fieldAt data (8 * off) (8 * nbytes)) := by
  unfold loadWord fieldAt
  rw [if_pos h, leNat_eq_ofBits, bitsOf_take, bitsOf_drop]

theorem unpack_arith (T : IntType) (w : Nat) (hw : w = 14 ∨ w = 15) (s : Nat) (hs : s < 8)
    (W : Nat) (hW : W < 2 ^ T.bits) :
    T.cast ((((wrapSigned T.bits (W : Int)) >>> s % 2 ^ 64).toNat &&&
      ((2 ^ 64 - 1) >>> (64 - w)) : Nat) : Int) = ((W / 2 ^ s % 2 ^ w : Nat) : Int) := by
  have hmask : (2 ^ 64 - 1) >>> (64 - w) = 2 ^ w - 1 := by
    rcases hw with rfl | rfl <;> decide
  rw [hmask, Nat.and_pow_two_sub_one_eq_mod, Int.shiftRight_eq_div_pow]
  unfold IntType.cast wrapSigned
  rcases hw with rfl | rfl <;> cases T <;> simp only [IntType.bits] at hW ⊢ <;>
    interval_cases s <;> norm_num at hW ⊢ <;> omega

theorem fieldAt_lt (data : List Nat) (pos w : Nat) : fieldAt data pos w < 2 ^ w := by
  unfold fieldAt
  rw [ofBits_take]
  exact Nat.mod_lt _ (by positivity)

theorem fieldAt_shift (data : List Nat) (pos n s w : Nat) (h : s + w ≤ n) :
    fieldAt data pos n / 2 ^ s % 2 ^ w = fieldAt data (pos + s) w := by
  unfold fieldAt
  rw [← ofBits_drop, ← ofBits_take, List.drop_take, List.take_take, List.drop_drop]
  rw [Nat.min_eq_left (by omega)]

/-- One slot of `DecodeBlock`: the word at `base + byte_offset`, shifted right
by `shift` and masked to the bit width, is the bit field that starts `shift`
bits into that byte. -/
theorem DecodeBlockSlot_eq_fieldAt (T : IntType) (w : Nat) (hw : w = 14 ∨ w = 15)
    (entry : DecodeData) (hs : entry.shift < 8) (data : List Nat) (base : Nat)
    (hin : base + entry.byte_offset + T.bytes ≤ data.length) :
    DecodeBlockSlot T w entry data base =
      some ((fieldAt data (8 * (base + entry.byte_offset) + entry.shift) w : Nat) : Int) := by
  unfold DecodeBlockSlot
  rw [loadWord_eq_fieldAt data _ _ hin]
  simp only
  have hbits : 8 * T.bytes = T.bits := by cases T <;> rfl
  rw [unpack_arith T w hw entry.shift hs _ (by rw [← hbits]; exact fieldAt_lt _ _ _),
    fieldAt_shift _ _ _ _ _ (by rcases hw with rfl | rfl <;> cases T <;>
      simp only [IntType.bytes] <;> omega)]

theorem DecodeBlock_InitLoop (T : IntType) (w : Nat) (hw : w = 14 ∨ w = 15) (data : List Nat)
    (base : Nat) (n : Nat) :
    ∀ (bit_offset : Nat),
      (0 < n → base + (bit_offset + (n - 1) * w) / 8 + T.bytes ≤ data.length) →
      DecodeBlock T w (InitLoop n bit_offset w) data base =
        some (List.map (fun x : Nat => (x : Int)) (fieldsAt data w n (8 * base + bit_offset))) := by
  induction n with
  | zero => intro _ _; rfl
  | succ n ih =>
    intro bit_offset hin
    have hin' := hin (by omega)
    simp only [Nat.add_sub_cancel] at hin'
    have hle : bit_offset / 8 ≤ (bit_offset + n * w) / 8 :=
      Nat.div_le_div_right (by omega)
    simp only [InitLoop, DecodeBlock, fieldsAt, List.map_cons]
    rw [DecodeBlockSlot_eq_fieldAt T w hw _ (Nat.mod_lt _ (by decide)) data base
      (by simp only; omega)]
    simp only
    rw [ih (bit_offset + w) (by
      intro hn
      have : bit_offset + w + (n - 1) * w = bit_offset + n * w := by
        obtain ⟨m, rfl⟩ : ∃ m, n = m + 1 := ⟨n - 1, by omega⟩
        simp only [Nat.add_sub_cancel]
        ring
      rw [this]
      exact hin')]
    have e1 : 8 * (base + bit_offset / 8) + bit_offset % 8 = 8 * base + bit_offset := by
      have := Nat.div_add_mod bit_offset 8
      omega
    have e2 : 8 * base + (bit_offset + w) = 8 * base + bit_offset + w := by omega
    simp only [e1, e2]

/-- The rounds of the general path that stay inside the current mini-block
read its successive bit fields. -/
theorem generalRun_fieldsAt (T : IntType) (n : Nat) :
    ∀ (d : DeltaBitPackDecoder) (s : Int),
      (n : Int) ≤ d.values_current_mini_block_ →
      d.decoder_.bitPos + n * d.delta_bit_width_ ≤ 8 * d.decoder_.data.length →
      d.last_value_ = wrapInt64 s →
      generalRun T n d =
        ((runningSums d.min_delta_ s
            (fieldsAt d.decoder_.data d.delta_bit_width_ n d.decoder_.bitPos)).map
            (fun x => T.cast (wrapInt64 x)),
          .ok { d with
                decoder_ := { d.decoder_ with
                  bitPos := d.decoder_.bitPos + n * d.delta_bit_width_ }
                last_value_ := wrapInt64 (lastSum d.min_delta_ s
                  (fieldsAt d.decoder_.data d.delta_bit_width_ n d.decoder_.bitPos))
                values_current_mini_block_ := d.values_current_mini_block_ - n }) := by
  induction n with
  | zero =>
    intro d s _ _ hs
    simp only [generalRun, fieldsAt, runningSums, List.map_nil, lastSum, Nat.zero_mul,
      Nat.add_zero, ← hs, Nat.cast_zero, sub_zero]
  | succ n ih =>
    intro d s hc hlen hs
    have hne : d.values_current_mini_block_ ≠ 0 := by push_cast at hc; omega
    have hlen1 : d.decoder_.bitPos + d.delta_bit_width_ ≤ 8 * d.decoder_.data.length := by
      have : (n + 1) * d.delta_bit_width_ = n * d.delta_bit_width_ + d.delta_bit_width_ := by
        ring
      omega
    obtain ⟨d1, hd1⟩ : ∃ d1 : DeltaBitPackDecoder, d1 =
        { d with
          decoder_ := { d.decoder_ with bitPos := d.decoder_.bitPos + d.delta_bit_width_ }
          last_value_ := wrapInt64 (s + d.min_delta_ +
            (fieldAt d.decoder_.data d.decoder_.bitPos d.delta_bit_width_ : Nat))
          values_current_mini_block_ := d.values_current_mini_block_ - 1 } := ⟨_, rfl⟩
    have hround : generalRound d = .ok d1 := by
      unfold generalRound
      rw [if_neg hne]
      unfold readDelta BitReader.GetValue
      rw [if_pos hlen1, hd1]
      simp only [wrapInt64_step, hs, fieldAt]
      congr 2
      unfold wrapInt64
      rw [add_assoc, wrapSigned_add_left, add_assoc]
    simp only [generalRun, hround]
    rw [ih d1 (s + d.min_delta_ +
        (fieldAt d.decoder_.data d.decoder_.bitPos d.delta_bit_width_ : Nat))
      (by rw [hd1]; simp only; push_cast at hc; omega)
      (by
        rw [hd1]
        simp only
        have : (n + 1) * d.delta_bit_width_ = n * d.delta_bit_width_ + d.delta_bit_width_ := by
          ring
        omega)
      (by rw [hd1])]
    rw [hd1]
    have e1 : d.decoder_.bitPos + d.delta_bit_width_ + n * d.delta_bit_width_ =
        d.decoder_.bitPos + (n + 1) * d.delta_bit_width_ := by ring
    have e2 : d.values_current_mini_block_ - 1 - (n : Int) =
        d.values_current_mini_block_ - ((n + 1 : Nat) : Int) := by push_cast; ring
    simp only [fieldsAt, runningSums, List.map_cons, lastSum, e1, e2]

theorem accumulate_int64 (min_delta : Int) (raws : List Nat) :
    ∀ (i : Nat) (last_value s : Int) (log : Writes), last_value = wrapInt64 s →
      accumulate IntType.int64 min_delta (List.map (fun x : Nat => (x : Int)) raws) i
          last_value log =
        (wrapInt64 (lastSum min_delta s raws),
          log ++ (List.range' i raws.length).zip
            ((runningSums min_delta s raws).map wrapInt64)) := by
  induction raws with
  | nil =>
    intro i last_value s log hs
    simp [accumulate, lastSum, runningSums, hs]
  | cons x xs ih =>
    intro i last_value s log hs
    have hv : IntType.cast IntType.int64 (wrapInt64 (wrapInt64 (last_value + min_delta) + x)) =
        wrapInt64 (s + min_delta + x) := by
      rw [cast_int64_wrapInt64, hs]
      unfold wrapInt64
      rw [wrapSigned_add_left, add_assoc, wrapSigned_add_left, add_assoc]
    simp only [List.map_cons, accumulate, hv]
    rw [ih (i + 1) _ (s + min_delta + x) _ rfl]
    simp [lastSum, runningSums, List.range'_succ]

theorem slotValue_append (l1 l2 : Writes) (j : Nat) :
    slotValue (l1 ++ l2) j =
      match slotValue l2 j with
      | some v => some v
      | none => slotValue l1 j := by
  induction l1 with
  | nil =>
    simp only [List.nil_append, slotValue]
    cases slotValue l2 j <;> rfl
  | cons p rest ih =>
    obtain ⟨i, v⟩ := p
    show slotValue ((i, v) :: (rest ++ l2)) j = _
    rw [slotValue, ih]
    cases slotValue l2 j with
    | some w => rfl
    | none => rfl

theorem outBuffer_append_zip_range (log : Writes) (vals : List Int) :
    outBuffer (log ++ (List.range' 0 vals.length).zip vals) vals.length = vals.map some := by
  have h := outBuffer_zip_range vals
  unfold outBuffer at h ⊢
  rw [List.range_eq_range'] at h ⊢
  rw [← h]
  apply List.map_congr_left
  intro j hj
  rw [slotValue_append]
  have hj' : j < vals.length := by simpa using hj
  rw [slotValue_zip_range', if_pos (Nat.zero_le _), Nat.sub_zero,
    List.getElem?_eq_getElem hj']

/-- With `max_values == 32`, a bit width of 14 or 15, a byte-aligned reader and
all loads inside the buffer, `DecodeBlock` leaves in `buffer[0..31]` the 32
bit fields that follow the reader position. -/
theorem decodeSlot_bulk (T : IntType) (i : Nat) (d : DeltaBitPackDecoder) (log : Writes)
    (hw : d.delta_bit_width_ = 14 ∨ d.delta_bit_width_ = 15)
    (hal : d.decoder_.bitPos % 8 = 0)
    (hin : d.decoder_.bitPos / 8 + 31 * d.delta_bit_width_ / 8 + T.bytes ≤
      d.decoder_.data.length) :
    decodeSlot T 32 i d log =
      finishBulk T d log
        (some (List.map (fun x : Nat => (x : Int))
          (fieldsAt d.decoder_.data d.delta_bit_width_ 32 d.decoder_.bitPos))) := by
  have hpos : 8 * d.decoder_.current_ptr + 0 = d.decoder_.bitPos := by
    unfold BitReader.current_ptr
    have := Nat.div_add_mod d.decoder_.bitPos 8
    omega
  have key : ∀ w, (w = 14 ∨ w = 15) → d.delta_bit_width_ = w →
      DecodeBlock T d.delta_bit_width_ (InitLoop 32 0 w) d.decoder_.data d.decoder_.current_ptr =
        some (List.map (fun x : Nat => (x : Int))
          (fieldsAt d.decoder_.data d.delta_bit_width_ 32 d.decoder_.bitPos)) := by
    intro w hw' hdw
    rw [hdw, DecodeBlock_InitLoop T w hw' d.decoder_.data d.decoder_.current_ptr 32 0
      (by
        intro _
        rw [← hdw]
        unfold BitReader.current_ptr
        simpa using hin), hpos]
  unfold decodeSlot
  rw [if_pos rfl]
  rcases hw with h | h
  · rw [if_pos h]
    exact congrArg _ (key 14 (Or.inl rfl) h)
  · rw [if_neg (by omega), if_pos h]
    exact congrArg _ (key 15 (Or.inr rfl) h)

/-- Where the bulk path agrees with the general path: in a state with at least
32 values left in a mini-block of bit width 14 or 15, the reader on a byte
boundary and the buffer long enough for the last 8-byte load, a call of
`GetInt64` with chunk size 32 stores the same 32 values as 32 calls for one
value each, and ends with the same `last_value_`, the same reader position and
the same `num_values_`; the bulk call marks the mini-block exhausted, the
single calls count 32 values off it. -/
theorem bulk_path_matches_general_inside_mini_block (d : DeltaBitPackDecoder)
    (max_values : Int) (hm : min max_values d.num_values_ = 32)
    (hw : d.delta_bit_width_ = 14 ∨ d.delta_bit_width_ = 15)
    (hc : 32 ≤ d.values_current_mini_block_) (hal : d.decoder_.bitPos % 8 = 0)
    (hin : d.decoder_.bitPos / 8 + 31 * d.delta_bit_width_ / 8 + 8 ≤ d.decoder_.data.length)
    (hfit : fitsSigned 64 d.last_value_) :
    outBuffer (GetInt64 d max_values).writes 32 =
        (decodeOneByOne IntType.int64 32 d).1.map some ∧
      ∃ d1 d2, (GetInt64 d max_values).outcome = .ok (32, d1) ∧
        (decodeOneByOne IntType.int64 32 d).2 = .ok d2 ∧
        d1.last_value_ = d2.last_value_ ∧ d1.decoder_ = d2.decoder_ ∧
        d1.num_values_ = d2.num_values_ ∧
        d1.values_current_mini_block_ = 0 ∧
        d2.values_current_mini_block_ = d.values_current_mini_block_ - 32 := by
  have hn : ((32 : Nat) : Int) ≤ d.num_values_ := by
    have := min_le_right max_values d.num_values_
    rw [hm] at this
    exact_mod_cast this
  have hbits : d.decoder_.bitPos + 32 * d.delta_bit_width_ ≤ 8 * d.decoder_.data.length := by
    have := Nat.div_add_mod d.decoder_.bitPos 8
    rcases hw with h | h <;> rw [h] at hin ⊢ <;> omega
  have hg := generalRun_fieldsAt IntType.int64 32 d d.last_value_ (by exact_mod_cast hc) hbits
    (wrapInt64_of_fits _ hfit).symm
  have hone := decodeOneByOne_eq_generalRun IntType.int64 32 d hn
  rw [hg] at hone
  have hfast : GetInt64 d max_values =
      { writes := ([] ++ (List.range 32).zip (List.map (fun x : Nat => (x : Int))
            (fieldsAt d.decoder_.data d.delta_bit_width_ 32 d.decoder_.bitPos))) ++
          (List.range' 0 (fieldsAt d.decoder_.data d.delta_bit_width_ 32
              d.decoder_.bitPos).length).zip
            ((runningSums d.min_delta_ d.last_value_
              (fieldsAt d.decoder_.data d.delta_bit_width_ 32 d.decoder_.bitPos)).map wrapInt64)
        outcome := .ok (32,
          { d with
            last_value_ := wrapInt64 (lastSum d.min_delta_ d.last_value_
              (fieldsAt d.decoder_.data d.delta_bit_width_ 32 d.decoder_.bitPos))
            decoder_ := d.decoder_.SkipBytes (32 * d.delta_bit_width_ / 8)
            values_current_mini_block_ := 0
            num_values_ := d.num_values_ - 32 }) } := by
    unfold GetInt64 GetInternal
    simp only [hm]
    have h32 : (32 : Int).toNat = 31 + 1 := rfl
    rw [h32, GetInternalLoop, loopBody_inside _ _ _ _ _ (by omega),
      decodeSlot_bulk IntType.int64 0 d [] hw hal hin]
    simp only [finishBulk]
    rw [accumulate_int64 d.min_delta_ _ 0 d.last_value_ d.last_value_ _
      (wrapInt64_of_fits _ hfit).symm]
  have hlen : (fieldsAt d.decoder_.data d.delta_bit_width_ 32 d.decoder_.bitPos).length = 32 := by
    simp [fieldsAt]
  have hlen2 : ((runningSums d.min_delta_ d.last_value_
      (fieldsAt d.decoder_.data d.delta_bit_width_ 32 d.decoder_.bitPos)).map wrapInt64).length =
      32 := by
    rw [List.length_map, runningSums_length, hlen]
  constructor
  · have hout := outBuffer_append_zip_range
      ([] ++ (List.range 32).zip (List.map (fun x : Nat => (x : Int))
        (fieldsAt d.decoder_.data d.delta_bit_width_ 32 d.decoder_.bitPos)))
      ((runningSums d.min_delta_ d.last_value_
        (fieldsAt d.decoder_.data d.delta_bit_width_ 32 d.decoder_.bitPos)).map wrapInt64)
    rw [hlen2] at hout
    rw [hfast, hone]
    simp only [hlen]
    rw [hout, List.map_map, List.map_map]
    apply List.map_congr_left
    intro x _
    simp only [Function.comp_apply, cast_int64_wrapInt64]
  · rw [hfast, hone]
    refine ⟨_, _, rfl, rfl, rfl, ?_, rfl, rfl, rfl⟩
    simp only [BitReader.SkipBytes]
    congr 1
    rcases hw with h | h <;> rw [h]

/-! ## Prefix reconstruction (C11) -/

theorem reconstruct_storage (prev : ByteArray) (p : Nat) (suffix : ByteArray)
    (hp : p ≤ prev.ptr.length) (hs : suffix.len ≤ suffix.ptr.length) :
    (reconstruct prev p suffix).len ≤ (reconstruct prev p suffix).ptr.length := by
  simp only [reconstruct, List.length_append, List.length_take]
  omega

/-- A round of the loop of `GetByteArray` whose reads succeed on a decoder
whose `last_value_` holds `prev` (or was never assigned, `prev` being the
empty value, which leaves 0 as the only prefix length inside it): it stores
the first `p` bytes of `prev` followed by the suffix, and makes that value the
new `last_value_`. -/
theorem GetByteArrayBody_reconstruct {σ : Type} (S : SuffixDecoder σ)
    (d : DeltaByteArrayDecoder σ) (prev : ByteArray) (c p : Int) (p1 : DeltaBitPackDecoder)
    (suffix : ByteArray) (s1 : σ)
    (hprev : d.last_value_.getD emptyValue = prev) (hstore : prev.len ≤ prev.ptr.length)
    (hout : (GetInt32 d.prefix_len_decoder_ 1).outcome = .ok (c, p1))
    (hp : (slotValue (GetInt32 d.prefix_len_decoder_ 1).writes 0).getD 0 = p)
    (hs : S.GetByteArray d.suffix_decoder_ = .ok (some suffix, s1))
    (h0 : 0 ≤ p) (hle : p ≤ (prev.len : Int)) (hsl : suffix.len ≤ suffix.ptr.length)
    (hfit : p.toNat + suffix.len < 2 ^ 32) :
    DeltaByteArrayDecoder.GetByteArrayBody S d =
      .ok ({ d with
             prefix_len_decoder_ := p1
             suffix_decoder_ := s1
             last_value_ := some (reconstruct prev p.toNat suffix) },
           reconstruct prev p.toNat suffix) := by
  have hcopy : DeltaByteArrayDecoder.copyPrefix d.last_value_ p = some (prev.ptr.take p.toNat) := by
    unfold DeltaByteArrayDecoder.copyPrefix
    by_cases hz : p = 0
    · simp [hz]
    · rw [if_neg hz, if_neg (by omega)]
      cases hl : d.last_value_ with
      | none =>
        rw [hl] at hprev
        simp only [Option.getD_none] at hprev
        rw [← hprev] at hle
        simp only [emptyValue] at hle
        omega
      | some v =>
        rw [hl] at hprev
        simp only [Option.getD_some] at hprev
        subst hprev
        simp only
        rw [if_pos (by omega)]
  unfold DeltaByteArrayDecoder.GetByteArrayBody
  rw [hout]
  simp only
  rw [hs]
  simp only
  rw [hp, hcopy]
  simp only
  rw [if_neg (by omega)]
  rfl

/-- A round whose prefix length is 0 stores the suffix itself, whatever
`last_value_` holds. -/
theorem GetByteArrayBody_zero {σ : Type} (S : SuffixDecoder σ)
    (d : DeltaByteArrayDecoder σ) (c : Int) (p1 : DeltaBitPackDecoder)
    (suffix : ByteArray) (s1 : σ)
    (hout : (GetInt32 d.prefix_len_decoder_ 1).outcome = .ok (c, p1))
    (hp : (slotValue (GetInt32 d.prefix_len_decoder_ 1).writes 0).getD 0 = 0)
    (hs : S.GetByteArray d.suffix_decoder_ = .ok (some suffix, s1))
    (hsl : suffix.len ≤ suffix.ptr.length) (hfit : suffix.len < 2 ^ 32) :
    DeltaByteArrayDecoder.GetByteArrayBody S d =
      .ok ({ d with
             prefix_len_decoder_ := p1
             suffix_decoder_ := s1
             last_value_ := some { len := suffix.len, ptr := suffix.ptr.take suffix.len } },
           { len := suffix.len, ptr := suffix.ptr.take suffix.len }) := by
  unfold DeltaByteArrayDecoder.GetByteArrayBody
  rw [hout]
  simp only
  rw [hs]
  simp only
  rw [hp]
  simp only [DeltaByteArrayDecoder.copyPrefix, if_true]
  rw [if_neg (by simp; omega)]
  simp
theorem prefixDecode_length (reads : List (Int × ByteArray)) :
    ∀ prev, (prefixDecode prev reads).length = reads.length := by
  induction reads with
  | nil => intro prev; rfl
  | cons r rest ih =>
    intro prev
    obtain ⟨p, suffix⟩ := r
    simp [prefixDecode, ih]

theorem subReads_length {σ : Type} (S : SuffixDecoder σ) (n : Nat) :
    ∀ (p : DeltaBitPackDecoder) (s : σ) (reads : List (Int × ByteArray))
      (pd : DeltaBitPackDecoder) (sd : σ),
      subReads S n p s = .ok (reads, pd, sd) → reads.length = n := by
  induction n with
  | zero =>
    intro p s reads pd sd h
    simp only [subReads, Except.ok.injEq, Prod.mk.injEq] at h
    rw [← h.1]
    rfl
  | succ n ih =>
    intro p s reads pd sd h
    rw [subReads] at h
    cases ho : (GetInt32 p 1).outcome with
    | error e => rw [ho] at h; cases h
    | ok cp =>
      obtain ⟨c, p1⟩ := cp
      rw [ho] at h
      simp only at h
      cases hs : S.GetByteArray s with
      | error e => rw [hs] at h; cases h
      | ok r =>
        obtain ⟨o, s1⟩ := r
        rw [hs] at h
        cases o with
        | none => cases h
        | some suffix =>
          simp only at h
          cases hr : subReads S n p1 s1 with
          | error e => rw [hr] at h; cases h
          | ok r2 =>
            obtain ⟨rest, p2, s2⟩ := r2
            rw [hr] at h
            simp only [Except.ok.injEq, Prod.mk.injEq] at h
            rw [← h.1, List.length_cons, ih p1 s1 rest p2 s2 hr]

/-- The loop of `GetByteArray` on reads that succeed and prefix lengths that
stay inside the previous value: it stores the sequence of the reconstruction
rule into the slots `i`, `i + 1`, ..., and ends with the last value of that
sequence in `last_value_`. -/
theorem GetByteArrayLoop_reconstruct {σ : Type} (S : SuffixDecoder σ) (m : Int) (n : Nat) :
    ∀ (i : Nat) (d : DeltaByteArrayDecoder σ) (log : List (Nat × ByteArray)) (prev : ByteArray)
      (reads : List (Int × ByteArray)) (pd : DeltaBitPackDecoder) (sd : σ),
      d.last_value_.getD emptyValue = prev → prev.len ≤ prev.ptr.length →
      subReads S n d.prefix_len_decoder_ d.suffix_decoder_ = .ok (reads, pd, sd) →
      prefixesValid prev reads = true →
      (DeltaByteArrayDecoder.GetByteArrayLoop S m n i d log).writes =
          log ++ (List.range' i n).zip (prefixDecode prev reads) ∧
        (DeltaByteArrayDecoder.GetByteArrayLoop S m n i d log).outcome =
          .ok (m, { num_values_ := d.num_values_ - m
                    prefix_len_decoder_ := pd
                    suffix_decoder_ := sd
                    last_value_ :=
                      if n = 0 then d.last_value_ else some (prefixDecodeLast prev reads) }) := by
  induction n with
  | zero =>
    intro i d log prev reads pd sd hprev _ h _
    simp only [subReads, Except.ok.injEq, Prod.mk.injEq] at h
    obtain ⟨h1, h2, h3⟩ := h
    subst h1 h2 h3
    simp [DeltaByteArrayDecoder.GetByteArrayLoop, prefixDecode]
  | succ n ih =>
    intro i d log prev reads pd sd hprev hstore h hvalid
    rw [subReads] at h
    cases ho : (GetInt32 d.prefix_len_decoder_ 1).outcome with
    | error e => rw [ho] at h; cases h
    | ok cp =>
      obtain ⟨c, p1⟩ := cp
      rw [ho] at h
      simp only at h
      cases hs : S.GetByteArray d.suffix_decoder_ with
      | error e => rw [hs] at h; cases h
      | ok r =>
        obtain ⟨o, s1⟩ := r
        rw [hs] at h
        cases o with
        | none => cases h
        | some suffix =>
          simp only at h
          cases hr : subReads S n p1 s1 with
          | error e => rw [hr] at h; cases h
          | ok r2 =>
            obtain ⟨rest, p2, s2⟩ := r2
            rw [hr] at h
            simp only [Except.ok.injEq, Prod.mk.injEq] at h
            obtain ⟨h1, h2, h3⟩ := h
            subst h1 h2 h3
            simp only [prefixesValid, Bool.and_eq_true, decide_eq_true_eq] at hvalid
            obtain ⟨⟨⟨⟨hv0, hvle⟩, hvs⟩, hvfit⟩, hvrest⟩ := hvalid
            have hbody := GetByteArrayBody_reconstruct S d prev c _ p1 suffix s1 hprev hstore ho
              rfl hs hv0 hvle hvs hvfit
            rw [DeltaByteArrayDecoder.GetByteArrayLoop, hbody]
            simp only
            have hstore2 := reconstruct_storage prev
              ((slotValue (GetInt32 d.prefix_len_decoder_ 1).writes 0).getD 0).toNat suffix
              (by omega) hvs
            obtain ⟨ihw, iho⟩ := ih (i + 1)
              { d with
                prefix_len_decoder_ := p1
                suffix_decoder_ := s1
                last_value_ := some (reconstruct prev
                  ((slotValue (GetInt32 d.prefix_len_decoder_ 1).writes 0).getD 0).toNat suffix) }
              (log ++ [(i, reconstruct prev
                ((slotValue (GetInt32 d.prefix_len_decoder_ 1).writes 0).getD 0).toNat suffix)])
              _ rest p2 s2 rfl hstore2 hr hvrest
            rw [ihw, iho]
            simp only [prefixDecode, prefixDecodeLast, List.range'_succ, List.zip_cons_cons,
              List.append_assoc, List.singleton_append, Nat.add_one_ne_zero, if_false, true_and]
            by_cases hn0 : n = 0
            · subst hn0
              simp only [subReads, Except.ok.injEq, Prod.mk.injEq] at hr
              rw [← hr.1]
              simp [prefixDecodeLast]
            · simp [hn0]

theorem prefixDecode_head (prev : ByteArray) (reads : List (Int × ByteArray))
    (r : Int × ByteArray) (h : reads[0]? = some r) :
    (prefixDecode prev reads)[0]? = some (reconstruct prev r.1.toNat r.2) := by
  cases reads with
  | nil => simp at h
  | cons r0 rest =>
    simp only [List.getElem?_cons_zero, Option.some.injEq] at h
    subst h
    simp [prefixDecode]

theorem prefixDecode_next (reads : List (Int × ByteArray)) :
    ∀ (prev : ByteArray) (k : Nat) (v : ByteArray) (r : Int × ByteArray),
      (prefixDecode prev reads)[k]? = some v → reads[k + 1]? = some r →
      (prefixDecode prev reads)[k + 1]? = some (reconstruct v r.1.toNat r.2) := by
  induction reads with
  | nil => intro prev k v r h; simp [prefixDecode] at h
  | cons r0 rest ih =>
    intro prev k v r hv hr
    simp only [List.getElem?_cons_succ] at hr
    simp only [prefixDecode, List.getElem?_cons_succ]
    cases k with
    | zero =>
      simp only [prefixDecode, List.getElem?_cons_zero, Option.some.injEq] at hv
      rw [← hv]
      exact prefixDecode_head _ rest r hr
    | succ k =>
      simp only [prefixDecode, List.getElem?_cons_succ] at hv
      exact ih _ k v r hv hr

theorem prefixDecodeLast_eq (reads : List (Int × ByteArray)) :
    ∀ prev, prefixDecodeLast prev reads = ((prefixDecode prev reads).getLast?).getD prev := by
  induction reads with
  | nil => intro prev; rfl
  | cons r0 rest ih =>
    intro prev
    simp only [prefixDecodeLast, prefixDecode]
    rw [ih]
    cases h : prefixDecode (reconstruct prev r0.1.toNat r0.2) rest with
    | nil => simp
    | cons a l =>
      rw [List.getLast?_cons_cons, List.getLast?_eq_getLast _ (List.cons_ne_nil a l)]
      rfl

/-- C11: a call of `GetByteArray` for `n` values whose reads from the two
sub-decoders succeed, on a decoder whose `last_value_` holds the value `prev`
that an earlier call emitted (or was never assigned, `prev` then being the
empty value), with every prefix length `p` between 0 and the length of the
value before it: the call stores into slots 0 to `n - 1` the sequence
`decoded[i] = prefix(decoded[i-1], p[i]) ++ suffix[i]` started from `prev`,
returns `n`, and leaves the last value of the sequence in `last_value_`.  The
value of slot 0 is the first `p` bytes of `prev` followed by the suffix, the
value of slot `k + 1` the first `p` bytes of the value of slot `k` followed by
the suffix, each of length `p + |suffix|`. -/
theorem prefix_reconstruction {σ : Type} (S : SuffixDecoder σ) (d : DeltaByteArrayDecoder σ)
    (max_values : Int) (n : Nat) (prev : ByteArray) (reads : List (Int × ByteArray))
    (pd : DeltaBitPackDecoder) (sd : σ)
    (hn : min max_values d.num_values_ = (n : Int))
    (hprev : d.last_value_.getD emptyValue = prev) (hstore : prev.len ≤ prev.ptr.length)
    (hreads : subReads S n d.prefix_len_decoder_ d.suffix_decoder_ = .ok (reads, pd, sd))
    (hvalid : prefixesValid prev reads = true) :
    (DeltaByteArrayDecoder.GetByteArray S d max_values).writes =
        (List.range n).zip (prefixDecode prev reads) ∧
      (DeltaByteArrayDecoder.GetByteArray S d max_values).outcome =
        .ok ((n : Int),
          { num_values_ := d.num_values_ - n
            prefix_len_decoder_ := pd
            suffix_decoder_ := sd
            last_value_ :=
              if n = 0 then d.last_value_
              else some (((prefixDecode prev reads).getLast?).getD prev) }) ∧
      (prefixDecode prev reads).length = n ∧
      (∀ r, reads[0]? = some r →
        (prefixDecode prev reads)[0]? = some (reconstruct prev r.1.toNat r.2)) ∧
      (∀ k v r, (prefixDecode prev reads)[k]? = some v → reads[k + 1]? = some r →
        (prefixDecode prev reads)[k + 1]? = some (reconstruct v r.1.toNat r.2)) ∧
      ∀ (v : ByteArray) (p : Nat) (suffix : ByteArray),
        (reconstruct v p suffix).len = p + suffix.len ∧
          (reconstruct v p suffix).ptr = v.ptr.take p ++ suffix.ptr.take suffix.len := by
  obtain ⟨hw, ho⟩ := GetByteArrayLoop_reconstruct S (n : Int) n 0 d [] prev reads pd sd
    hprev hstore hreads hvalid
  refine ⟨?_, ?_, ?_, prefixDecode_head prev reads, prefixDecode_next reads prev, ?_⟩
  · unfold DeltaByteArrayDecoder.GetByteArray
    simp only [hn, Int.toNat_ofNat]
    rw [hw, List.nil_append, List.range_eq_range']
  · unfold DeltaByteArrayDecoder.GetByteArray
    simp only [hn, Int.toNat_ofNat]
    rw [ho, prefixDecodeLast_eq]
  · rw [prefixDecode_length, subReads_length S n _ _ reads pd sd hreads]
  · intro v p suffix
    exact ⟨rfl, rfl⟩

/-- Witness of C11: the previous call emitted "apple"; the next prefix length
is 3 and the next suffix "icot"; the call stores "appicot" and leaves it in
`last_value_`. -/
theorem prefix_reconstruction_witness :
    (DeltaByteArrayDecoder.GetByteArray plainSuffixDecoder appleBound 1).outcome =
        .ok (1, appleAfterOne) ∧
      prefixDecode (textValue "apple") [(3, textValue "icot")] = [textValue "appicot"] ∧
      (DeltaByteArrayDecoder.GetByteArray plainSuffixDecoder appleAfterOne 1).writes =
        (List.range 1).zip (prefixDecode (textValue "apple") [(3, textValue "icot")]) :=
  ⟨rfl, by decide,
   (prefix_reconstruction plainSuffixDecoder appleAfterOne 1 1 (textValue "apple")
     [(3, textValue "icot")]
     { appleAfterOne.prefix_len_decoder_ with
       num_values_ := 0
       decoder_ := { data := [1, 1, 2, 0, 6, 0], bitPos := 48 }
       values_current_mini_block_ := 0
       last_value_ := 3 }
     (0, []) (by decide) (by decide) (by decide) (by decide) (by decide)).1⟩

/-! ## The unpack tables (C17) -/

theorem InitLoop_getElem (w : Nat) (n : Nat) :
    ∀ (bit_offset i : Nat), i < n →
      (InitLoop n bit_offset w)[i]? =
        some { byte_offset := (bit_offset + i * w) / 8, shift := (bit_offset + i * w) % 8 } := by
  induction n with
  | zero => intro bit_offset i hi; omega
  | succ n ih =>
    intro bit_offset i hi
    cases i with
    | zero => simp [InitLoop]
    | succ i =>
      simp only [InitLoop, List.getElem?_cons_succ]
      rw [ih (bit_offset + w) i (by omega)]
      have : bit_offset + w + i * w = bit_offset + (i + 1) * w := by ring
      rw [this]

theorem InitLoop_length (w : Nat) (n : Nat) :
    ∀ bit_offset, (InitLoop n bit_offset w).length = n := by
  induction n with
  | zero => intro bit_offset; rfl
  | succ n ih => intro bit_offset; simp [InitLoop, ih]

/-- C17: after `Init()`, for the bit width `w = 14` with its table
`decode_data_14_` and `w = 15` with `decode_data_15_`, the table has 32
entries, and entry `i` satisfies `byte_offset * 8 + shift = i * w` with
`shift < 8`: it locates the first bit of value `i` in a packed run of 32
values of `w` bits.  So `byte_offset` does not decrease with `i`, and
`byte_offset` of entry 31 is below `32 * w / 8`. -/
theorem unpack_table (w : Nat) (table : List DecodeData)
    (hw : (w = 14 ∧ table = decode_data_14_) ∨ (w = 15 ∧ table = decode_data_15_)) :
    table.length = 32 ∧
    (∀ i, i < 32 → ∃ e, table[i]? = some e ∧ e.byte_offset * 8 + e.shift = i * w ∧ e.shift < 8) ∧
    (∀ (i j : Nat) (e1 e2 : DecodeData), i ≤ j → table[i]? = some e1 → table[j]? = some e2 →
      e1.byte_offset ≤ e2.byte_offset) ∧
    (∀ e, table[31]? = some e → e.byte_offset < 32 * w / 8) := by
  have ht : table = InitLoop 32 0 w := by
    rcases hw with ⟨h1, h2⟩ | ⟨h1, h2⟩ <;> rw [h1, h2] <;> rfl
  have hget : ∀ i, i < 32 →
      table[i]? = some { byte_offset := i * w / 8, shift := i * w % 8 } := by
    intro i hi
    rw [ht, InitLoop_getElem w 32 0 i hi]
    simp
  have hlen : table.length = 32 := by rw [ht, InitLoop_length]
  refine ⟨hlen, ?_, ?_, ?_⟩
  · intro i hi
    refine ⟨_, hget i hi, ?_, Nat.mod_lt _ (by norm_num)⟩
    simp only
    omega
  · intro i j e1 e2 hij h1 h2
    have hj : j < 32 := by
      by_contra hcon
      rw [List.getElem?_eq_none (by omega)] at h2
      cases h2
    rw [hget i (by omega)] at h1
    rw [hget j hj] at h2
    simp only [Option.some.injEq] at h1 h2
    rw [← h1, ← h2]
    simp only
    exact Nat.div_le_div_right (Nat.mul_le_mul_right w hij)
  · intro e he
    rw [hget 31 (by norm_num)] at he
    simp only [Option.some.injEq] at he
    rw [← he]
    rcases hw with ⟨h1, _⟩ | ⟨h1, _⟩ <;> rw [h1] <;> decide

/-- Witness of C17: entry 31 of `decode_data_14_` is byte 54, shift 2, and
`54 * 8 + 2 = 31 * 14`. -/
theorem unpack_table_witness :
    decode_data_14_[31]? = some { byte_offset := 54, shift := 2 } ∧
      ∃ e, decode_data_14_[31]? = some e ∧ e.byte_offset * 8 + e.shift = 31 * 14 ∧ e.shift < 8 :=
  ⟨by decide, (unpack_table 14 decode_data_14_ (Or.inl ⟨rfl, rfl⟩)).2.1 31 (by decide)⟩

/-! ## The unpack step (C18) -/

/-- Slot `i` of the buffer after `DecodeBlock` holds what the three statements
of the slot compute from entry `i` of the table. -/
theorem DecodeBlock_getElem (T : IntType) (w : Nat) (data : List Nat) (base : Nat)
    (offsets : List DecodeData) :
    ∀ (vs : List Int), DecodeBlock T w offsets data base = some vs →
      ∀ (i : Nat) (e : DecodeData), offsets[i]? = some e →
        DecodeBlockSlot T w e data base = vs[i]? := by
  induction offsets with
  | nil => intro vs _ i e he; simp at he
  | cons entry rest ih =>
    intro vs h i e he
    unfold DecodeBlock at h
    split at h
    · cases h
    · rename_i v hv
      split at h
      · cases h
      · rename_i vs1 hvs
        simp only [Option.some.injEq] at h
        subst h
        cases i with
        | zero =>
          simp only [List.getElem?_cons_zero, Option.some.injEq] at he
          subst he
          simpa using hv
        | succ i =>
          simp only [List.getElem?_cons_succ] at he ⊢
          exact ih vs1 hvs i e he

/-- C18: for `T` of 32 or 64 bits, the bit width `w = 14` with its table
`decode_data_14_` or `w = 15` with `decode_data_15_`, a slot `i < 32` and a
buffer that holds a word of `sizeof(T)` bytes at `base + byte_offset[i]`: the
slot of `DecodeBlock` computes the little-endian word at that place, shifted
right by `shift[i]` and masked to `w` bits; this is the unsigned integer of
the bits `i * w` to `i * w + w - 1` after `base`, least significant first; it
lies in `[0, 2^w)` whatever the top bit of the word, and `shift[i] + w` is at
most the width of `T`.  Whenever `DecodeBlock` completes, slot `i` of the
buffer holds that value, and it completes when the buffer holds the word of
the last slot. -/
theorem unpack_step (T : IntType) (w : Nat) (table : List DecodeData)
    (hw : (w = 14 ∧ table = decode_data_14_) ∨ (w = 15 ∧ table = decode_data_15_))
    (data : List Nat) (base : Nat) :
    (∀ (i : Nat) (e : DecodeData), i < 32 → table[i]? = some e →
      base + e.byte_offset + T.bytes ≤ data.length →
      loadWord data (base + e.byte_offset) T.bytes =
          some (leNat ((data.drop (base + e.byte_offset)).take T.bytes)) ∧
        DecodeBlockSlot T w e data base =
          some ((leNat ((data.drop (base + e.byte_offset)).take T.bytes) / 2 ^ e.shift % 2 ^ w :
            Nat) : Int) ∧
        leNat ((data.drop (base + e.byte_offset)).take T.bytes) / 2 ^ e.shift % 2 ^ w =
          fieldAt data (8 * base + i * w) w ∧
        fieldAt data (8 * base + i * w) w < 2 ^ w ∧
        e.shift + w ≤ T.bits) ∧
    (∀ (vs : List Int), DecodeBlock T w table data base = some vs →
      ∀ (i : Nat) (e : DecodeData), table[i]? = some e →
        vs[i]? = DecodeBlockSlot T w e data base) ∧
    (base + 31 * w / 8 + T.bytes ≤ data.length →
      DecodeBlock T w table data base =
        some (List.map (fun x : Nat => (x : Int)) (fieldsAt data w 32 (8 * base)))) := by
  have hw' : w = 14 ∨ w = 15 := by rcases hw with ⟨h, _⟩ | ⟨h, _⟩ <;> simp [h]
  have ht : table = InitLoop 32 0 w := by
    rcases hw with ⟨h1, h2⟩ | ⟨h1, h2⟩ <;> rw [h1, h2] <;> rfl
  have hbits : 8 * T.bytes = T.bits := by cases T <;> rfl
  refine ⟨?_, ?_, ?_⟩
  · intro i e hi he hin
    rw [ht, InitLoop_getElem w 32 0 i hi] at he
    simp only [Nat.zero_add, Option.some.injEq] at he
    have hs : e.shift < 8 := by rw [← he]; exact Nat.mod_lt _ (by norm_num)
    have hpos : 8 * (base + e.byte_offset) + e.shift = 8 * base + i * w := by
      rw [← he]
      simp only
      have := Nat.div_add_mod (i * w) 8
      omega
    have hsw : e.shift + w ≤ 8 * T.bytes := by
      rcases hw' with rfl | rfl <;> cases T <;> simp only [IntType.bytes] <;> omega
    have hload : loadWord data (base + e.byte_offset) T.bytes =
        some (leNat ((data.drop (base + e.byte_offset)).take T.bytes)) := by
      unfold loadWord
      rw [if_pos hin]
    have hfield : leNat ((data.drop (base + e.byte_offset)).take T.bytes) =
        fieldAt data (8 * (base + e.byte_offset)) (8 * T.bytes) := by
      have := loadWord_eq_fieldAt data _ _ hin
      rw [hload] at this
      exact Option.some.inj this
    have hval : leNat ((data.drop (base + e.byte_offset)).take T.bytes) / 2 ^ e.shift % 2 ^ w =
        fieldAt data (8 * base + i * w) w := by
      rw [hfield, fieldAt_shift _ _ _ _ _ hsw, hpos]
    refine ⟨hload, ?_, hval, fieldAt_lt _ _ _, by rw [← hbits]; exact hsw⟩
    rw [DecodeBlockSlot_eq_fieldAt T w hw' e hs data base hin, hval, hpos]
  · intro vs h i e he
    exact (DecodeBlock_getElem T w data base table vs h i e he).symm
  · intro hin
    rw [ht]
    have := DecodeBlock_InitLoop T w hw' data base 32 0 (by
      intro _
      simpa using hin)
    simpa using this

/-- Witness of C18: the buffer of five bytes `0xFF` with `T` of 32 bits; slot
1 of the table of width 14 loads the word at byte 1, which is -1 as a signed
word, shifts it by 6 and masks it: the result is `0x3FFF`, the bits 14 to 27
of the buffer. -/
theorem unpack_step_witness :
    (decode_data_14_[1]? = some { byte_offset := 1, shift := 6 } ∧
      loadWord [0xFF, 0xFF, 0xFF, 0xFF, 0xFF] 1 4 = some 0xFFFFFFFF ∧
      wrapSigned 32 0xFFFFFFFF = -1 ∧
      fieldAt [0xFF, 0xFF, 0xFF, 0xFF, 0xFF] 14 14 = 0x3FFF ∧
      DecodeBlockSlot IntType.int32 14 { byte_offset := 1, shift := 6 }
        [0xFF, 0xFF, 0xFF, 0xFF, 0xFF] 0 = some 0x3FFF) ∧
    DecodeBlockSlot IntType.int32 14 { byte_offset := 1, shift := 6 }
        [0xFF, 0xFF, 0xFF, 0xFF, 0xFF] 0 =
      some ((leNat (([0xFF, 0xFF, 0xFF, 0xFF, 0xFF].drop (0 + 1)).take 4) / 2 ^ 6 % 2 ^ 14 :
        Nat) : Int) :=
  ⟨by decide,
   ((unpack_step IntType.int32 14 decode_data_14_ (Or.inl ⟨rfl, rfl⟩)
     [0xFF, 0xFF, 0xFF, 0xFF, 0xFF] 0).1 1 { byte_offset := 1, shift := 6 } (by decide)
     (by decide) (by decide)).2.1⟩

/-! ## The loads of the bulk path (C19) -/

set_option maxRecDepth 100000 in
/-- C19 at its failing input: the well-formed stream `exactStream` of 62
bytes ends with its mini-block of bit width 14, the `32 * 14 / 8 = 56` bytes
that `SkipBytes` skips.  After a call for one value the reader stands at byte
6.  Entry 31 of `decode_data_14_` has the byte offset 54, so the word of four
bytes of slot 31 covers the bytes 54 to 57 after the reader, two of them past
the mini-block and past the buffer (with words of eight bytes the slots 28 to
31 leave it, slot 28 at byte offset 49): the load is outside the buffer and
the calls `GetInt32(buffer, 32)` and `GetInt64(buffer, 32)` are undefined,
while 32 calls for one value decode the values 11 to 42 and read no byte past
the buffer. -/
theorem bulk_load_leaves_mini_block :
    ((∀ b ∈ exactStream, b.wellFormed) ∧ streamCount exactStream = 33 ∧
      (encodeStream exactStream).length = 6 + 32 * 14 / 8) ∧
    (GetInt32 ((freshDecoder zeroDecoder).SetData 33 (encodeStream exactStream)) 1).outcome =
      .ok (1, exactMid) ∧
    (exactMid.decoder_.current_ptr = 6 ∧ exactMid.delta_bit_width_ = 14 ∧
      exactMid.values_current_mini_block_ = 32) ∧
    (decode_data_14_[31]? = some { byte_offset := 54, shift := 2 } ∧
      32 * 14 / 8 < 54 + IntType.int32.bytes ∧
      loadWord (encodeStream exactStream) (6 + 54) IntType.int32.bytes = none) ∧
    (decode_data_14_[28]? = some { byte_offset := 49, shift := 0 } ∧
      32 * 14 / 8 < 49 + IntType.int64.bytes ∧
      loadWord (encodeStream exactStream) (6 + 49) IntType.int64.bytes = none) ∧
    GetInt32 exactMid 32 = { writes := [], outcome := .error ParquetError.Undefined } ∧
    GetInt64 exactMid 32 = { writes := [], outcome := .error ParquetError.Undefined } ∧
    (decodeOneByOne IntType.int32 32 exactMid).1 = (List.range 32).map (fun k => (k : Int) + 11) ∧
    (decodeOneByOne IntType.int32 32 exactMid).2.map
      (fun d => (d.num_values_, d.decoder_.bitPos)) = .ok (0, 8 * (encodeStream exactStream).length) := by
  decide

/-! ## Incremental consumption (C15) -/

theorem generalRun_length_ok (T : IntType) (n : Nat) :
    ∀ (d d1 : DeltaBitPackDecoder), (generalRun T n d).2 = .ok d1 →
      (generalRun T n d).1.length = n := by
  induction n with
  | zero => intro d d1 _; rfl
  | succ n ih =>
    intro d d1 h
    simp only [generalRun] at h ⊢
    cases hr : generalRound d with
    | error e => rw [hr] at h; cases h
    | ok d2 =>
      rw [hr] at h
      simp only at h ⊢
      rw [List.length_cons, ih d2 d1 h]

theorem zip_range_shift (l : List Int) :
    ∀ (i a : Nat), ((List.range' i l.length).zip l).map (fun s => (a + s.1, s.2)) =
      (List.range' (a + i) l.length).zip l := by
  induction l with
  | nil => intro i a; rfl
  | cons x rest ih =>
    intro i a
    simp only [List.length_cons, List.range'_succ, List.zip_cons_cons, List.map_cons]
    rw [ih (i + 1) a]
    rfl

theorem zip_range_append (l1 l2 : List Int) (i : Nat) :
    (List.range' i (l1 ++ l2).length).zip (l1 ++ l2) =
      (List.range' i l1.length).zip l1 ++ (List.range' (i + l1.length) l2.length).zip l2 := by
  induction l1 generalizing i with
  | nil => simp
  | cons x rest ih =>
    simp only [List.cons_append, List.length_cons, List.range'_succ, List.zip_cons_cons]
    rw [ih (i + 1)]
    have : i + 1 + rest.length = i + (rest.length + 1) := by omega
    rw [this]

/-- With a chunk size other than 32 that does not exceed the values remaining,
a call of `GetInternal` is the run of that many general rounds. -/
theorem GetInternal_general (T : IntType) (d : DeltaBitPackDecoder) (n : Nat)
    (hn : (n : Int) ≤ d.num_values_) (h32 : n ≠ 32) :
    GetInternal T d (n : Int) =
      { writes := (List.range' 0 (generalRun T n d).1.length).zip (generalRun T n d).1
        outcome :=
          match (generalRun T n d).2 with
          | .ok d1 => .ok ((n : Int), { d1 with num_values_ := d.num_values_ - n })
          | .error e => .error e } := by
  unfold GetInternal
  have hmin : min (n : Int) d.num_values_ = (n : Int) := min_eq_left hn
  simp only [hmin, Int.toNat_ofNat]
  rw [GetInternalLoop_general T _ (by exact_mod_cast h32)]
  simp only [List.nil_append]
  cases hr : (generalRun T n d).2 with
  | error e => rfl
  | ok d1 =>
    simp only
    rw [generalRun_num_values T n d d1 hr]

/-- C15: in any decoder state with at least `a + b` values remaining, where
none of `a`, `b` and `a + b` is 32: when the call for `a` values returns, it
returns `a`, and the call for `b` values that follows stores into its slots
`0 .. b-1` what the single call for `a + b` values stores into its slots
`a .. a+b-1`, after the same stores into the slots `0 .. a-1`; the second call
returns `b` exactly when the single call returns `a + b`, with the same
decoder, member by member, and it raises the exception the single call raises.
When the call for `a` values raises an exception, the single call makes the
same stores and raises the same exception. -/
theorem incremental_consumption (T : IntType) (d : DeltaBitPackDecoder) (a b : Nat)
    (hab : ((a + b : Nat) : Int) ≤ d.num_values_)
    (ha : a ≠ 32) (hb : b ≠ 32) (hab32 : a + b ≠ 32) :
    (∀ e, (GetInternal T d (a : Int)).outcome = .error e →
      GetInternal T d ((a + b : Nat) : Int) = GetInternal T d (a : Int)) ∧
    (∀ c d1, (GetInternal T d (a : Int)).outcome = .ok (c, d1) →
      c = (a : Int) ∧
      (GetInternal T d ((a + b : Nat) : Int)).writes =
        (GetInternal T d (a : Int)).writes ++
          (GetInternal T d1 (b : Int)).writes.map (fun s => (a + s.1, s.2)) ∧
      (GetInternal T d ((a + b : Nat) : Int)).outcome =
        (match (GetInternal T d1 (b : Int)).outcome with
         | .ok (_, d2) => .ok (((a + b : Nat) : Int), d2)
         | .error e => .error e) ∧
      ∀ c2 d2, (GetInternal T d1 (b : Int)).outcome = .ok (c2, d2) → c2 = (b : Int)) := by
  have ha' : (a : Int) ≤ d.num_values_ := by push_cast at hab; omega
  rw [GetInternal_general T d (a + b) hab hab32, GetInternal_general T d a ha' ha,
    generalRun_add]
  refine ⟨?_, ?_⟩
  · intro e he
    simp only at he
    cases hr : (generalRun T a d).2 with
    | ok d1 => rw [hr] at he; cases he
    | error e1 => simp
  · intro c d1 hc
    simp only at hc
    cases hr : (generalRun T a d).2 with
    | error e1 => rw [hr] at hc; cases hc
    | ok d1' =>
      rw [hr] at hc
      simp only [Except.ok.injEq, Prod.mk.injEq] at hc
      obtain ⟨hc1, hc2⟩ := hc
      have hnum := generalRun_num_values T a d d1' hr
      have hla := generalRun_length_ok T a d d1' hr
      have hb' : (b : Int) ≤ d1.num_values_ := by
        rw [← hc2]
        simp only
        push_cast at hab
        omega
      have hrun : generalRun T b d1 =
          ((generalRun T b d1').1,
            (generalRun T b d1').2.map (fun x => { x with num_values_ := d.num_values_ - a })) := by
        rw [← hc2]
        exact generalRun_set_num_values T b d1' _
      rw [GetInternal_general T d1 b hb' hb, hrun]
      simp only
      refine ⟨hc1.symm, ?_, ?_, ?_⟩
      · rw [zip_range_append, zip_range_shift, hla]
        simp
      · cases hr2 : (generalRun T b d1').2 with
        | error e2 => rfl
        | ok d2' =>
          simp only [Except.map]
          rw [← hc2]
          simp only
          congr 2
          have := generalRun_num_values T b d1' d2' hr2
          push_cast
          congr 1
          omega
      · intro c2 d2 h2
        cases hr2 : (generalRun T b d1').2 with
        | error e2 => rw [hr2] at h2; simp [Except.map] at h2
        | ok d2' =>
          rw [hr2] at h2
          simp only [Except.map, Except.ok.injEq, Prod.mk.injEq] at h2
          exact h2.1.symm

/-- Witness of C15: on the stream of two blocks, a call for three values ends
on the boundary of the first mini-block; the call for four values that follows
crosses into the second mini-block and into the second block, and stores what
the single call for seven values stores into its slots 3 to 6. -/
theorem incremental_consumption_witness :
    ((GetInternal IntType.int64
          ((freshDecoder zeroDecoder).SetData 9 (encodeStream exampleStream)) (3 : Nat)).writes =
        [(0, 10), (1, 10), (2, 11)] ∧
      (GetInternal IntType.int64 exampleAfterThree (4 : Nat)).writes =
        [(0, 10), (1, 24), (2, -7), (3, -2)] ∧
      (GetInternal IntType.int64 exampleAfterThree (4 : Nat)).outcome.map Prod.fst = .ok 4) ∧
    (GetInternal IntType.int64
        ((freshDecoder zeroDecoder).SetData 9 (encodeStream exampleStream))
        ((3 + 4 : Nat) : Int)).writes =
      (GetInternal IntType.int64
          ((freshDecoder zeroDecoder).SetData 9 (encodeStream exampleStream)) (3 : Nat)).writes ++
        (GetInternal IntType.int64 exampleAfterThree (4 : Nat)).writes.map
          (fun s => (3 + s.1, s.2)) :=
  ⟨by decide,
   ((incremental_consumption IntType.int64
     ((freshDecoder zeroDecoder).SetData 9 (encodeStream exampleStream)) 3 4 (by decide)
     (by decide) (by decide) (by decide)).2 3 exampleAfterThree (by decide)).2.1⟩

/-- A run of general rounds that succeeds splits into two runs that
succeed. -/
theorem generalRun_split (T : IntType) (n k : Nat) (d d2 : DeltaBitPackDecoder) (vs : List Int)
    (h : generalRun T (n + k) d = (vs, .ok d2)) :
    ∃ d1, generalRun T n d = (vs.take n, .ok d1) ∧ generalRun T k d1 = (vs.drop n, .ok d2) := by
  rw [generalRun_add] at h
  cases hr : (generalRun T n d).2 with
  | error e =>
    rw [hr] at h
    simp only [Prod.mk.injEq] at h
    cases h.2
  | ok d1 =>
    rw [hr] at h
    simp only [Prod.mk.injEq] at h
    obtain ⟨h1, h2⟩ := h
    have hl := generalRun_length_ok T n d d1 hr
    refine ⟨d1, ?_, ?_⟩
    · rw [← h1, List.take_left' hl]
      exact Prod.ext rfl hr
    · rw [← h1, List.drop_left' hl]
      exact Prod.ext rfl h2

/-- Incremental consumption on a well-formed stream: from the start of the
stream, with `a + b` no larger than the number of values and none of `a`, `b`
and `a + b` equal to 32, the call for `a` values, the call for `b` values that
follows and the single call for `a + b` values all return; the two calls store
the first `a` values and the next `b` values of the stream, the single call the
first `a + b`, and the two ways end with the same decoder. -/
theorem split_calls_on_stream (T : IntType) (blocks : List Block)
    (d0 : DeltaBitPackDecoder) (a b : Nat)
    (hlast : ¬ (0 ≤ d0.mini_block_idx_ + 1 ∧
      d0.mini_block_idx_ + 1 < (d0.delta_bit_widths_.length : Int)))
    (hwf : ∀ b ∈ blocks, b.wellFormed)
    (hvpm : ∀ b ∈ blocks, 0 < b.values_per_mini_block ∨ b.mini_blocks.length = 1)
    (hint : streamCount blocks < 2 ^ 31) (hab : a + b ≤ streamCount blocks)
    (ha : a ≠ 32) (hb : b ≠ 32) (hab32 : a + b ≠ 32) :
    ∃ d1 d2,
      GetInternal T (d0.SetData (streamCount blocks) (encodeStream blocks)) (a : Int) =
        { writes := (List.range' 0 a).zip
            (((streamValues blocks).take a).map (fun x => T.cast (wrapInt64 x)))
          outcome := .ok ((a : Int), d1) } ∧
      GetInternal T d1 (b : Int) =
        { writes := (List.range' 0 b).zip
            ((((streamValues blocks).drop a).take b).map (fun x => T.cast (wrapInt64 x)))
          outcome := .ok ((b : Int), d2) } ∧
      GetInternal T (d0.SetData (streamCount blocks) (encodeStream blocks)) ((a + b : Nat) : Int) =
        { writes := (List.range' 0 (a + b)).zip
            (((streamValues blocks).take (a + b)).map (fun x => T.cast (wrapInt64 x)))
          outcome := .ok (((a + b : Nat) : Int), d2) } := by
  have hall : ∀ b ∈ blocks, b.wellFormed ∧
      (0 < b.values_per_mini_block ∨ b.mini_blocks.length = 1) ∧
      b.values_per_mini_block < 2 ^ 31 ∧ b.mini_blocks.length < 2 ^ 63 := by
    intro b hb
    have hc := count_le_streamCount blocks b hb
    obtain ⟨hne, _⟩ := hwf b hb
    have hpos : 0 < b.mini_blocks.length := List.length_pos.mpr hne
    have : b.values_per_mini_block ≤ b.mini_blocks.length * b.values_per_mini_block :=
      Nat.le_mul_of_pos_left _ hpos
    unfold Block.count at hc
    refine ⟨hwf b hb, hvpm b hb, by omega, ?_⟩
    rcases hvpm b hb with hv | hv
    · have : b.mini_blocks.length ≤ b.mini_blocks.length * b.values_per_mini_block :=
        Nat.le_mul_of_pos_right _ hv
      omega
    · omega
  obtain ⟨dS, hdS⟩ : ∃ dS, dS = d0.SetData (streamCount blocks) (encodeStream blocks) :=
    ⟨_, rfl⟩
  obtain ⟨dEnd, hrun⟩ := generalRun_stream T blocks dS [] [] hall (by rw [hdS]; rfl)
    (by rw [hdS]; simpa [SetData] using hlast) (by rw [hdS]; simp [SetData])
    (by rw [hdS]; simp [SetData])
  obtain ⟨rest, hrest⟩ : ∃ rest, streamCount blocks = (a + b) + rest :=
    ⟨streamCount blocks - (a + b), by omega⟩
  have hlenv : (streamValues blocks).length = streamCount blocks := streamValues_length blocks hwf
  obtain ⟨vals, hvals⟩ : ∃ vals, vals = streamValues blocks := ⟨_, rfl⟩
  rw [← hvals] at hrun hlenv ⊢
  rw [← hdS]
  have hnv : dS.num_values_ = (streamCount blocks : Int) := by rw [hdS]; rfl
  obtain ⟨n, hn⟩ : ∃ n, n = streamCount blocks := ⟨_, rfl⟩
  rw [← hn] at hrun hrest hlenv hnv hab
  clear hdS hvals hn hall hint hwf hvpm hlast
  subst hrest
  obtain ⟨d2', hrun2, _⟩ := generalRun_split T (a + b) rest _ _ _ hrun
  obtain ⟨d1', hrunA, hrunB⟩ := generalRun_split T a b _ _ _ hrun2
  have hA := GetInternal_general T dS a (by rw [hnv]; push_cast; omega) ha
  have hAB := GetInternal_general T dS (a + b) (by rw [hnv]; push_cast; omega) hab32
  have hB := GetInternal_general T { d1' with num_values_ := dS.num_values_ - a } b
    (by simp only [hnv]; push_cast; omega) hb
  rw [generalRun_set_num_values, hrunB] at hB
  rw [hrunA] at hA
  rw [hrun2] at hAB
  have e1 : (vals.take (a + b)).take a = vals.take a := by
    rw [List.take_take]
    congr 1
    omega
  have e2 : (vals.take (a + b)).drop a = (vals.drop a).take b := by
    rw [List.drop_take]
    congr 1
    omega
  have l1 : (vals.take a).length = a := by rw [List.length_take]; omega
  have l2 : ((vals.drop a).take b).length = b := by
    rw [List.length_take, List.length_drop]; omega
  have l3 : (vals.take (a + b)).length = a + b := by rw [List.length_take]; omega
  simp only [← List.map_take, ← List.map_drop, e1, e2, List.length_map, l1, l2, l3,
    Except.map] at hA hAB hB
  refine ⟨_, _, hA, hB, ?_⟩
  rw [hAB]
  congr 3
  have h1 := generalRun_num_values T a dS d1' (congrArg Prod.snd hrunA)
  have h2 := generalRun_num_values T b d1' d2' (congrArg Prod.snd hrunB)
  push_cast
  congr 1
  omega

/-! ## What `InitBlock` accepts (C16) -/

theorem readWidths_spec (n : Nat) :
    ∀ (r r1 : BitReader) (ws : List Nat), readWidths n r = some (ws, r1) →
      ws.length = n ∧ ∀ w ∈ ws, w < 256 := by
  induction n with
  | zero =>
    intro r r1 ws h
    simp only [readWidths, Option.some.injEq, Prod.mk.injEq] at h
    rw [← h.1]
    simp
  | succ n ih =>
    intro r r1 ws h
    simp only [readWidths] at h
    cases hr : r.GetAligned with
    | none => rw [hr] at h; cases h
    | some p =>
      obtain ⟨w, r2⟩ := p
      rw [hr] at h
      simp only at h
      cases hk : readWidths n r2 with
      | none => rw [hk] at h; cases h
      | some q =>
        obtain ⟨ws1, r3⟩ := q
        rw [hk] at h
        simp only [Option.some.injEq, Prod.mk.injEq] at h
        obtain ⟨ih1, ih2⟩ := ih r2 r3 ws1 hk
        rw [← h.1]
        refine ⟨by simp [ih1], ?_⟩
        intro x hx
        rcases List.mem_cons.mp hx with hx | hx
        · unfold BitReader.GetAligned at hr
          split at hr
          · simp only [Option.some.injEq, Prod.mk.injEq] at hr
            rw [hx, ← hr.1]
            exact Nat.mod_lt _ (by norm_num)
          · cases hr
        · exact ih2 x hx

/-- The reads of the block header end with `EofException`, or the resize
throws `std::length_error` after the first four reads, or they deliver one bit
width byte per mini-block. -/
theorem readBlockHeader_cases (r : BitReader) :
    readBlockHeader r = .error ParquetError.Eof ∨
      (readBlockHeader r = .error ParquetError.LengthError ∧
        ∃ bs r1 n r2 vc r3 lv r4, r.GetVlqInt = some (bs, r1) ∧ r1.GetVlqInt = some (n, r2) ∧
          r2.GetVlqInt = some (vc, r3) ∧ r3.GetZigZagVlqInt = some (lv, r4) ∧
          maxVectorSize < n) ∨
      ∃ h, readBlockHeader r = .ok h ∧ h.delta_bit_widths.length = h.num_mini_blocks ∧
        (∀ w ∈ h.delta_bit_widths, w < 256) ∧ h.num_mini_blocks ≤ maxVectorSize ∧
        ∃ r1 r2, r.GetVlqInt = some (h.block_size, r1) ∧
          r1.GetVlqInt = some (h.num_mini_blocks, r2) := by
  unfold readBlockHeader
  simp only [bind, Except.bind]
  cases h1 : r.GetVlqInt with
  | none => left; rfl
  | some p1 =>
    obtain ⟨bs, r1⟩ := p1
    simp only [orEof]
    cases h2 : r1.GetVlqInt with
    | none => left; rfl
    | some p2 =>
      obtain ⟨nm, r2⟩ := p2
      simp only
      cases h3 : r2.GetVlqInt with
      | none => left; rfl
      | some p3 =>
        obtain ⟨vc, r3⟩ := p3
        simp only
        cases h4 : r3.GetZigZagVlqInt with
        | none => left; rfl
        | some p4 =>
          obtain ⟨lv, r4⟩ := p4
          simp only
          by_cases hsize : maxVectorSize < nm
          · right; left
            refine ⟨?_, bs, r1, nm, r2, vc, r3, lv, r4, rfl, h2, h3, h4, hsize⟩
            simp only [resizeWidths, if_pos hsize]
          · simp only [resizeWidths, if_neg hsize]
            cases h5 : r4.GetZigZagVlqInt with
            | none => left; rfl
            | some p5 =>
              obtain ⟨md, r5⟩ := p5
              simp only
              cases h6 : readWidths nm r5 with
              | none => left; rfl
              | some p6 =>
                obtain ⟨ws, r6⟩ := p6
                right; right
                exact ⟨_, rfl, (readWidths_spec nm r5 r6 ws h6).1,
                  (readWidths_spec nm r5 r6 ws h6).2, Nat.le_of_not_lt hsize, r1, r2, rfl, h2⟩

/-- The member `values_per_mini_block_` times the mini-block count is the
block size exactly when the count divides the block size and the quotient fits
`int`. -/
theorem wrapInt32_quotient (bs n : Nat) (hn : 0 < n) :
    (wrapInt32 ((bs / n : Nat) : Int) * (n : Int) = (bs : Int) ↔ n ∣ bs ∧ bs / n < 2 ^ 31) := by
  constructor
  · intro h
    have hlt : wrapInt32 ((bs / n : Nat) : Int) < 2 ^ 31 := by
      unfold wrapInt32 wrapSigned
      omega
    have hnn : 0 ≤ wrapInt32 ((bs / n : Nat) : Int) := by
      by_contra hneg
      have hneg' : wrapInt32 ((bs / n : Nat) : Int) < 0 := by omega
      have hn' : (0 : Int) < n := by exact_mod_cast hn
      have := Int.mul_neg_of_neg_of_pos hneg' hn'
      have hbs : (0 : Int) ≤ bs := Int.ofNat_nonneg bs
      omega
    obtain ⟨v, hv⟩ : ∃ v : Nat, wrapInt32 ((bs / n : Nat) : Int) = (v : Int) :=
      ⟨(wrapInt32 ((bs / n : Nat) : Int)).toNat, by omega⟩
    rw [hv] at h hlt
    have h' : v * n = bs := by exact_mod_cast h
    have hq : bs / n = v := by
      rw [← h']
      exact Nat.mul_div_cancel v hn
    refine ⟨⟨v, by rw [← h', Nat.mul_comm]⟩, ?_⟩
    rw [hq]
    exact_mod_cast hlt
  · rintro ⟨hdiv, hlt⟩
    rw [wrapInt32_of_lt _ hlt]
    have := Nat.div_mul_cancel hdiv
    exact_mod_cast this

/-- Counterexample to C16: on the header `unevenHeader` (block size 5, two
mini-blocks, bit widths 200 and 65) `InitBlock` returns without an exception,
and so does the call of `GetInt64` that runs it: the decoder then holds two
mini-blocks of `5 / 2 = 2` values, so that `2 * 2` is not the block size, and
the bit widths 200 and 65, both above 64.  On the header `wideHeader` (block
size `2^31`, one mini-block) it returns with `values_per_mini_block_ = -2^31`,
the quotient `2^31` converted to `int`. -/
theorem InitBlock_accepts_uneven_header :
    (InitBlock (zeroDecoder.SetData 3 unevenHeader)).map
        (fun d => (d.num_mini_blocks_, d.values_per_mini_block_, d.delta_bit_widths_,
          d.delta_bit_width_)) = .ok (2, 2, [200, 65], 200) ∧
      (GetInt64 ((freshDecoder zeroDecoder).SetData 3 unevenHeader) 1).outcome.map
        (fun r => (r.1, r.2.num_mini_blocks_, r.2.values_per_mini_block_,
          r.2.delta_bit_widths_)) = .ok (1, 2, 2, [200, 65]) ∧
      (¬ (2 ∣ 5) ∧ (2 : Int) * 2 ≠ 5 ∧ ¬ (200 ≤ 64) ∧ ¬ (65 ≤ 64)) ∧
      (InitBlock (zeroDecoder.SetData 1 wideHeader)).map
        (fun d => (d.num_mini_blocks_, d.values_per_mini_block_, d.delta_bit_widths_)) =
        .ok (1, -2147483648, [7]) ∧
      (-2147483648 : Int) * 1 ≠ 2 ^ 31 := by
  decide

/-- C16 as the code has it: `InitBlock` checks nothing.  Every header that it
reads to the end and whose mini-block count is not 0 is accepted; its
exceptions are `EofException` after a failed read and, for a mini-block count
of `2^31` or more, what `resize` throws, which is `std::length_error` when
the count is above the largest vector size.
When `InitBlock` returns, with `block_size` the first and the mini-block count
the second varint of the header: the count is at least 1, the width list has
one entry per mini-block, so that index 0 is valid, every stored width is a
byte, in `[0, 255]`, and the member `values_per_mini_block_` is the quotient
`block_size / num_mini_blocks_` rounded down and converted to `int`; the
member times the mini-block count is the block size exactly when the count
divides the block size and the quotient is below `2^31`. -/
theorem InitBlock_accepts_any_header (d : DeltaBitPackDecoder) :
    (∀ d1, InitBlock d = .ok d1 →
      ∃ h, readBlockHeader d.decoder_ = .ok h ∧
        (∃ r1 r2, d.decoder_.GetVlqInt = some (h.block_size, r1) ∧
          r1.GetVlqInt = some (h.num_mini_blocks, r2)) ∧
        1 ≤ h.num_mini_blocks ∧ h.num_mini_blocks ≤ maxVectorSize ∧
        d1.num_mini_blocks_ = h.num_mini_blocks ∧
        d1.delta_bit_widths_.length = d1.num_mini_blocks_ ∧
        (∀ w ∈ d1.delta_bit_widths_, w < 256) ∧
        d1.delta_bit_widths_[0]? = some d1.delta_bit_width_ ∧
        d1.values_per_mini_block_ =
          wrapInt32 ((h.block_size / d1.num_mini_blocks_ : Nat) : Int) ∧
        d1.values_current_mini_block_ = d1.values_per_mini_block_ ∧
        (h.block_size / d1.num_mini_blocks_ < 2 ^ 31 →
          d1.values_per_mini_block_ = ((h.block_size / d1.num_mini_blocks_ : Nat) : Int)) ∧
        (d1.values_per_mini_block_ * (d1.num_mini_blocks_ : Int) = (h.block_size : Int) ↔
          d1.num_mini_blocks_ ∣ h.block_size ∧ h.block_size / d1.num_mini_blocks_ < 2 ^ 31)) ∧
    (∀ h, readBlockHeader d.decoder_ = .ok h → h.num_mini_blocks ≠ 0 →
      ∃ d1, InitBlock d = .ok d1) ∧
    (∀ e, InitBlock d = .error e →
      e = ParquetError.Eof ∨
        (∃ bs r1 n r2 vc r3 lv r4, d.decoder_.GetVlqInt = some (bs, r1) ∧
          r1.GetVlqInt = some (n, r2) ∧ r2.GetVlqInt = some (vc, r3) ∧
          r3.GetZigZagVlqInt = some (lv, r4) ∧ 2 ^ 31 ≤ n) ∨
        (e = ParquetError.Undefined ∧
          ∃ h, readBlockHeader d.decoder_ = .ok h ∧ h.num_mini_blocks = 0)) ∧
    (∀ bs r1 n r2 vc r3 lv r4, d.decoder_.GetVlqInt = some (bs, r1) →
      r1.GetVlqInt = some (n, r2) → r2.GetVlqInt = some (vc, r3) →
      r3.GetZigZagVlqInt = some (lv, r4) → maxVectorSize < n →
      InitBlock d = .error ParquetError.LengthError) := by
  have hlast : ∀ bs r1 n r2 vc r3 lv r4, d.decoder_.GetVlqInt = some (bs, r1) →
      r1.GetVlqInt = some (n, r2) → r2.GetVlqInt = some (vc, r3) →
      r3.GetZigZagVlqInt = some (lv, r4) → maxVectorSize < n →
      InitBlock d = .error ParquetError.LengthError := by
    intro bs r1 n r2 vc r3 lv r4 h1 h2 h3 h4 hsize
    unfold InitBlock readBlockHeader
    simp only [bind, Except.bind, h1, orEof, h2, h3, h4, resizeWidths, if_pos hsize]
  refine ⟨?_, ?_, ?_, hlast⟩
  · intro d1 hd
    rcases readBlockHeader_cases d.decoder_ with herr | ⟨herr, _⟩ | ⟨h, hok, hlen, hw, hmax, hreads⟩
    · unfold InitBlock at hd
      rw [herr] at hd
      cases hd
    · unfold InitBlock at hd
      rw [herr] at hd
      cases hd
    · unfold InitBlock at hd
      rw [hok] at hd
      simp only at hd
      split at hd
      · cases hd
      · rename_i hne
        simp only [Except.ok.injEq] at hd
        subst hd
        refine ⟨h, hok, hreads, by omega, hmax, rfl, hlen, hw, ?_, rfl, rfl, ?_, ?_⟩
        · simp only
          cases hws : h.delta_bit_widths with
          | nil => rw [hws] at hlen; simp at hlen; omega
          | cons w ws => simp
        · intro hlt
          exact wrapInt32_of_lt _ hlt
        · exact wrapInt32_quotient h.block_size h.num_mini_blocks (by omega)
  · intro h' hh hne
    unfold InitBlock
    rw [hh]
    simp only
    rw [if_neg hne]
    exact ⟨_, rfl⟩
  · intro e he
    rcases readBlockHeader_cases d.decoder_ with herr | ⟨herr, hex⟩ | ⟨h, hok, _⟩
    · unfold InitBlock at he
      rw [herr] at he
      simp only [Except.error.injEq] at he
      exact Or.inl he.symm
    · unfold InitBlock at he
      rw [herr] at he
      simp only [Except.error.injEq] at he
      obtain ⟨bs, r1, n, r2, vc, r3, lv, r4, h1, h2, h3, h4, hsize⟩ := hex
      exact Or.inr (Or.inl ⟨bs, r1, n, r2, vc, r3, lv, r4, h1, h2, h3, h4, by
        unfold maxVectorSize at hsize
        omega⟩)
    · unfold InitBlock at he
      rw [hok] at he
      simp only at he
      split at he
      · rename_i hz
        simp only [Except.error.injEq] at he
        exact Or.inr (Or.inr ⟨he.symm, h, hok, hz⟩)
      · cases he

/-- Witness of C16: the header of the concrete scenario (block size 4, one
mini-block of bit width 3) is accepted with four values per mini-block; the
header `hugeCountHeader`, whose mini-block count is `2^63`, ends with
`std::length_error`. -/
theorem InitBlock_accepts_any_header_witness :
    ((InitBlock (zeroDecoder.SetData 5 scenarioBuffer)).map
        (fun d => (d.num_mini_blocks_, d.values_per_mini_block_, d.delta_bit_widths_)) =
      .ok (1, 4, [3]) ∧
      InitBlock (zeroDecoder.SetData 5 hugeCountHeader) = .error ParquetError.LengthError) ∧
    ∃ d1, InitBlock (zeroDecoder.SetData 5 scenarioBuffer) = .ok d1 :=
  ⟨by decide,
   (InitBlock_accepts_any_header (zeroDecoder.SetData 5 scenarioBuffer)).2.1
     { block_size := 4, num_mini_blocks := 1, values_current_block := 5, last_value := 10,
       min_delta := -1, delta_bit_widths := [3],
       reader := { data := scenarioBuffer, bitPos := 48 } }
     (by decide) (by decide)⟩

/-! ## The first value after `SetData` (C12) -/

/-- The loop of `GetByteArray` only appends to the stores made so far. -/
theorem GetByteArrayLoop_writes {σ : Type} (S : SuffixDecoder σ) (m : Int) (rounds : Nat) :
    ∀ (i : Nat) (d : DeltaByteArrayDecoder σ) (log : List (Nat × ByteArray)),
      ∃ rest, (DeltaByteArrayDecoder.GetByteArrayLoop S m rounds i d log).writes = log ++ rest := by
  induction rounds with
  | zero =>
    intro i d log
    exact ⟨[], by simp [DeltaByteArrayDecoder.GetByteArrayLoop]⟩
  | succ rounds ih =>
    intro i d log
    rw [DeltaByteArrayDecoder.GetByteArrayLoop]
    cases hb : DeltaByteArrayDecoder.GetByteArrayBody S d with
    | error e => exact ⟨[], by simp⟩
    | ok r =>
      obtain ⟨d1, value⟩ := r
      obtain ⟨rest, hrest⟩ := ih (i + 1) d1 (log ++ [(i, value)])
      exact ⟨(i, value) :: rest, by simp only; rw [hrest]; simp⟩

/-- The first store of a call of `GetByteArray` that decodes at least one
value is the value of the first round, into slot 0. -/
theorem GetByteArray_first {σ : Type} (S : SuffixDecoder σ) (d d1 : DeltaByteArrayDecoder σ)
    (value : ByteArray) (max_values : Int) (hpos : 0 < min max_values d.num_values_)
    (hbody : DeltaByteArrayDecoder.GetByteArrayBody S d = .ok (d1, value)) :
    (DeltaByteArrayDecoder.GetByteArray S d max_values).writes.head? = some (0, value) := by
  unfold DeltaByteArrayDecoder.GetByteArray
  simp only
  obtain ⟨k, hk⟩ : ∃ k, (min max_values d.num_values_).toNat = k + 1 :=
    ⟨(min max_values d.num_values_).toNat - 1, by omega⟩
  rw [hk, DeltaByteArrayDecoder.GetByteArrayLoop, hbody]
  simp only
  obtain ⟨rest, hrest⟩ := GetByteArrayLoop_writes S (min max_values d.num_values_) k (0 + 1) d1
    ([] ++ [(0, value)])
  rw [hrest]
  rfl

theorem SetData_last_value {σ : Type} (S : SuffixDecoder σ) (d d1 : DeltaByteArrayDecoder σ)
    (count : Int) (data : List Nat) (outside : Int → Nat)
    (h : DeltaByteArrayDecoder.SetData S d count data outside = .ok d1) :
    d1.last_value_ = d.last_value_ ∧ d1.num_values_ = count := by
  unfold DeltaByteArrayDecoder.SetData at h
  split at h
  · simp only [Except.ok.injEq] at h
    rw [← h]
    exact ⟨rfl, rfl⟩
  · split at h
    · cases h
    · simp only [Except.ok.injEq] at h
      rw [← h]
      exact ⟨rfl, rfl⟩

/-- Counterexample to C12: a decoder that emitted "apple" is rebound with
`SetData(1, icotStream)`, a stream that declares the prefix length 3 for its
first value and whose first suffix is "icot"; the first value emitted is
"appicot", of length 7, not the suffix.  On a decoder right after construction
the same stream makes the round copy three bytes through a `last_value_` that
was never assigned: nothing is stored. -/
theorem first_value_uses_declared_length :
    (DeltaByteArrayDecoder.SetData plainSuffixDecoder appleAfterOne 1 icotStream
        (fun _ => 0)).map
        (fun d => (d.suffix_decoder_, d.last_value_,
          (DeltaByteArrayDecoder.GetByteArray plainSuffixDecoder d 1).writes)) =
      .ok ((1, [4, 0, 0, 0] ++ asciiBytes "icot"), some (textValue "apple"),
        [(0, textValue "appicot")]) ∧
    textValue "appicot" ≠ textValue "icot" ∧
    (DeltaByteArrayDecoder.SetData plainSuffixDecoder freshByteArrayDecoder 1 icotStream
        (fun _ => 0)).map
        (fun d => ((DeltaByteArrayDecoder.GetByteArray plainSuffixDecoder d 1).writes,
          (DeltaByteArrayDecoder.GetByteArray plainSuffixDecoder d 1).outcome.map Prod.fst)) =
      .ok ([], .error ParquetError.Undefined) := by
  decide

/-- C12 as the code has it: `SetData` leaves `last_value_` as it was, never
assigned on a decoder right after construction and the last value of the
previous stream on a rebound one.  The first value a call then emits follows
the prefix length the stream declares: with the declared length 0 it is the
first suffix exactly, of the length of the suffix, whatever `last_value_`
holds; with a declared length `p > 0` no larger than the length of the value
in `last_value_` it is the first `p` bytes of that value followed by the
suffix. -/
theorem first_value_follows_declared_length {σ : Type} (S : SuffixDecoder σ) :
    (∀ (d d1 : DeltaByteArrayDecoder σ) (count : Int) (data : List Nat) (outside : Int → Nat),
      DeltaByteArrayDecoder.SetData S d count data outside = .ok d1 →
      d1.last_value_ = d.last_value_ ∧ d1.num_values_ = count) ∧
    (∀ (d : DeltaByteArrayDecoder σ) (max_values c : Int) (p1 : DeltaBitPackDecoder)
      (suffix : ByteArray) (s1 : σ),
      0 < min max_values d.num_values_ →
      (GetInt32 d.prefix_len_decoder_ 1).outcome = .ok (c, p1) →
      (slotValue (GetInt32 d.prefix_len_decoder_ 1).writes 0).getD 0 = 0 →
      S.GetByteArray d.suffix_decoder_ = .ok (some suffix, s1) →
      suffix.len ≤ suffix.ptr.length → suffix.len < 2 ^ 32 →
      (DeltaByteArrayDecoder.GetByteArray S d max_values).writes.head? =
        some (0, { len := suffix.len, ptr := suffix.ptr.take suffix.len })) ∧
    (∀ (d : DeltaByteArrayDecoder σ) (max_values c p : Int) (p1 : DeltaBitPackDecoder)
      (prev suffix : ByteArray) (s1 : σ),
      0 < min max_values d.num_values_ →
      d.last_value_ = some prev → prev.len ≤ prev.ptr.length →
      (GetInt32 d.prefix_len_decoder_ 1).outcome = .ok (c, p1) →
      (slotValue (GetInt32 d.prefix_len_decoder_ 1).writes 0).getD 0 = p →
      S.GetByteArray d.suffix_decoder_ = .ok (some suffix, s1) →
      0 < p → p ≤ (prev.len : Int) → suffix.len ≤ suffix.ptr.length →
      p.toNat + suffix.len < 2 ^ 32 →
      (DeltaByteArrayDecoder.GetByteArray S d max_values).writes.head? =
        some (0, { len := p.toNat + suffix.len
                   ptr := prev.ptr.take p.toNat ++ suffix.ptr.take suffix.len })) := by
  refine ⟨fun d d1 count data outside h => SetData_last_value S d d1 count data outside h,
    ?_, ?_⟩
  · intro d max_values c p1 suffix s1 hpos hout hp hs hsl hfit
    exact GetByteArray_first S d _ _ max_values hpos
      (GetByteArrayBody_zero S d c p1 suffix s1 hout hp hs hsl hfit)
  · intro d max_values c p p1 prev suffix s1 hpos hprev hstore hout hp hs h0 hle hsl hfit
    exact GetByteArray_first S d _ _ max_values hpos
      (GetByteArrayBody_reconstruct S d prev c p p1 suffix s1 (by rw [hprev]; rfl) hstore hout hp
        hs (by omega) hle hsl hfit)

/-- Witness of C12: `SetData(2, appleStream)` on a decoder right after
construction leaves `last_value_` unassigned; the stream declares the prefix
length 0 for its first value, and the first value emitted is the first suffix
"apple". -/
theorem first_value_follows_declared_length_witness :
    DeltaByteArrayDecoder.SetData plainSuffixDecoder freshByteArrayDecoder 2 appleStream
        (fun _ => 0) = .ok appleBound ∧
      (appleBound.last_value_ = freshByteArrayDecoder.last_value_ ∧ appleBound.num_values_ = 2) ∧
      (slotValue (GetInt32 appleBound.prefix_len_decoder_ 1).writes 0).getD 0 = 0 ∧
      (DeltaByteArrayDecoder.GetByteArray plainSuffixDecoder appleBound 2).writes.head? =
        some (0, { len := 5, ptr := asciiBytes "apple" }) :=
  ⟨rfl,
   (first_value_follows_declared_length plainSuffixDecoder).1 freshByteArrayDecoder appleBound 2
     appleStream (fun _ => 0) rfl,
   by decide,
   (first_value_follows_declared_length plainSuffixDecoder).2.1 appleBound 2 1
     appleAfterOne.prefix_len_decoder_ (textValue "apple") (1, [4, 0, 0, 0] ++ asciiBytes "icot")
     (by decide) (by decide) (by decide) (by decide) (by decide) (by decide)⟩

/-! ## `SetData` with an empty buffer (C13) -/

/-- Counterexample to C13: `SetData(2, data, 0)` on the decoder bound to
`appleStream` leaves two values to decode and the sub-decoders bound as they
were; the following `GetByteArray(buffer, 5)` returns 2 and stores "apple" and
"appicot" into slots 0 and 1.  On a decoder right after construction,
`SetData(3, data, 0)` leaves three values to decode, and the following call
for one value runs a round on the unbound sub-decoders instead of returning
0. -/
theorem empty_buffer_leaves_values_to_decode :
    (DeltaByteArrayDecoder.SetData plainSuffixDecoder appleBound 2 [] (fun _ => 0)).map
        (fun d => (d.num_values_,
          (DeltaByteArrayDecoder.GetByteArray plainSuffixDecoder d 5).writes,
          (DeltaByteArrayDecoder.GetByteArray plainSuffixDecoder d 5).outcome.map Prod.fst)) =
      .ok (2, [(0, textValue "apple"), (1, textValue "appicot")], .ok 2) ∧
    (DeltaByteArrayDecoder.SetData plainSuffixDecoder freshByteArrayDecoder 3 []
        (fun _ => 0)).map
        (fun d => (d.num_values_,
          (DeltaByteArrayDecoder.GetByteArray plainSuffixDecoder d 1).outcome.map Prod.fst)) =
      .ok (3, .error ParquetError.Undefined) := by
  decide

/-- C13 as the code has it: `SetData(count, data, 0)` binds neither
sub-decoder, changes nothing but `num_values_`, and leaves `count` values to
decode.  A following call of `GetByteArray` whose chunk size
`min(max_values, count)` is not positive returns that chunk size, stores
nothing and leaves the sub-decoders and `last_value_` as they were; so for
`count = 0` and `max_values >= 0` it returns 0 and leaves the decoder
unchanged. -/
theorem empty_buffer_keeps_count {σ : Type} (S : SuffixDecoder σ) (d : DeltaByteArrayDecoder σ)
    (count : Int) (outside : Int → Nat) :
    DeltaByteArrayDecoder.SetData S d count [] outside = .ok { d with num_values_ := count } ∧
    DeltaByteArrayDecoder.boundSlices [] = none ∧
    (∀ max_values : Int, min max_values count ≤ 0 →
      DeltaByteArrayDecoder.GetByteArray S { d with num_values_ := count } max_values =
        { writes := []
          outcome := .ok (min max_values count,
            { d with num_values_ := count - min max_values count }) }) ∧
    (count = 0 → ∀ max_values : Int, 0 ≤ max_values →
      DeltaByteArrayDecoder.GetByteArray S { d with num_values_ := count } max_values =
        { writes := [], outcome := .ok (0, { d with num_values_ := 0 }) }) := by
  have hloop : ∀ max_values : Int, min max_values count ≤ 0 →
      DeltaByteArrayDecoder.GetByteArray S { d with num_values_ := count } max_values =
        { writes := []
          outcome := .ok (min max_values count,
            { d with num_values_ := count - min max_values count }) } := by
    intro max_values hmin
    unfold DeltaByteArrayDecoder.GetByteArray
    simp only
    rw [Int.toNat_of_nonpos hmin]
    rfl
  refine ⟨rfl, rfl, hloop, ?_⟩
  intro h0 max_values hm
  subst h0
  have hmin : min max_values 0 = 0 := min_eq_right hm
  rw [hloop max_values (by omega), hmin]
  simp

/-- Witness of C13: rebound with `SetData(0, data, 0)`, the decoder bound to
`appleStream` returns 0 from a call for five values, stores nothing and stays
as it is. -/
theorem empty_buffer_keeps_count_witness :
    (min (5 : Int) 0 ≤ 0 ∧ (0 : Int) ≤ 5) ∧
      DeltaByteArrayDecoder.GetByteArray plainSuffixDecoder
          { appleBound with num_values_ := 0 } 5 =
        { writes := [], outcome := .ok (0, { appleBound with num_values_ := 0 }) } :=
  ⟨by decide, (empty_buffer_keeps_count plainSuffixDecoder appleBound 0 (fun _ => 0)).2.2.2 rfl 5
     (by decide)⟩

/-! ## The slices of `SetData` (C14, C20) -/

theorem prefixLenLength_of_length (data : List Nat) (hlen : 4 ≤ data.length) :
    DeltaByteArrayDecoder.prefixLenLength data = some (wrapInt32 (leNat (data.take 4) : Nat)) := by
  unfold DeltaByteArrayDecoder.prefixLenLength loadWord
  rw [if_pos (by omega)]
  simp

theorem Slice_bytes_of_prefixSlice (data : List Nat) (p : Nat) :
    (DeltaByteArrayDecoder.prefixSlice (p : Int)).bytes data = (data.drop 4).take p := by
  simp [DeltaByteArrayDecoder.prefixSlice, Slice.bytes]

theorem Slice_bytes_of_suffixSlice (data : List Nat) (p : Nat) (hp : 4 + p ≤ data.length) :
    (DeltaByteArrayDecoder.suffixSlice (data.length : Int) (p : Int)).bytes data =
      data.drop (4 + p) := by
  simp only [DeltaByteArrayDecoder.suffixSlice, Slice.bytes]
  have h1 : ((4 : Int) + (p : Int)).toNat = 4 + p := by omega
  have h2 : ((data.length : Int) - 4 - (p : Int)).toNat = data.length - (4 + p) := by omega
  rw [h1, h2]
  apply List.take_of_length_le
  simp

theorem bytesIn_length (s : Slice) (data : List Nat) (outside : Int → Nat) :
    (s.bytesIn data outside).length = s.len.toNat := by
  simp [Slice.bytesIn]

/-- Byte `i` of the range a sub-decoder is bound to is the byte at offset
`start + i` from the start of the buffer. -/
theorem bytesIn_getElem (s : Slice) (data : List Nat) (outside : Int → Nat) (i : Nat)
    (hi : i < s.len.toNat) :
    (s.bytesIn data outside)[i]? = some (byteAt data outside (s.start + (i : Int))) := by
  simp [Slice.bytesIn, List.getElem?_range hi]

/-- A range inside the buffer holds bytes of the buffer only, whatever the
memory around the buffer holds. -/
theorem bytesIn_of_inside (s : Slice) (data : List Nat) (outside : Int → Nat)
    (h : s.inside data.length) : s.bytesIn data outside = s.bytes data := by
  obtain ⟨h1, h2, h3⟩ := h
  apply List.ext_getElem?
  intro i
  by_cases hi : i < s.len.toNat
  · rw [bytesIn_getElem s data outside i hi]
    unfold Slice.bytes
    rw [List.getElem?_take_of_lt hi, List.getElem?_drop]
    have hk : 0 ≤ s.start + (i : Int) ∧ s.start + (i : Int) < (data.length : Int) := by omega
    unfold byteAt
    rw [if_pos hk]
    have e : (s.start + (i : Int)).toNat = s.start.toNat + i := by omega
    rw [e, List.getD_eq_getElem?_getD, List.getElem?_eq_getElem (by omega)]
    rfl
  · rw [List.getElem?_eq_none (by rw [bytesIn_length]; omega)]
    unfold Slice.bytes
    rw [List.getElem?_eq_none]
    rw [List.length_take]
    omega

/-- C14: for a buffer of `len >= 4` bytes whose first four bytes hold the
little-endian integer `p` with `p <= len - 4`, `SetData(count, data, len)`
hands the prefix-length decoder the range `(4, p)` and the suffix decoder the
range `(4 + p, len - 4 - p)`, each with the value count `count`: the prefix
length decoder reads the `p` bytes from byte 4 on, the suffix decoder the bytes
from byte `4 + p` to the end of the buffer, and the buffer is the four length
bytes followed by the one range and then the other; the memory around the
buffer plays no part. -/
theorem payload_slicing {σ : Type} (S : SuffixDecoder σ) (d : DeltaByteArrayDecoder σ)
    (count : Int) (data : List Nat) (outside : Int → Nat) (p : Nat)
    (hlen : 4 ≤ data.length) (hint : data.length < 2 ^ 31)
    (hp : leNat (data.take 4) = p) (hple : p ≤ data.length - 4) :
    DeltaByteArrayDecoder.boundSlices data =
        some ({ start := 4, len := p }, { start := 4 + p, len := data.length - 4 - p }) ∧
      DeltaByteArrayDecoder.SetData S d count data outside =
        .ok { d with
              num_values_ := count
              prefix_len_decoder_ := d.prefix_len_decoder_.SetData count ((data.drop 4).take p)
              suffix_decoder_ := S.SetData d.suffix_decoder_ count (data.drop (4 + p)) } ∧
      (d.prefix_len_decoder_.SetData count ((data.drop 4).take p)).num_values_ = count ∧
      (d.prefix_len_decoder_.SetData count ((data.drop 4).take p)).decoder_ =
        { data := (data.drop 4).take p, bitPos := 0 } ∧
      ((data.drop 4).take p).length = p ∧
      (data.drop (4 + p)).length = data.length - 4 - p ∧
      data = data.take 4 ++ ((data.drop 4).take p ++ data.drop (4 + p)) ∧
      (∀ i, i < p → ((data.drop 4).take p)[i]? = data[4 + i]?) ∧
      ∀ i, (data.drop (4 + p))[i]? = data[4 + p + i]? := by
  have hw : wrapInt32 (p : Int) = (p : Int) := by
    unfold wrapInt32 wrapSigned
    have : (p : Int) < 2 ^ 31 := by
      have : p < 2 ^ 31 := by omega
      exact_mod_cast this
    omega
  have hpl := prefixLenLength_of_length data hlen
  rw [hp, hw] at hpl
  have hsl : DeltaByteArrayDecoder.boundSlices data =
      some (DeltaByteArrayDecoder.prefixSlice (p : Int),
        DeltaByteArrayDecoder.suffixSlice (data.length : Int) (p : Int)) := by
    unfold DeltaByteArrayDecoder.boundSlices
    rw [hpl]
  have hin1 : (DeltaByteArrayDecoder.prefixSlice (p : Int)).inside data.length := by
    simp only [Slice.inside, DeltaByteArrayDecoder.prefixSlice]
    omega
  have hin2 : (DeltaByteArrayDecoder.suffixSlice (data.length : Int) (p : Int)).inside
      data.length := by
    simp only [Slice.inside, DeltaByteArrayDecoder.suffixSlice]
    omega
  refine ⟨?_, ?_, rfl, rfl, ?_, ?_, ?_, ?_, ?_⟩
  · rw [hsl]
    rfl
  · unfold DeltaByteArrayDecoder.SetData
    rw [if_neg (by omega), hsl]
    simp only
    rw [bytesIn_of_inside _ data outside hin1, bytesIn_of_inside _ data outside hin2,
      Slice_bytes_of_prefixSlice, Slice_bytes_of_suffixSlice data p (by omega)]
  · simp only [List.length_take, List.length_drop]
    omega
  · simp only [List.length_drop]
    omega
  · rw [← List.drop_drop, List.take_append_drop, List.take_append_drop]
  · intro i hi
    rw [List.getElem?_take_of_lt hi, List.getElem?_drop]
  · intro i
    rw [List.getElem?_drop]

/-- Witness of C14: `appleStream` has 27 bytes and the length 6 in its first
four; the prefix-length decoder is bound to bytes 4 to 9 and the suffix decoder
to bytes 10 to 26. -/
theorem payload_slicing_witness :
    (leNat (appleStream.take 4) = 6 ∧ appleStream.length = 27) ∧
      DeltaByteArrayDecoder.boundSlices appleStream =
        some ({ start := 4, len := (6 : Nat) },
          { start := 4 + (6 : Nat), len := appleStream.length - 4 - (6 : Nat) }) :=
  ⟨by decide,
   (payload_slicing plainSuffixDecoder freshByteArrayDecoder 2 appleStream (fun _ => 0) 6
     (by decide) (by decide) (by decide) (by decide)).1⟩

/-- The method `SetData` of the byte-array decoder raises no exception: when
the embedding gives it no result, the buffer has one to three bytes and the
load of the length reads outside it. -/
theorem SetData_raises_nothing {σ : Type} (S : SuffixDecoder σ) (d : DeltaByteArrayDecoder σ)
    (count : Int) (data : List Nat) (outside : Int → Nat) (e : ParquetError)
    (h : DeltaByteArrayDecoder.SetData S d count data outside = .error e) :
    e = ParquetError.Undefined ∧ 0 < data.length ∧ data.length < 4 := by
  unfold DeltaByteArrayDecoder.SetData at h
  split at h
  · cases h
  · rename_i hne
    split at h
    · rename_i hnone
      simp only [Except.error.injEq] at h
      refine ⟨h.symm, by omega, ?_⟩
      by_contra hcon
      have := prefixLenLength_of_length data (by omega)
      unfold DeltaByteArrayDecoder.boundSlices at hnone
      rw [this] at hnone
      cases hnone
    · cases h

end parquet_cpp
